import Mathlib

/-!
# golangbot: buffered channels and the worker pool

A shallow embedding of the Go programs under
`23-buffered-channels-and-worker-pools` and a verification of the worker pool of
`23-buffered-channels-and-worker-pools/08/main.go`, together with the programs
`22-channels/04`, `22-channels/07`, `22-channels/09` and `25-mutex/02`.

* A buffered Go channel is a `Chan`: a FIFO buffer, its capacity and a closed flag, with the
  three operations send, receive and close and their blocking / panicking outcomes.  The
  unbuffered channel `done` of the worker pool is a rendezvous: its send and its receive are one
  joint step.
* The worker pool is a transition system.  Every goroutine (main, `allocate`, each `worker`,
  `result`) has a program counter; one step of the system is one synchronisation operation
  (channel send / receive / close, `wg.Add`, `wg.Done`, `wg.Wait`, a `go` statement) of one
  goroutine, together with the local computation that follows it.  The interleavings of the Go
  program are the action sequences of the system.  Every goroutine whose operation can complete
  may take the next step, so every order in which the Go scheduler resumes blocked goroutines
  is covered.  A panic stops the program, and so does the return of `main`.
* Go `int` values are modelled by `Int`; loop counters, which start at `0` and are only
  incremented while below their bound, are modelled by `Nat`.  `digits` only ever computes
  values between `0` and its argument in absolute value, so no 64-bit operation overflows.
* `time.Sleep`, the time measurement of `main` and the text of the printed lines are left out;
  what `result` prints is recorded as the list of Results it has received.
* The other programs are transition systems of the same kind.  An unbuffered channel has no
  buffer: its send completes together with the matching receive, as one step of the sender,
  and a receive from it once it is closed completes alone.  The mutex of `25-mutex/02` is a
  flag, and the statement `x = x + 1` is a read of `x` followed by a write of it.
-/

namespace Golangbot

/-! ## Buffered channels -/

/-- A buffered channel `make(chan α, cap)`: the buffered values, oldest first, the capacity and
whether `close` has been called. -/
structure Chan (α : Type) where
  buf : List α
  cap : Nat
  closed : Bool
deriving DecidableEq, Repr

/-- Outcome of `ch <- v`. -/
inductive SendOutcome (α : Type) where
  /-- The value was buffered. -/
  | ok (c : Chan α)
  /-- The buffer is full: the sender is blocked. -/
  | blocked
  /-- Send on a closed channel: the program panics. -/
  | panic
deriving DecidableEq, Repr

/-- Outcome of `v, ok := <-ch`. -/
inductive RecvOutcome (α : Type) where
  /-- A value was taken from the buffer (`ok = true`). -/
  | value (v : α) (c : Chan α)
  /-- The channel is closed and drained: zero value and `ok = false`. -/
  | closedEmpty
  /-- The buffer is empty and the channel is open: the receiver is blocked. -/
  | blocked
deriving DecidableEq, Repr

/-- Outcome of `close(ch)`. -/
inductive CloseOutcome (α : Type) where
  /-- The channel is now closed. -/
  | ok (c : Chan α)
  /-- Close of a closed channel: the program panics. -/
  | panic
deriving DecidableEq, Repr

namespace Chan

variable {α : Type}

/-- The channel `make(chan α, cap)`. -/
def make (cap : Nat) : Chan α := { buf := [], cap := cap, closed := false }

/-- The statement `ch <- v` on a buffered channel. -/
def send (c : Chan α) (v : α) : SendOutcome α :=
  if c.closed then .panic
  else if c.buf.length < c.cap then .ok { c with buf := c.buf ++ [v] }
  else .blocked

/-- The expression `<-ch` on a buffered channel. -/
def recv (c : Chan α) : RecvOutcome α :=
  match c.buf with
  | v :: rest => .value v { c with buf := rest }
  | [] => if c.closed then .closedEmpty else .blocked

/-- The statement `close(ch)`. -/
def close (c : Chan α) : CloseOutcome α :=
  if c.closed then .panic else .ok { c with closed := true }

end Chan

/-! ## `23-buffered-channels-and-worker-pools/08`: jobs, results and `digits` -/

/-- The struct `Job`. -/
structure Job where
  id : Int
  randomno : Int
deriving DecidableEq, Repr

/-- The struct `Result`. -/
structure Result where
  job : Job
  sumofdigits : Int
deriving DecidableEq, Repr

/-- The loop `for no != 0 { digit := no % 10; sum += digit; no /= 10 }` of `digits`.
Go's `%` and `/` truncate towards zero. -/
def digitsLoop (sum no : Int) : Int :=
  if no = 0 then sum
  else digitsLoop (sum + Int.tmod no 10) (Int.tdiv no 10)
termination_by no.natAbs
decreasing_by
  rw [Int.natAbs_tdiv]
  have hpos : 0 < no.natAbs := Int.natAbs_pos.mpr ‹_›
  exact Nat.div_lt_self hpos (by decide)

/-- The function `digits` (the `time.Sleep` aside). -/
def digits (number : Int) : Int := digitsLoop 0 number

/-! ## The worker pool as a transition system -/

/-- The parameters of a run: the two arguments `noOfJobs` and `noOfWorkers` and the capacities
of the two package-level channels `jobs` and `results`. -/
structure Config where
  noOfJobs : Int
  noOfWorkers : Int
  jobsCap : Nat
  resultsCap : Nat
deriving DecidableEq, Repr

/-- The parameters `main` uses: 100 jobs, 10 workers, both channels of capacity 10. -/
def mainConfig : Config := { noOfJobs := 100, noOfWorkers := 10, jobsCap := 10, resultsCap := 10 }

/-- Program counter of the main goroutine; `createWorkerPool` runs on it. -/
inductive MainPc where
  /-- At `go allocate(noOfJobs)`. -/
  | goAllocate
  /-- At `done := make(chan bool); go result(done)`. -/
  | goResult
  /-- In `createWorkerPool` at the loop test with counter `i`: next is `wg.Add(1)` when
  `i < noOfWorkers`, and `wg.Wait()` otherwise. -/
  | poolLoop (i : Nat)
  /-- In `createWorkerPool` at `go worker(&wg)`, loop counter `i`. -/
  | poolGo (i : Nat)
  /-- In `createWorkerPool` at `close(results)`. -/
  | poolClose
  /-- At `<-done`. -/
  | recvDone
  /-- Past `<-done`. -/
  | finished
deriving DecidableEq, Repr

/-- Program counter of the `allocate` goroutine. -/
inductive AllocPc where
  /-- The goroutine has not been started. -/
  | notStarted
  /-- At the loop test with counter `i`: next is `jobs <- job` when `i < noOfJobs`, and
  `close(jobs)` otherwise. -/
  | loop (i : Nat)
  /-- The function has returned. -/
  | finished
deriving DecidableEq, Repr

/-- Program counter of a `worker` goroutine. -/
inductive WorkerPc where
  /-- At the receive of `for job := range jobs`. -/
  | recv
  /-- At `results <- output`, holding `output`. -/
  | send (output : Result)
  /-- Left the loop, at `wg.Done()`. -/
  | exit
  /-- The function has returned. -/
  | done
deriving DecidableEq, Repr

/-- Program counter of the `result` goroutine. -/
inductive ResultPc where
  /-- The goroutine has not been started. -/
  | notStarted
  /-- At the receive of `for result := range results`. -/
  | recv
  /-- At `done <- true`. -/
  | sendDone
  /-- The function has returned. -/
  | finished
deriving DecidableEq, Repr

/-- An operation performed on the `jobs` channel by `allocate`. -/
inductive JobsOp where
  | send (job : Job)
  | close
deriving DecidableEq, Repr

/-- The state of the program.  The fields from `jobsLog` on are history variables: they record
what has happened and no step reads them. -/
structure State where
  /-- The channel `jobs`. -/
  jobs : Chan Job
  /-- The channel `results`. -/
  results : Chan Result
  /-- The counter of the WaitGroup `wg`. -/
  wg : Nat
  main : MainPc
  alloc : AllocPc
  /-- The worker goroutines, in the order they were started. -/
  workers : List WorkerPc
  consumer : ResultPc
  /-- The program has panicked. -/
  panicked : Bool
  /-- The Results printed by `result`, in order. -/
  printed : List Result
  /-- The operations `allocate` has completed on `jobs`, in order. -/
  jobsLog : List JobsOp
  /-- The Jobs received from `jobs`, in order, each with the index of the receiving worker. -/
  dequeued : List (Nat × Job)
  /-- The Results sent on `results`, in order. -/
  resultsLog : List Result
  /-- How many sends on `done` have completed. -/
  doneSignals : Nat
deriving DecidableEq, Repr

/-- The state when `main` starts: the two package-level channels are made, nothing runs. -/
def init (cfg : Config) : State :=
  { jobs := Chan.make cfg.jobsCap
    results := Chan.make cfg.resultsCap
    wg := 0
    main := .goAllocate
    alloc := .notStarted
    workers := []
    consumer := .notStarted
    panicked := false
    printed := []
    jobsLog := []
    dequeued := []
    resultsLog := []
    doneSignals := 0 }

/-- One step of the main goroutine (`main` and the inlined call `createWorkerPool`).  The
receive `<-done` on the unbuffered channel completes together with the send of `result`; it is
the step of `resultStep`. -/
def mainStep (cfg : Config) (s : State) : Option State :=
  match s.main with
  | .goAllocate => some { s with main := .goResult, alloc := .loop 0 }
  | .goResult => some { s with main := .poolLoop 0, consumer := .recv }
  | .poolLoop i =>
    if (i : Int) < cfg.noOfWorkers then
      -- wg.Add(1)
      some { s with wg := s.wg + 1, main := .poolGo i }
    else if s.wg = 0 then
      -- wg.Wait() returns
      some { s with main := .poolClose }
    else none
  | .poolGo i => some { s with workers := s.workers ++ [.recv], main := .poolLoop (i + 1) }
  | .poolClose =>
    match s.results.close with
    | .ok c => some { s with results := c, main := .recvDone }
    | .panic => some { s with panicked := true }
  | .recvDone => none
  | .finished => none

/-- One step of `allocate`; `r` is the value returned by `rand.Intn(999)`. -/
def allocateStep (cfg : Config) (s : State) (r : Int) : Option State :=
  match s.alloc with
  | .notStarted => none
  | .loop i =>
    if (i : Int) < cfg.noOfJobs then
      if 0 ≤ r ∧ r < 999 then
        match s.jobs.send { id := i, randomno := r } with
        | .ok c =>
          some { s with jobs := c, alloc := .loop (i + 1),
                        jobsLog := s.jobsLog ++ [.send { id := i, randomno := r }] }
        | .blocked => none
        | .panic => some { s with panicked := true }
      else none
    else
      match s.jobs.close with
      | .ok c => some { s with jobs := c, alloc := .finished, jobsLog := s.jobsLog ++ [.close] }
      | .panic => some { s with panicked := true }
  | .finished => none

/-- The value `Result{job, digits(job.randomno)}` that `worker` builds for a Job. -/
def mkResult (job : Job) : Result := { job := job, sumofdigits := digits job.randomno }

/-- One step of the worker with index `w`. -/
def workerStep (s : State) (w : Nat) : Option State :=
  match s.workers[w]? with
  | none => none
  | some .recv =>
    match s.jobs.recv with
    | .value job c =>
      some { s with jobs := c,
                    workers := s.workers.set w (.send (mkResult job)),
                    dequeued := s.dequeued ++ [(w, job)] }
    | .closedEmpty => some { s with workers := s.workers.set w .exit }
    | .blocked => none
  | some (.send output) =>
    match s.results.send output with
    | .ok c =>
      some { s with results := c, workers := s.workers.set w .recv,
                    resultsLog := s.resultsLog ++ [output] }
    | .blocked => none
    | .panic => some { s with panicked := true }
  | some .exit =>
    -- wg.Done(); a negative counter panics
    if s.wg = 0 then some { s with panicked := true }
    else some { s with wg := s.wg - 1, workers := s.workers.set w .done }
  | some .done => none

/-- One step of `result`.  The send `done <- true` on the unbuffered channel `done` completes
only together with the receive `<-done` of `main`. -/
def resultStep (s : State) : Option State :=
  match s.consumer with
  | .notStarted => none
  | .recv =>
    match s.results.recv with
    | .value r c => some { s with results := c, printed := s.printed ++ [r] }
    | .closedEmpty => some { s with consumer := .sendDone }
    | .blocked => none
  | .sendDone =>
    if s.main = .recvDone then
      some { s with consumer := .finished, main := .finished, doneSignals := s.doneSignals + 1 }
    else none
  | .finished => none

/-- Which goroutine takes the next step. -/
inductive Action where
  | main
  | allocate (r : Int)
  | worker (w : Nat)
  | result
deriving DecidableEq, Repr

/-- One step of the program: `none` when the chosen goroutine is blocked, not started or has
returned, and when the program has panicked or `main` has returned (the process has exited). -/
def step (cfg : Config) (s : State) (a : Action) : Option State :=
  if s.panicked = true ∨ s.main = .finished then none
  else
    match a with
    | .main => mainStep cfg s
    | .allocate r => allocateStep cfg s r
    | .worker w => workerStep s w
    | .result => resultStep s

/-- The states the program can reach, under every interleaving. -/
inductive Reachable (cfg : Config) : State → Prop where
  | init : Reachable cfg (init cfg)
  | step {s t : State} (a : Action) : Reachable cfg s → step cfg s a = some t → Reachable cfg t

/-- Run a schedule from `s`; an action that is not enabled is skipped. -/
def execFrom (cfg : Config) (s : State) (sched : List Action) : State :=
  sched.foldl (fun st a => (step cfg st a).getD st) s

/-- Run a schedule from the initial state. -/
def exec (cfg : Config) (sched : List Action) : State := execFrom cfg (init cfg) sched

/-- The Job of a send operation. -/
def JobsOp.sentJob : JobsOp → Option Job
  | .send job => some job
  | .close => none

/-- The Jobs `allocate` has sent on `jobs`, in order. -/
def State.sent (s : State) : List Job := s.jobsLog.filterMap JobsOp.sentJob

/-- The Result a worker is holding, if any. -/
def WorkerPc.held : WorkerPc → Option Result
  | .send output => some output
  | _ => none

/-- The Results held by workers that have not yet sent them. -/
def State.heldResults (s : State) : List Result := s.workers.filterMap WorkerPc.held

/-! ## The invariant of the worker pool -/

/-- The number of workers that have not returned. -/
def activeWorkers (ws : List WorkerPc) : Nat := ws.countP fun p => decide (p ≠ .done)

/-- The number of `wg.Add(1)` calls whose worker has not been started yet. -/
def MainPc.pendingAdd : MainPc → Nat
  | .poolGo _ => 1
  | _ => 0

/-- The inductive invariant of the worker pool: it holds initially and every step keeps it. -/
structure Inv (cfg : Config) (s : State) : Prop where
  /-- The program has not panicked. -/
  noPanic : s.panicked = false
  jobsCap : s.jobs.cap = cfg.jobsCap
  resultsCap : s.results.cap = cfg.resultsCap
  /-- `allocate` runs from `go allocate` on. -/
  allocStarted : s.alloc = .notStarted ↔ s.main = .goAllocate
  /-- `result` runs from `go result` on. -/
  consStarted : s.consumer = .notStarted ↔ (s.main = .goAllocate ∨ s.main = .goResult)
  /-- `jobs` is closed exactly when `allocate` has returned. -/
  jobsClosed : s.jobs.closed = true ↔ s.alloc = .finished
  /-- `allocate` sends, and closes last. -/
  jobsLogShape :
    s.sent.map JobsOp.send ++ (if s.alloc = .finished then [JobsOp.close] else []) = s.jobsLog
  /-- The ids of the Jobs sent are `0, 1, 2, ...` in this order. -/
  sentIds : s.sent.map Job.id = (List.range s.sent.length).map Int.ofNat
  sentNotStarted : s.alloc = .notStarted → s.jobsLog = []
  sentLoop : ∀ i, s.alloc = .loop i → s.sent.length = i ∧ i ≤ cfg.noOfJobs.toNat
  sentFinished : s.alloc = .finished → s.sent.length = cfg.noOfJobs.toNat
  sentRand : ∀ j ∈ s.sent, 0 ≤ j.randomno ∧ j.randomno < 999
  /-- The Jobs sent are the Jobs received followed by the Jobs still buffered. -/
  sentSplit : s.sent = s.dequeued.map Prod.snd ++ s.jobs.buf
  deqWorker : ∀ p ∈ s.dequeued, p.1 < s.workers.length
  /-- A worker leaves its loop only when `jobs` is closed and drained. -/
  workerExit : ∀ p ∈ s.workers, p = .exit ∨ p = .done → s.jobs.closed = true ∧ s.jobs.buf = []
  /-- The WaitGroup counter counts the workers that have not returned, and the one about to be
  started. -/
  wgCount : s.wg = activeWorkers s.workers + s.main.pendingAdd
  workersNotStarted : s.main = .goAllocate ∨ s.main = .goResult → s.workers = []
  workersLoop : ∀ i, s.main = .poolLoop i →
    s.workers.length = i ∧ i ≤ cfg.noOfWorkers.toNat
  workersGo : ∀ i, s.main = .poolGo i → s.workers.length = i ∧ (i : Int) < cfg.noOfWorkers
  /-- Past `wg.Wait()` every worker has been started and has returned. -/
  workersJoined : s.main = .poolClose ∨ s.main = .recvDone ∨ s.main = .finished →
    cfg.noOfWorkers ≤ (s.workers.length : Int) ∧ s.workers.length ≤ cfg.noOfWorkers.toNat ∧
      ∀ p ∈ s.workers, p = .done
  /-- `results` is closed exactly when `main` is past `close(results)`. -/
  resultsClosed : s.results.closed = true ↔ (s.main = .recvDone ∨ s.main = .finished)
  /-- The Results sent or held are, up to order, the Results of the Jobs received. -/
  resultsPerm : (s.dequeued.map fun p => mkResult p.2).Perm (s.resultsLog ++ s.heldResults)
  /-- With at most one worker the order is kept as well. -/
  singleOrder : s.workers.length ≤ 1 →
    s.resultsLog ++ s.heldResults = s.dequeued.map fun p => mkResult p.2
  /-- The Results sent are the Results printed followed by the Results still buffered. -/
  resultsSplit : s.resultsLog = s.printed ++ s.results.buf
  /-- `result` leaves its loop only when `results` is closed and drained. -/
  consDone : s.consumer = .sendDone ∨ s.consumer = .finished →
    s.results.closed = true ∧ s.results.buf = []
  consFinished : s.consumer = .finished ↔ s.main = .finished
  doneCount : s.doneSignals = if s.consumer = .finished then 1 else 0

/-! ## Concrete runs -/

/-- Five jobs, one worker, both channels of capacity one. -/
def smallConfig : Config := { noOfJobs := 5, noOfWorkers := 1, jobsCap := 1, resultsCap := 1 }

/-- No job at all; ten workers and capacity ten as in `main`. -/
def emptyConfig : Config := { noOfJobs := 0, noOfWorkers := 10, jobsCap := 10, resultsCap := 10 }

/-- The schedule that lets main, `allocate` (drawing 589 each time), worker 0 and `result` take
turns, `n` times round. -/
def roundRobin (n : Nat) : List Action :=
  (List.replicate n [Action.main, Action.allocate 589, Action.worker 0, Action.result]).flatten

/-- A complete run of `emptyConfig`: main starts everything, `allocate` closes `jobs`, every
worker leaves its loop and returns, main closes `results`, `result` signals. -/
def emptySchedule : List Action :=
  List.replicate 22 Action.main ++ [Action.allocate 0] ++
    (List.range 10).map Action.worker ++ (List.range 10).map Action.worker ++
    [Action.main, Action.main, Action.result, Action.result]

/-! ## `23-buffered-channels-and-worker-pools/03`: three sends on a channel of capacity two -/

namespace Prog03

/-- The state of the single goroutine `main`: the channel `ch`, the number of statements
completed, the lines printed, and whether the goroutine has panicked. -/
structure State where
  ch : Chan String
  pc : Nat
  out : List String
  panicked : Bool
deriving DecidableEq, Repr

/-- The state after `ch := make(chan string, 2)`. -/
def init : State := { ch := Chan.make 2, pc := 0, out := [], panicked := false }

/-- The statement `ch <- v`. -/
def sendStmt (s : State) (v : String) : Option State :=
  match s.ch.send v with
  | .ok c => some { s with ch := c, pc := s.pc + 1 }
  | .blocked => none
  | .panic => some { s with panicked := true }

/-- The statement `fmt.Println(<-ch)`; a closed and drained channel yields the zero value. -/
def printRecv (s : State) : Option State :=
  match s.ch.recv with
  | .value v c => some { s with ch := c, pc := s.pc + 1, out := s.out ++ [v] }
  | .closedEmpty => some { s with pc := s.pc + 1, out := s.out ++ [""] }
  | .blocked => none

/-- One step of `main`: `none` when the goroutine is blocked or has ended. -/
def step (s : State) : Option State :=
  if s.panicked then none
  else
    match s.pc with
    | 0 => sendStmt s "naveen"
    | 1 => sendStmt s "paul"
    | 2 => sendStmt s "steve"
    | 3 => printRecv s
    | 4 => printRecv s
    | _ => none

/-- The state after at most `n` steps: a goroutine that cannot step stays where it is. -/
def run : Nat → State
  | 0 => init
  | n + 1 => (step (run n)).getD (run n)

end Prog03

/-! ## A bound on the number of steps still to come -/

/-- Steps `main` still has to take, with `W` workers to start. -/
def MainPc.remaining (W : Nat) : MainPc → Nat
  | .goAllocate => 2 * W + 5
  | .goResult => 2 * W + 4
  | .poolLoop i => 2 * (W - i) + 3
  | .poolGo i => 2 * (W - i) + 2
  | .poolClose => 2
  | .recvDone => 1
  | .finished => 0

/-- Steps `allocate` still has to take, with `J` jobs to send. -/
def AllocPc.remaining (J : Nat) : AllocPc → Nat
  | .notStarted => J + 1
  | .loop i => (J - i) + 1
  | .finished => 0

/-- Steps a worker still has to take to leave its loop and return. -/
def WorkerPc.remaining : WorkerPc → Nat
  | .recv => 2
  | .send _ => 2
  | .exit => 1
  | .done => 0

/-- Steps `result` still has to take to leave its loop and signal. -/
def ResultPc.remaining : ResultPc → Nat
  | .notStarted => 2
  | .recv => 2
  | .sendDone => 1
  | .finished => 0

/-- An upper bound on the number of steps the program can still take. -/
def remaining (cfg : Config) (s : State) : Nat :=
  s.main.remaining cfg.noOfWorkers.toNat + s.alloc.remaining cfg.noOfJobs.toNat +
    (s.workers.map WorkerPc.remaining).sum + 2 * (cfg.noOfWorkers.toNat - s.workers.length) +
    (cfg.noOfJobs.toNat - s.dequeued.length) + (cfg.noOfJobs.toNat - s.resultsLog.length) +
    (cfg.noOfJobs.toNat - s.printed.length) + s.consumer.remaining

/-! ## The loop of `digits`, pass by pass -/

/-- One pass through the body of the loop of `digits`, on the pair `(sum, no)`. -/
def digitsBody (p : Int × Int) : Int × Int := (p.1 + Int.tmod p.2 10, Int.tdiv p.2 10)

/-! ## Sending, closing and ranging over a buffered channel -/

/-- Outcome of a sequence of sends `ch <- v` by one goroutine, in order. -/
def Chan.sendAll {α : Type} (c : Chan α) : List α → SendOutcome α
  | [] => .ok c
  | v :: vs =>
    match c.send v with
    | .ok c1 => Chan.sendAll c1 vs
    | .blocked => .blocked
    | .panic => .panic

/-- Outcome of the loop `for v := range ch` when no other goroutine uses the channel. -/
inductive RangeOutcome (α : Type) where
  /-- The loop has ended: the values received, in order, and the channel left behind. -/
  | ended (received : List α) (c : Chan α)
  /-- A receive blocks for ever: the values received before, and the channel. -/
  | blocked (received : List α) (c : Chan α)
deriving DecidableEq, Repr

/-- The loop `for v := range ch`, collecting the values received: receive until the receive
reports `ok = false`. -/
def Chan.rangeLoop {α : Type} (c : Chan α) (received : List α) : RangeOutcome α :=
  match _h : c.recv with
  | .value v c1 => Chan.rangeLoop c1 (received ++ [v])
  | .closedEmpty => .ended received c
  | .blocked => .blocked received c
termination_by c.buf.length
decreasing_by
  unfold Chan.recv at _h
  split at _h
  · rename_i w rest hb
    simp only [RecvOutcome.value.injEq] at _h
    rw [← _h.2, hb]
    simp
  · split at _h <;> simp at _h

/-! ## `23-buffered-channels-and-worker-pools/05`: range over a closed channel -/

namespace Prog05

/-- The state of the single goroutine `main`: the channel `ch`, the program counter (`0`, `1`:
the two sends, `2`: the close, `3`: the receive of the range loop, `4`: returned), the numbers
printed, and whether the goroutine has panicked. -/
structure State where
  ch : Chan Int
  pc : Nat
  out : List Int
  panicked : Bool
deriving DecidableEq, Repr

/-- The state after `ch := make(chan int, 5)`. -/
def init : State := { ch := Chan.make 5, pc := 0, out := [], panicked := false }

/-- The statement `ch <- v`. -/
def sendStmt (s : State) (v : Int) : Option State :=
  match s.ch.send v with
  | .ok c => some { s with ch := c, pc := s.pc + 1 }
  | .blocked => none
  | .panic => some { s with panicked := true }

/-- One step of `main`: `none` when the goroutine is blocked or has ended. -/
def step (s : State) : Option State :=
  if s.panicked then none
  else
    match s.pc with
    | 0 => sendStmt s 5
    | 1 => sendStmt s 6
    | 2 =>
      match s.ch.close with
      | .ok c => some { s with ch := c, pc := 3 }
      | .panic => some { s with panicked := true }
    | 3 =>
      -- for n := range ch { fmt.Println("Received:", n) }
      match s.ch.recv with
      | .value n c => some { s with ch := c, out := s.out ++ [n] }
      | .closedEmpty => some { s with pc := 4 }
      | .blocked => none
    | _ => none

/-- The state after at most `n` steps: a goroutine that cannot step stays where it is. -/
def run : Nat → State
  | 0 => init
  | n + 1 => (step (run n)).getD (run n)

end Prog05

/-! ## `22-channels/07`: receive with `ok` from an unbuffered channel -/

namespace Prog07

/-- Program counter of the `producer` goroutine. -/
inductive ProducerPc where
  /-- The goroutine has not been started. -/
  | notStarted
  /-- At the loop test with counter `i`: next is `chnl <- i` when `i < 10`, and `close(chnl)`
  otherwise. -/
  | loop (i : Nat)
  /-- The function has returned. -/
  | finished
deriving DecidableEq, Repr

/-- Program counter of `main`. -/
inductive MainPc where
  /-- At `go producer(ch)`. -/
  | goProducer
  /-- At `v, ok := <-ch`. -/
  | recv
  /-- Past the `break`. -/
  | ended
deriving DecidableEq, Repr

/-- The state of the program: whether the unbuffered channel `ch` is closed, the two program
counters, the pairs `v, ok` printed, and whether the program has panicked. -/
structure State where
  closed : Bool
  producer : ProducerPc
  main : MainPc
  out : List (Int × Bool)
  panicked : Bool
deriving DecidableEq, Repr

/-- The state when `main` has made the channel. -/
def init : State :=
  { closed := false, producer := .notStarted, main := .goProducer, out := [], panicked := false }

/-- Which goroutine takes the next step. -/
inductive Action where
  | producer
  | main
deriving DecidableEq, Repr

/-- One step of the program.  A send on the unbuffered channel completes only together with a
receive: it is the step of the producer, taken while `main` is at its receive.  A receive from
the closed channel completes alone, with `ok = false`. -/
def step (s : State) (a : Action) : Option State :=
  if s.panicked = true ∨ s.main = .ended then none
  else
    match a with
    | .main =>
      match s.main with
      | .goProducer => some { s with main := .recv, producer := .loop 0 }
      | .recv => if s.closed then some { s with main := .ended } else none
      | .ended => none
    | .producer =>
      match s.producer with
      | .notStarted => none
      | .loop i =>
        if i < 10 then
          if s.closed then some { s with panicked := true }
          else if s.main = .recv then
            some { s with producer := .loop (i + 1), out := s.out ++ [((i : Int), true)] }
          else none
        else if s.closed then some { s with panicked := true }
        else some { s with closed := true, producer := .finished }
      | .finished => none

/-- The states the program can reach. -/
inductive Reachable : State → Prop where
  | init : Reachable init
  | step {s t : State} (a : Action) : Reachable s → step s a = some t → Reachable t

/-- The lines printed once `i` values have been sent. -/
def received (i : Nat) : List (Int × Bool) := (List.range i).map fun k => ((k : Int), true)

/-- The invariant of the program. -/
structure Inv (s : State) : Prop where
  noPanic : s.panicked = false
  notStarted : s.producer = .notStarted → s.main = .goProducer ∧ s.out = [] ∧ s.closed = false
  loop : ∀ i, s.producer = .loop i → s.main = .recv ∧ s.out = received i ∧ s.closed = false ∧ i ≤ 10
  finished : s.producer = .finished → s.out = received 10 ∧ s.closed = true ∧ s.main ≠ .goProducer

/-- An upper bound on the number of steps the program can still take: those of `main` (the
`go` statement and the receive that ends its loop) and those of `producer` (ten sends and the
close). -/
def remaining (s : State) : Nat :=
  (match s.main with
    | .goProducer => 2
    | .recv => 1
    | .ended => 0) +
  (match s.producer with
    | .notStarted => 11
    | .loop i => 11 - i
    | .finished => 0)

end Prog07

/-! ## The worker pool without a worker -/

/-- Five jobs and a worker count of zero. -/
def noWorkerConfig : Config := { noOfJobs := 5, noOfWorkers := 0, jobsCap := 10, resultsCap := 10 }

/-- The schedule on which only main and `result` run: main starts `allocate` and `result`,
passes `createWorkerPool`, and `result` signals. -/
def mainOnlySchedule : List Action :=
  [Action.main, Action.main, Action.main, Action.main, Action.result, Action.result]

/-! ## `25-mutex/02`: a counter protected by a mutex -/

namespace Mutex02

/-- Program counter of an `increment` goroutine.  The statement `x = x + 1` is a read of `x`
followed by a write. -/
inductive IncPc where
  /-- At `m.Lock()`. -/
  | lock
  /-- Holding the mutex, at the read of `x`. -/
  | load
  /-- Holding the mutex, having read `v`, at the write of `v + 1` to `x`. -/
  | store (v : Int)
  /-- At `m.Unlock()`. -/
  | unlock
  /-- At `wg.Done()`. -/
  | done
  /-- The function has returned. -/
  | finished
deriving DecidableEq, Repr

/-- Program counter of `main`. -/
inductive MainPc where
  /-- At the loop test with counter `i`: next is `w.Add(1)` when `i < 1000`, and `w.Wait()`
  otherwise. -/
  | loop (i : Nat)
  /-- At `go increment(&w, &m)`, loop counter `i`. -/
  | go (i : Nat)
  /-- At `fmt.Println("final value of x", x)`. -/
  | print
  /-- The function has returned. -/
  | finished
deriving DecidableEq, Repr

/-- The state of the program: the shared variable `x`, whether the mutex `m` is locked, the
counter of the WaitGroup `w`, the program counters, the value printed, and whether the program
has panicked. -/
structure State where
  x : Int
  locked : Bool
  wg : Nat
  main : MainPc
  /-- The `increment` goroutines, in the order they were started. -/
  incs : List IncPc
  printed : Option Int
  panicked : Bool
deriving DecidableEq, Repr

/-- The state when `main` starts. -/
def init : State :=
  { x := 0, locked := false, wg := 0, main := .loop 0, incs := [], printed := none,
    panicked := false }

/-- The number of goroutines `main` starts. -/
def goroutines : Int := 1000

/-- One step of `main`, with `n` the bound of its loop (`1000` in the source). -/
def mainStep (n : Int) (s : State) : Option State :=
  match s.main with
  | .loop i =>
    if (i : Int) < n then
      -- w.Add(1)
      some { s with wg := s.wg + 1, main := .go i }
    else if s.wg = 0 then
      -- w.Wait() returns
      some { s with main := .print }
    else none
  | .go i => some { s with incs := s.incs ++ [.lock], main := .loop (i + 1) }
  | .print => some { s with printed := some s.x, main := .finished }
  | .finished => none

/-- One step of the `increment` goroutine with index `g`. -/
def incStep (s : State) (g : Nat) : Option State :=
  match s.incs[g]? with
  | none => none
  | some .lock =>
    if s.locked then none
    else some { s with locked := true, incs := s.incs.set g .load }
  | some .load => some { s with incs := s.incs.set g (.store s.x) }
  | some (.store v) => some { s with x := v + 1, incs := s.incs.set g .unlock }
  | some .unlock =>
    -- unlocking a mutex that is not locked is a fatal error
    if s.locked then some { s with locked := false, incs := s.incs.set g .done }
    else some { s with panicked := true }
  | some .done =>
    -- wg.Done(); a negative counter panics
    if s.wg = 0 then some { s with panicked := true }
    else some { s with wg := s.wg - 1, incs := s.incs.set g .finished }
  | some .finished => none

/-- Which goroutine takes the next step. -/
inductive Action where
  | main
  | inc (g : Nat)
deriving DecidableEq, Repr

/-- One step of the program: `none` when the chosen goroutine is blocked or has returned, and
when the program has panicked or `main` has returned. -/
def step (n : Int) (s : State) (a : Action) : Option State :=
  if s.panicked = true ∨ s.main = .finished then none
  else
    match a with
    | .main => mainStep n s
    | .inc g => incStep s g

/-- The states the program can reach, under every interleaving. -/
inductive Reachable (n : Int) : State → Prop where
  | init : Reachable n init
  | step {s t : State} (a : Action) : Reachable n s → step n s a = some t → Reachable n t

/-- Run a schedule from `s`; an action that is not enabled is skipped. -/
def execFrom (n : Int) (s : State) (sched : List Action) : State :=
  sched.foldl (fun st a => (step n st a).getD st) s

/-- Run a schedule from the initial state. -/
def exec (n : Int) (sched : List Action) : State := execFrom n init sched

/-- The schedule that starts one goroutine after the other and lets each run to its end before
the next is started, `k` goroutines in all, and then lets `main` wait and print. -/
def oneByOne (k : Nat) : List Action :=
  ((List.range k).map fun g =>
    [Action.main, Action.main, Action.inc g, Action.inc g, Action.inc g, Action.inc g,
      Action.inc g]).flatten ++ [Action.main, Action.main]

/-- The goroutine has written to `x`. -/
def IncPc.wrote : IncPc → Bool
  | .unlock => true
  | .done => true
  | .finished => true
  | _ => false

/-- The goroutine holds the mutex. -/
def IncPc.holds : IncPc → Bool
  | .load => true
  | .store _ => true
  | .unlock => true
  | _ => false

/-- The goroutine has not returned. -/
def IncPc.active : IncPc → Bool
  | .finished => false
  | _ => true

/-- The number of `w.Add(1)` calls whose goroutine has not been started yet. -/
def MainPc.pendingAdd : MainPc → Nat
  | .go _ => 1
  | _ => 0

/-- The inductive invariant of the program. -/
structure Inv (n : Int) (s : State) : Prop where
  noPanic : s.panicked = false
  /-- `x` counts the goroutines that have written. -/
  xCount : s.x = (s.incs.countP IncPc.wrote : Nat)
  /-- At most one goroutine holds the mutex, and one does exactly when it is locked. -/
  holders : s.incs.countP IncPc.holds = if s.locked then 1 else 0
  /-- The value a goroutine has read is still the value of `x` when it writes. -/
  stored : ∀ v, IncPc.store v ∈ s.incs → v = s.x
  wgCount : s.wg = s.incs.countP IncPc.active + s.main.pendingAdd
  mainLoop : ∀ i, s.main = .loop i → s.incs.length = i ∧ i ≤ n.toNat
  mainGo : ∀ i, s.main = .go i → s.incs.length = i ∧ (i : Int) < n
  /-- Past `w.Wait()` every goroutine has been started and has returned. -/
  joined : s.main = .print ∨ s.main = .finished →
    n ≤ (s.incs.length : Int) ∧ s.incs.length ≤ n.toNat ∧ ∀ p ∈ s.incs, p = .finished
  printedNone : s.main ≠ .finished → s.printed = none
  printedSome : s.main = .finished → s.printed = some s.x

/-- Steps `main` still has to take, with `N` goroutines to start. -/
def MainPc.remaining (N : Nat) : MainPc → Nat
  | .loop i => 2 * (N - i) + 2
  | .go i => 2 * (N - i) + 1
  | .print => 1
  | .finished => 0

/-- Steps an `increment` goroutine still has to take. -/
def IncPc.remaining : IncPc → Nat
  | .lock => 5
  | .load => 4
  | .store _ => 3
  | .unlock => 2
  | .done => 1
  | .finished => 0

/-- An upper bound on the number of steps the program can still take. -/
def remaining (n : Int) (s : State) : Nat :=
  s.main.remaining n.toNat + (s.incs.map IncPc.remaining).sum + 5 * (n.toNat - s.incs.length)

end Mutex02

/-! ## `22-channels/04`: sums of squares and cubes of the digits, by loops -/

namespace Prog04

/-- The loop of `calcSquares`:
`for number != 0 { digit := number % 10; sum += digit * digit; number /= 10 }`. -/
def squaresLoop (sum number : Int) : Int :=
  if number = 0 then sum
  else squaresLoop (sum + Int.tmod number 10 * Int.tmod number 10) (Int.tdiv number 10)
termination_by number.natAbs
decreasing_by
  rw [Int.natAbs_tdiv]
  have hpos : 0 < number.natAbs := Int.natAbs_pos.mpr ‹_›
  exact Nat.div_lt_self hpos (by decide)

/-- The loop of `calcCubes`:
`for number != 0 { digit := number % 10; sum += digit * digit * digit; number /= 10 }`. -/
def cubesLoop (sum number : Int) : Int :=
  if number = 0 then sum
  else
    cubesLoop (sum + Int.tmod number 10 * Int.tmod number 10 * Int.tmod number 10)
      (Int.tdiv number 10)
termination_by number.natAbs
decreasing_by
  rw [Int.natAbs_tdiv]
  have hpos : 0 < number.natAbs := Int.natAbs_pos.mpr ‹_›
  exact Nat.div_lt_self hpos (by decide)

/-- The value `calcSquares` sends on `squareop`. -/
def calcSquares (number : Int) : Int := squaresLoop 0 number

/-- The value `calcCubes` sends on `cubeop`. -/
def calcCubes (number : Int) : Int := cubesLoop 0 number

/-- Program counter of the goroutine `calcSquares` or `calcCubes`. -/
inductive CalcPc where
  /-- The goroutine has not been started. -/
  | notStarted
  /-- Past its loop, at the send of `sum` on its output channel. -/
  | send (sum : Int)
  /-- The function has returned. -/
  | finished
deriving DecidableEq, Repr

/-- Program counter of `main`. -/
inductive MainPc where
  /-- At `go calcSquares(number, sqrch)`. -/
  | goSquares
  /-- At `go calcCubes(number, cubech)`. -/
  | goCubes
  /-- At the receive `<-sqrch`. -/
  | recvSquares
  /-- At the receive `<-cubech`, having received `squares`. -/
  | recvCubes (squares : Int)
  /-- At `fmt.Println("Final output", squares+cubes)`. -/
  | print (squares cubes : Int)
  /-- The function has returned. -/
  | finished
deriving DecidableEq, Repr

/-- The state of the program; `printed` is the number of the line `Final output`. -/
structure State where
  main : MainPc
  squares : CalcPc
  cubes : CalcPc
  printed : Option Int
deriving DecidableEq, Repr

/-- The state when `main` has made its two channels. -/
def init : State :=
  { main := .goSquares, squares := .notStarted, cubes := .notStarted, printed := none }

/-- Which goroutine takes the next step. -/
inductive Action where
  | main
  | calcSquares
  | calcCubes
deriving DecidableEq, Repr

/-- One step of the program.  A goroutine runs its loop, which touches nothing shared, when it
is started.  The channels are unbuffered: a send completes together with the receive of `main`,
and is the step of the sender.  The return of `main` ends the program. -/
def step (number : Int) (s : State) (a : Action) : Option State :=
  if s.main = .finished then none
  else
    match a with
    | .main =>
      match s.main with
      | .goSquares => some { s with main := .goCubes, squares := .send (calcSquares number) }
      | .goCubes => some { s with main := .recvSquares, cubes := .send (calcCubes number) }
      | .recvSquares => none
      | .recvCubes _ => none
      | .print squares cubes => some { s with main := .finished, printed := some (squares + cubes) }
      | .finished => none
    | .calcSquares =>
      match s.squares with
      | .send sum =>
        if s.main = .recvSquares then some { s with main := .recvCubes sum, squares := .finished }
        else none
      | _ => none
    | .calcCubes =>
      match s.cubes, s.main with
      | .send sum, .recvCubes squares =>
        some { s with main := .print squares sum, cubes := .finished }
      | _, _ => none

/-- The states the program can reach, under every interleaving. -/
inductive Reachable (number : Int) : State → Prop where
  | init : Reachable number init
  | step {s t : State} (a : Action) :
      Reachable number s → step number s a = some t → Reachable number t

/-- Run a schedule from the initial state; an action that is not enabled is skipped. -/
def exec (number : Int) (sched : List Action) : State :=
  sched.foldl (fun st a => (step number st a).getD st) init

/-- The invariant of the program. -/
structure Inv (number : Int) (s : State) : Prop where
  squaresSend : ∀ sum, s.squares = .send sum → sum = calcSquares number
  cubesSend : ∀ sum, s.cubes = .send sum → sum = calcCubes number
  recvCubes : ∀ a, s.main = .recvCubes a → a = calcSquares number
  print : ∀ a b, s.main = .print a b → a = calcSquares number ∧ b = calcCubes number
  printedNone : s.main ≠ .finished → s.printed = none
  printedSome : s.main = .finished → s.printed = some (calcSquares number + calcCubes number)

end Prog04

/-! ## `22-channels/09`: the same sums, with the digits sent over a channel -/

namespace Prog09

/-- The values the loop of `digits` sends on `dchnl`, in order:
`for number != 0 { digit := number % 10; dchnl <- digit; number /= 10 }`. -/
def digitsSent (number : Int) : List Int :=
  if number = 0 then []
  else Int.tmod number 10 :: digitsSent (Int.tdiv number 10)
termination_by number.natAbs
decreasing_by
  rw [Int.natAbs_tdiv]
  have hpos : 0 < number.natAbs := Int.natAbs_pos.mpr ‹_›
  exact Nat.div_lt_self hpos (by decide)

/-- The body `sum += digit * digit` of the range loop of `calcSquares`. -/
def squareUpdate (sum digit : Int) : Int := sum + digit * digit

/-- The body `sum += digit * digit * digit` of the range loop of `calcCubes`. -/
def cubeUpdate (sum digit : Int) : Int := sum + digit * digit * digit

/-- Program counter of a `digits` goroutine. -/
inductive DigitsPc where
  /-- The goroutine has not been started. -/
  | notStarted
  /-- At the loop test with the current value of `number`: next is `dchnl <- digit` when
  `number != 0`, and `close(dchnl)` otherwise. -/
  | loop (number : Int)
  /-- The function has returned. -/
  | finished
deriving DecidableEq, Repr

/-- Program counter of the goroutine `calcSquares` or `calcCubes`. -/
inductive CalcPc where
  /-- The goroutine has not been started. -/
  | notStarted
  /-- Past `sum := 0` and `dch := make(chan int)`, at `go digits(number, dch)`. -/
  | goDigits
  /-- At the receive of `for digit := range dch`, with the current value of `sum`. -/
  | recv (sum : Int)
  /-- Past the loop, at the send of `sum` on the output channel. -/
  | send (sum : Int)
  /-- The function has returned. -/
  | finished
deriving DecidableEq, Repr

/-- One of the two pipelines: `calcSquares` or `calcCubes` with its `digits` goroutine and
the unbuffered channel `dch` between them.  `emitted` is a history variable: the values sent on
`dch` so far. -/
structure Pipe where
  calcPc : CalcPc
  digitsPc : DigitsPc
  /-- The channel `dch` has been closed. -/
  closed : Bool
  emitted : List Int
  panicked : Bool
deriving DecidableEq, Repr

/-- A pipeline whose goroutines have not been started. -/
def Pipe.init : Pipe :=
  { calcPc := .notStarted, digitsPc := .notStarted, closed := false, emitted := [], panicked := false }

/-- One step of `calcSquares` / `calcCubes` before its final send: the `go` statement, or a
receive from the closed channel, which ends the range loop.  A receive from the open channel
completes only together with a send and is the step of `digits`. -/
def Pipe.calcStep (number : Int) (p : Pipe) : Option Pipe :=
  match p.calcPc with
  | .goDigits => some { p with calcPc := .recv 0, digitsPc := .loop number }
  | .recv sum => if p.closed then some { p with calcPc := .send sum } else none
  | _ => none

/-- One step of `digits`: a send, taken while the receiver is at its receive and handing it the
digit, or the close.  `update` is the body of the receiver's loop. -/
def Pipe.digitsStep (update : Int → Int → Int) (p : Pipe) : Option Pipe :=
  match p.digitsPc with
  | .loop number =>
    if number ≠ 0 then
      if p.closed then some { p with panicked := true }
      else
        match p.calcPc with
        | .recv sum =>
          some { p with calcPc := .recv (update sum (Int.tmod number 10)),
                        digitsPc := .loop (Int.tdiv number 10),
                        emitted := p.emitted ++ [Int.tmod number 10] }
        | _ => none
    else if p.closed then some { p with panicked := true }
    else some { p with closed := true, digitsPc := .finished }
  | _ => none

/-- Program counter of `main`. -/
inductive MainPc where
  /-- At `go calcSquares(number, sqrch)`. -/
  | goSquares
  /-- At `go calcCubes(number, cubech)`. -/
  | goCubes
  /-- At the receive `<-sqrch`. -/
  | recvSquares
  /-- At the receive `<-cubech`, having received `squares`. -/
  | recvCubes (squares : Int)
  /-- At `fmt.Println("Final output", squares+cubes)`. -/
  | print (squares cubes : Int)
  /-- The function has returned. -/
  | finished
deriving DecidableEq, Repr

/-- The state of the program; `printed` is the number of the line `Final output`. -/
structure State where
  main : MainPc
  squares : Pipe
  cubes : Pipe
  printed : Option Int
deriving DecidableEq, Repr

/-- The state when `main` has made its two channels. -/
def init : State :=
  { main := .goSquares, squares := Pipe.init, cubes := Pipe.init, printed := none }

/-- Which goroutine takes the next step. -/
inductive Action where
  | main
  | calcSquares
  | digitsSquares
  | calcCubes
  | digitsCubes
deriving DecidableEq, Repr

/-- One step of the program.  All channels are unbuffered: a send completes together with the
matching receive and is the step of the sender.  A panic or the return of `main` ends the
program. -/
def step (number : Int) (s : State) (a : Action) : Option State :=
  if s.squares.panicked = true ∨ s.cubes.panicked = true ∨ s.main = .finished then none
  else
    match a with
    | .main =>
      match s.main with
      | .goSquares =>
        some { s with main := .goCubes, squares := { s.squares with calcPc := .goDigits } }
      | .goCubes =>
        some { s with main := .recvSquares, cubes := { s.cubes with calcPc := .goDigits } }
      | .recvSquares => none
      | .recvCubes _ => none
      | .print squares cubes => some { s with main := .finished, printed := some (squares + cubes) }
      | .finished => none
    | .calcSquares =>
      match s.squares.calcPc with
      | .send sum =>
        if s.main = .recvSquares then
          some { s with main := .recvCubes sum, squares := { s.squares with calcPc := .finished } }
        else none
      | _ => (s.squares.calcStep number).map fun p => { s with squares := p }
    | .digitsSquares => (s.squares.digitsStep squareUpdate).map fun p => { s with squares := p }
    | .calcCubes =>
      match s.cubes.calcPc with
      | .send sum =>
        match s.main with
        | .recvCubes squares =>
          some { s with main := .print squares sum, cubes := { s.cubes with calcPc := .finished } }
        | _ => none
      | _ => (s.cubes.calcStep number).map fun p => { s with cubes := p }
    | .digitsCubes => (s.cubes.digitsStep cubeUpdate).map fun p => { s with cubes := p }

/-- The states the program can reach, under every interleaving. -/
inductive Reachable (number : Int) : State → Prop where
  | init : Reachable number init
  | step {s t : State} (a : Action) :
      Reachable number s → step number s a = some t → Reachable number t

/-- Run a schedule from the initial state; an action that is not enabled is skipped. -/
def exec (number : Int) (sched : List Action) : State :=
  sched.foldl (fun st a => (step number st a).getD st) init

/-- The schedule that lets the five goroutines take turns, `n` times round. -/
def roundRobin (n : Nat) : List Action :=
  (List.replicate n
    [Action.main, Action.calcSquares, Action.digitsSquares, Action.calcCubes,
      Action.digitsCubes]).flatten

/-- The invariant of one pipeline: `loopOf sum number` is the value the loop of the program
without channel reaches from `sum` and `number`. -/
structure PipeInv (loopOf : Int → Int → Int) (number : Int) (p : Pipe) : Prop where
  noPanic : p.panicked = false
  notStarted : p.digitsPc = .notStarted →
    (p.calcPc = .notStarted ∨ p.calcPc = .goDigits) ∧ p.closed = false ∧ p.emitted = []
  /-- While `digits` runs, the receiver waits for it, and what has been sent and summed so far
  together with what is left gives the whole. -/
  loop : ∀ n, p.digitsPc = .loop n →
    p.closed = false ∧ p.emitted ++ digitsSent n = digitsSent number ∧
      ∃ sum, p.calcPc = .recv sum ∧ loopOf sum n = loopOf 0 number
  finished : p.digitsPc = .finished →
    p.closed = true ∧ p.emitted = digitsSent number ∧
      p.calcPc ≠ .notStarted ∧ p.calcPc ≠ .goDigits ∧
      ∀ sum, p.calcPc = .recv sum ∨ p.calcPc = .send sum → sum = loopOf 0 number

/-- The invariant of the program. -/
structure Inv (number : Int) (s : State) : Prop where
  squares : PipeInv Prog04.squaresLoop number s.squares
  cubes : PipeInv Prog04.cubesLoop number s.cubes
  goSquares : s.main = .goSquares → s.squares.calcPc = .notStarted ∧ s.cubes.calcPc = .notStarted
  goCubes : s.main = .goCubes →
    s.squares.calcPc ≠ .notStarted ∧ s.squares.calcPc ≠ .finished ∧ s.cubes.calcPc = .notStarted
  recvSquares : s.main = .recvSquares →
    s.squares.calcPc ≠ .notStarted ∧ s.squares.calcPc ≠ .finished ∧
      s.cubes.calcPc ≠ .notStarted ∧ s.cubes.calcPc ≠ .finished
  recvCubes : ∀ a, s.main = .recvCubes a →
    a = Prog04.calcSquares number ∧ s.cubes.calcPc ≠ .notStarted ∧ s.cubes.calcPc ≠ .finished
  print : ∀ a b, s.main = .print a b →
    a = Prog04.calcSquares number ∧ b = Prog04.calcCubes number
  printedNone : s.main ≠ .finished → s.printed = none
  printedSome : s.main = .finished →
    s.printed = some (Prog04.calcSquares number + Prog04.calcCubes number)

/-- Steps `main` still has to take. -/
def MainPc.remaining : MainPc → Nat
  | .goSquares => 5
  | .goCubes => 4
  | .recvSquares => 3
  | .recvCubes _ => 2
  | .print _ _ => 1
  | .finished => 0

/-- Steps `calcSquares` / `calcCubes` still has to take on its own. -/
def CalcPc.remaining : CalcPc → Nat
  | .notStarted => 3
  | .goDigits => 3
  | .recv _ => 2
  | .send _ => 1
  | .finished => 0

/-- Steps `digits` still has to take: at most one per unit of `|number|`, and the close. -/
def DigitsPc.remaining (number : Int) : DigitsPc → Nat
  | .notStarted => number.natAbs + 1
  | .loop n => n.natAbs + 1
  | .finished => 0

/-- An upper bound on the number of steps the program can still take. -/
def remaining (number : Int) (s : State) : Nat :=
  s.main.remaining + s.squares.calcPc.remaining + s.squares.digitsPc.remaining number +
    s.cubes.calcPc.remaining + s.cubes.digitsPc.remaining number

end Prog09

/-! ## Lists of workers -/

set_option linter.unusedTactic false
set_option linter.unreachableTactic false

theorem set_split {α : Type} : ∀ (l : List α) (w : Nat) (p : α), l[w]? = some p →
    ∃ l1 l2, l = l1 ++ p :: l2 ∧ l1.length = w ∧ ∀ q, l.set w q = l1 ++ q :: l2
  | [], w, p, h => by simp at h
  | a :: l, 0, p, h => by
    simp at h
    exact ⟨[], l, by simp [h], rfl, fun q => by simp⟩
  | a :: l, w + 1, p, h => by
    simp at h
    obtain ⟨l1, l2, h1, h2, h3⟩ := set_split l w p h
    exact ⟨a :: l1, l2, by simp [h1], by simp [h2], fun q => by simp [h3]⟩

theorem length_le_one_split {α : Type} {l1 l2 : List α} {p : α}
    (h : (l1 ++ p :: l2).length ≤ 1) : l1 = [] ∧ l2 = [] := by
  simp only [List.length_append, List.length_cons] at h
  exact ⟨List.length_eq_zero.mp (by omega), List.length_eq_zero.mp (by omega)⟩

theorem perm_hold {α : Type} (a b c : List α) (x : α) :
    (a ++ (b ++ c) ++ [x]).Perm (a ++ (b ++ x :: c)) := by
  simp only [List.append_assoc]
  exact ((List.perm_append_singleton x c).append_left b).append_left a

theorem perm_release {α : Type} (a b c : List α) (x : α) :
    (a ++ (b ++ x :: c)).Perm (a ++ [x] ++ (b ++ c)) := by
  simp only [List.append_assoc, List.singleton_append]
  exact List.perm_middle.append_left a


/-! ## The invariant holds in every reachable state -/

theorem inv_init (cfg : Config) : Inv cfg (init cfg) := by
  constructor <;> simp [init, Chan.make, State.sent, State.heldResults, activeWorkers, MainPc.pendingAdd]

theorem inv_mainStep (cfg : Config) (s t : State) (h : Inv cfg s) (hs : mainStep cfg s = some t) :
    Inv cfg t := by
  obtain ⟨h1, h2, h3, h4, h5, h6, h7, h8, h9, h10, h11, h12, h13, h14, h15, h16, h17, h18, h19,
    h20, h21, h22, h23, h24, h25, h26, h27⟩ := h
  obtain ⟨jobs, results, wg, main, alloc, workers, consumer, panicked, printed, jobsLog, dequeued,
    resultsLog, doneSignals⟩ := s
  simp only [State.sent, State.heldResults, activeWorkers, MainPc.pendingAdd] at h1 h2 h3 h4 h5 h6 h7 h8 h9 h10 h11 h12 h13 h14 h15 h16 h17 h18 h19 h20 h21 h22 h23 h24 h25 h26 h27
  cases main <;> simp [mainStep] at hs
  · subst hs
    simp at h4 h5 h9 h16 h17 h21 h26
    subst_vars
    constructor <;> dsimp only [State.sent, State.heldResults, activeWorkers, MainPc.pendingAdd] <;>
      first | assumption | (simp; done) | (simp [*]; done) | skip
  · subst hs
    simp at h4 h5 h9 h16 h17 h21 h26
    subst_vars
    constructor <;> dsimp only [State.sent, State.heldResults, activeWorkers, MainPc.pendingAdd] <;>
      first | assumption | (simp; done) | (simp [*]; done) | skip
  · rename_i i
    simp at h4 h5 h9 h17 h18 h21 h26
    split at hs
    · simp at hs; subst hs
      constructor <;> dsimp only [State.sent, State.heldResults, activeWorkers, MainPc.pendingAdd] <;>
        first | assumption | (simp; done) | (simp [*]; done) | skip
    · simp at hs
      obtain ⟨hw, hs⟩ := hs
      subst hs
      have hall : ∀ p ∈ workers, p = WorkerPc.done := by
        have h0 : List.countP (fun p => decide (p ≠ WorkerPc.done)) workers = 0 := by omega
        simpa [List.countP_eq_zero] using h0
      constructor <;> dsimp only [State.sent, State.heldResults, activeWorkers, MainPc.pendingAdd] <;>
        first | assumption | (simp; done) | (simp [*]; done) | skip
      · simp; refine ⟨by omega, by omega, hall⟩
  · rename_i i
    simp at h4 h5 h9 h17 h19 h21 h26
    subst hs
    constructor <;> dsimp only [State.sent, State.heldResults, activeWorkers, MainPc.pendingAdd] <;>
        first | assumption | (simp; done) | (simp [*]; done) | skip
    · intro p hp
      have := h14 p hp
      simp; omega
    · intro p hp hq
      simp at hp
      rcases hp with hp | rfl
      · exact h15 p hp hq
      · simp at hq
    · intro j hj
      simp at hj
      subst hj
      simp; omega
    · simpa [WorkerPc.held] using h22
    · intro hl
      have hl2 : workers.length ≤ 1 := by
        have := hl; simp only [List.length_append, List.length_singleton] at this; omega
      simpa [WorkerPc.held] using h23 hl2
  · simp at h4 h5 h9 h16 h17 h20 h21 h26
    simp [Chan.close, h21] at hs; subst hs
    constructor <;> dsimp only [State.sent, State.heldResults, activeWorkers, MainPc.pendingAdd] <;>
        first | assumption | (simp; done) | (simp [*]; done) | skip
    · intro _; exact h20
    · intro hc; exact ⟨rfl, (h25 hc).2⟩

theorem inv_allocateStep (cfg : Config) (s t : State) (r : Int) (h : Inv cfg s)
    (hs : allocateStep cfg s r = some t) : Inv cfg t := by
  obtain ⟨h1, h2, h3, h4, h5, h6, h7, h8, h9, h10, h11, h12, h13, h14, h15, h16, h17, h18, h19,
    h20, h21, h22, h23, h24, h25, h26, h27⟩ := h
  obtain ⟨jobs, results, wg, main, alloc, workers, consumer, panicked, printed, jobsLog, dequeued,
    resultsLog, doneSignals⟩ := s
  simp only [State.sent, State.heldResults, activeWorkers, MainPc.pendingAdd] at h1 h2 h3 h4 h5 h6 h7 h8 h9 h10 h11 h12 h13 h14 h15 h16 h17 h18 h19 h20 h21 h22 h23 h24 h25 h26 h27
  cases alloc <;> simp [allocateStep] at hs
  rename_i i
  simp at h4 h6 h7 h9 h10 h11
  have hopen : ∀ p ∈ workers, ¬ (p = WorkerPc.exit ∨ p = WorkerPc.done) := by
    intro p hp hq
    have := (h15 p hp hq).1
    simp [h6] at this
  split at hs
  · rename_i hi
    split at hs
    · rename_i hr
      by_cases hlen : jobs.buf.length < jobs.cap
      · simp [Chan.send, h6, hlen] at hs
        subst hs
        constructor <;> dsimp only [State.sent, State.heldResults, activeWorkers, MainPc.pendingAdd] <;>
          first | assumption | (simp; done) | (simp [*]; done) | skip
        · simp [JobsOp.sentJob, h7]
        · simp [JobsOp.sentJob, h8, h10, List.range_succ]
        · intro j hj
          simp at hj; subst hj
          simp [JobsOp.sentJob, h10]
          omega
        · intro j hj
          simp [JobsOp.sentJob] at hj
          rcases hj with hj | rfl
          · exact h12 j (by simpa using hj)
          · exact hr
        · simp [JobsOp.sentJob, h13]
        · intro p hp hq
          exact absurd hq (hopen p hp)
      · simp [Chan.send, h6, hlen] at hs
    · simp at hs
  · simp [Chan.close, h6] at hs; subst hs
    constructor <;> dsimp only [State.sent, State.heldResults, activeWorkers, MainPc.pendingAdd] <;>
      first | assumption | (simp; done) | (simp [*]; done) | skip
    · simp [JobsOp.sentJob, h7]
    · simpa [JobsOp.sentJob] using h8
    · intro _
      simp [JobsOp.sentJob, h10]
      omega
    · simpa [JobsOp.sentJob] using h12
    · simpa [JobsOp.sentJob] using h13
    · intro p hp hq
      exact absurd hq (hopen p hp)

theorem inv_resultStep (cfg : Config) (s t : State) (h : Inv cfg s)
    (hs : resultStep s = some t) : Inv cfg t := by
  obtain ⟨h1, h2, h3, h4, h5, h6, h7, h8, h9, h10, h11, h12, h13, h14, h15, h16, h17, h18, h19,
    h20, h21, h22, h23, h24, h25, h26, h27⟩ := h
  obtain ⟨jobs, results, wg, main, alloc, workers, consumer, panicked, printed, jobsLog, dequeued,
    resultsLog, doneSignals⟩ := s
  simp only [State.sent, State.heldResults, activeWorkers, MainPc.pendingAdd] at h1 h2 h3 h4 h5 h6 h7 h8 h9 h10 h11 h12 h13 h14 h15 h16 h17 h18 h19 h20 h21 h22 h23 h24 h25 h26 h27
  cases consumer <;> simp [resultStep] at hs
  · simp at h5 h25 h26 h27
    obtain ⟨rbuf, rcap, rclosed⟩ := results
    cases rbuf with
    | nil =>
      cases rclosed <;> simp [Chan.recv] at hs
      subst hs
      constructor <;> dsimp only [State.sent, State.heldResults, activeWorkers, MainPc.pendingAdd] <;>
          first | assumption | (simp; done) | (simp [*]; done) | skip
    | cons v rest =>
      simp [Chan.recv] at hs
      subst hs
      simp at h3 h21 h24
      constructor <;> dsimp only [State.sent, State.heldResults, activeWorkers, MainPc.pendingAdd] <;>
          first | assumption | (simp; done) | (simp [*]; done) | skip
  · obtain ⟨hm, hs⟩ := hs
    subst hs hm
    simp at h4 h5 h16 h17 h18 h19 h20 h21 h25 h26 h27
    constructor <;> dsimp only [State.sent, State.heldResults, activeWorkers, MainPc.pendingAdd] <;>
          first | assumption | (simp; done) | (simp [*]; done) | skip
    · intro _; exact h20

theorem inv_workerStep (cfg : Config) (s t : State) (w : Nat) (h : Inv cfg s)
    (hs : workerStep s w = some t) : Inv cfg t := by
  obtain ⟨h1, h2, h3, h4, h5, h6, h7, h8, h9, h10, h11, h12, h13, h14, h15, h16, h17, h18, h19,
    h20, h21, h22, h23, h24, h25, h26, h27⟩ := h
  obtain ⟨jobs, results, wg, main, alloc, workers, consumer, panicked, printed, jobsLog, dequeued,
    resultsLog, doneSignals⟩ := s
  simp only [State.sent, State.heldResults, activeWorkers, MainPc.pendingAdd] at h1 h2 h3 h4 h5 h6 h7 h8 h9 h10 h11 h12 h13 h14 h15 h16 h17 h18 h19 h20 h21 h22 h23 h24 h25 h26 h27
  unfold workerStep at hs
  dsimp only at hs
  cases hw : workers[w]? with
  | none => simp [hw] at hs
  | some p =>
    obtain ⟨l1, l2, hl, hlen, hset⟩ := set_split workers w p hw
    simp only [hw, hset] at hs
    subst hl
    have hlenEq : ∀ q, (l1 ++ q :: l2).length = (l1 ++ p :: l2).length := by intro q; simp
    have hm1 : ¬ (main = MainPc.goAllocate ∨ main = MainPc.goResult) := by
      intro hm; simpa using h17 hm
    have hm2 : p ≠ WorkerPc.done →
        ¬ (main = MainPc.poolClose ∨ main = MainPc.recvDone ∨ main = MainPc.finished) := by
      intro hp hm
      exact hp ((h20 hm).2.2 p (by simp))
    have hdeq : ∀ q, ∀ d ∈ dequeued, d.1 < (l1 ++ q :: l2).length := by
      intro q d hd; rw [hlenEq]; exact h14 d hd
    have hwlt : ∀ q, w < (l1 ++ q :: l2).length := by intro q; simp; omega
    cases p with
    | recv =>
      dsimp only at hs
      have hm2 := hm2 (by simp)
      obtain ⟨jbuf, jcap, jclosed⟩ := jobs
      cases jbuf with
      | nil =>
        cases jclosed <;> simp [Chan.recv] at hs
        subst hs
        constructor <;> dsimp only [State.sent, State.heldResults, activeWorkers, MainPc.pendingAdd] <;>
          first | assumption | (simp; done) | (simp [*]; done) | skip
        case deqWorker => exact hdeq _
        case workersLoop => intro i hi; rw [hlenEq]; exact h18 i hi
        case workersGo => intro i hi; rw [hlenEq]; exact h19 i hi
        case resultsPerm => simpa [WorkerPc.held] using h22
        case singleOrder =>
          intro hl
          rw [hlenEq] at hl
          simpa [WorkerPc.held] using h23 hl
      | cons job rest =>
        simp [Chan.recv] at hs
        subst hs
        have hnoexit : ∀ q ∈ l1 ++ WorkerPc.recv :: l2, ¬ (q = WorkerPc.exit ∨ q = WorkerPc.done) := by
          intro q hq hq2
          have := (h15 q hq hq2).2
          simp at this
        constructor <;> dsimp only [State.sent, State.heldResults, activeWorkers, MainPc.pendingAdd] <;>
          first | assumption | (simp; done) | (simp [*]; done) | skip
        case deqWorker =>
          intro d hd
          simp at hd
          rcases hd with hd | rfl
          · exact hdeq _ d hd
          · exact hwlt _
        case workerExit =>
          intro q hq hq2
          simp at hq
          have hq3 : q ∈ l1 ++ WorkerPc.recv :: l2 := by
            rcases hq with hq | rfl | hq
            · simp [hq]
            · simp at hq2
            · simp [hq]
          exact absurd hq2 (hnoexit q hq3)
        case workersLoop => intro i hi; rw [hlenEq]; exact h18 i hi
        case workersGo => intro i hi; rw [hlenEq]; exact h19 i hi
        case resultsPerm =>
          simp [WorkerPc.held] at h22 ⊢
          exact (h22.append_right [mkResult job]).trans (perm_hold _ _ _ _)
        case singleOrder =>
          intro hl
          obtain ⟨e1, e2⟩ := length_le_one_split hl
          subst e1 e2
          have := h23 (by simp)
          simp [WorkerPc.held] at this
          simp [WorkerPc.held, this]
    | send output =>
      dsimp only at hs
      have hm2 := hm2 (by simp)
      have hopen : results.closed = false := by
        cases hc : results.closed
        · rfl
        · exact absurd (Or.inr (h21.mp hc)) hm2
      have hcons : ¬ (consumer = ResultPc.sendDone ∨ consumer = ResultPc.finished) := by
        intro hc
        have := (h25 hc).1
        simp [hopen] at this
      have hfull : results.buf.length < results.cap := by
        by_contra hfull
        simp [Chan.send, hopen, hfull] at hs
      · simp [Chan.send, hopen, hfull] at hs
        subst hs
        constructor <;> dsimp only [State.sent, State.heldResults, activeWorkers, MainPc.pendingAdd] <;>
          first | assumption | (simp; done) | (simp [*]; done) | skip
        case deqWorker => exact hdeq _
        case workerExit =>
          intro q hq hq2
          simp at hq
          have hq3 : q ∈ l1 ++ WorkerPc.send output :: l2 := by
            rcases hq with hq | rfl | hq
            · simp [hq]
            · simp at hq2
            · simp [hq]
          exact h15 q hq3 hq2
        case workersLoop => intro i hi; rw [hlenEq]; exact h18 i hi
        case workersGo => intro i hi; rw [hlenEq]; exact h19 i hi
        case resultsClosed => simpa [hopen] using h21
        case resultsPerm =>
          simp [WorkerPc.held] at h22 ⊢
          exact h22.trans (by simpa using perm_release resultsLog _ _ output)
        case singleOrder =>
          intro hl
          obtain ⟨e1, e2⟩ := length_le_one_split hl
          subst e1 e2
          have := h23 (by simp)
          simp [WorkerPc.held] at this
          simp [WorkerPc.held, this]
        case consDone => intro hc; exact absurd hc hcons
    | exit =>
      dsimp only at hs
      have hm2 := hm2 (by simp)
      have hwg : wg ≠ 0 := by
        simp at h16; omega
      simp [hwg] at hs
      subst hs
      constructor <;> dsimp only [State.sent, State.heldResults, activeWorkers, MainPc.pendingAdd] <;>
          first | assumption | (simp; done) | (simp [*]; done) | skip
      case deqWorker => exact hdeq _
      case workerExit =>
        intro q hq hq2
        exact h15 WorkerPc.exit (by simp) (Or.inl rfl)
      case wgCount =>
        simp at h16 ⊢; omega
      case workersLoop => intro i hi; rw [hlenEq]; exact h18 i hi
      case workersGo => intro i hi; rw [hlenEq]; exact h19 i hi
      case resultsPerm => simpa [WorkerPc.held] using h22
      case singleOrder =>
        intro hl
        rw [hlenEq] at hl
        simpa [WorkerPc.held] using h23 hl
    | done => simp at hs

theorem inv_step (cfg : Config) (s t : State) (a : Action) (h : Inv cfg s)
    (hs : step cfg s a = some t) : Inv cfg t := by
  unfold step at hs
  split at hs
  · simp at hs
  · cases a with
    | main => exact inv_mainStep cfg s t h hs
    | allocate r => exact inv_allocateStep cfg s t r h hs
    | worker w => exact inv_workerStep cfg s t w h hs
    | result => exact inv_resultStep cfg s t h hs

theorem inv_of_reachable (cfg : Config) (s : State) (h : Reachable cfg s) : Inv cfg s := by
  induction h with
  | init => exact inv_init cfg
  | step a _ hs ih => exact inv_step cfg _ _ a ih hs

/-! ## Consequences of the invariant -/

theorem reachable_execFrom (cfg : Config) (sched : List Action) :
    ∀ s, Reachable cfg s → Reachable cfg (execFrom cfg s sched) := by
  induction sched with
  | nil => intro s hs; exact hs
  | cons a rest ih =>
    intro s hs
    show Reachable cfg (execFrom cfg ((step cfg s a).getD s) rest)
    apply ih
    cases h : step cfg s a with
    | none => simpa using hs
    | some t => simpa using Reachable.step a hs h

theorem reachable_exec (cfg : Config) (sched : List Action) : Reachable cfg (exec cfg sched) :=
  reachable_execFrom cfg sched _ Reachable.init

theorem workers_length_le (cfg : Config) (s : State) (h : Inv cfg s) :
    s.workers.length ≤ cfg.noOfWorkers.toNat := by
  cases hm : s.main with
  | goAllocate => simp [h.workersNotStarted (Or.inl hm)]
  | goResult => simp [h.workersNotStarted (Or.inr hm)]
  | poolLoop i => have := h.workersLoop i hm; omega
  | poolGo i => have := h.workersGo i hm; omega
  | poolClose => exact (h.workersJoined (Or.inl hm)).2.1
  | recvDone => exact (h.workersJoined (Or.inr (Or.inl hm))).2.1
  | finished => exact (h.workersJoined (Or.inr (Or.inr hm))).2.1

theorem sent_length_le (cfg : Config) (s : State) (h : Inv cfg s) :
    s.sent.length ≤ cfg.noOfJobs.toNat := by
  cases ha : s.alloc with
  | notStarted => simp [State.sent, h.sentNotStarted ha]
  | loop i => have := h.sentLoop i ha; omega
  | finished => exact (h.sentFinished ha).le

theorem held_nil_of_done (ws : List WorkerPc) (h : ∀ p ∈ ws, p = WorkerPc.done) :
    ws.filterMap WorkerPc.held = [] := by
  rw [List.filterMap_eq_nil_iff]
  intro p hp
  rw [h p hp]; rfl

/-- Once `results` is closed, with at least one worker configured: `allocate` has returned,
`jobs` is drained, no worker holds a Result. -/
theorem inv_closed (cfg : Config) (s : State) (h : Inv cfg s) (hW : 1 ≤ cfg.noOfWorkers)
    (hc : s.results.closed = true) :
    s.alloc = .finished ∧ s.jobs.buf = [] ∧ s.heldResults = [] ∧
      (s.workers.length : Int) = cfg.noOfWorkers ∧ ∀ p ∈ s.workers, p = .done := by
  have hm := h.resultsClosed.mp hc
  obtain ⟨hge, hle, hall⟩ := h.workersJoined (Or.inr hm)
  have hne : s.workers ≠ [] := by
    intro he; rw [he] at hge; simp at hge; omega
  obtain ⟨p, hp⟩ := List.exists_mem_of_ne_nil _ hne
  obtain ⟨hjc, hjb⟩ := h.workerExit p hp (Or.inr (hall p hp))
  refine ⟨h.jobsClosed.mp hjc, hjb, held_nil_of_done _ hall, by omega, hall⟩

/-- Only `close(results)` of `createWorkerPool` closes `results`. -/
theorem step_closes_results (cfg : Config) (s t : State) (a : Action)
    (hs : step cfg s a = some t) (h0 : s.results.closed = false) (h1 : t.results.closed = true) :
    s.main = .poolClose ∧ a = .main := by
  unfold step at hs
  split at hs
  · simp at hs
  · cases a with
    | main =>
      refine ⟨?_, rfl⟩
      simp only [mainStep] at hs
      split at hs
      all_goals (try split at hs)
      all_goals (try split at hs)
      all_goals (try (simp at hs))
      all_goals (try (subst hs; simp [h0] at h1))
      all_goals (try assumption)
    | allocate r =>
      exfalso
      simp only [allocateStep] at hs
      split at hs
      all_goals (try split at hs)
      all_goals (try split at hs)
      all_goals (try split at hs)
      all_goals (try (simp at hs))
      all_goals (try (subst hs; simp [h0] at h1))
    | worker w =>
      exfalso
      simp only [workerStep] at hs
      split at hs
      all_goals (try split at hs)
      all_goals (try (simp at hs))
      all_goals (try (subst hs; simp [h0] at h1))
      · rename_i c hc
        simp [Chan.send, h0] at hc
        split at hc
        · simp at hc; subst hc; simp [h0] at h1
        · simp at hc
    | result =>
      exfalso
      simp only [resultStep] at hs
      split at hs
      all_goals (try split at hs)
      all_goals (try (simp at hs))
      all_goals (try (subst hs; simp [h0] at h1))
      · rename_i c hc
        simp [Chan.recv] at hc
        split at hc
        · simp at hc; obtain ⟨-, hc⟩ := hc; subst hc; simp [h0] at h1
        · split at hc <;> simp at hc

/-- A list whose ids count up from zero: so does each of its initial segments. -/
theorem ids_of_append {α : Type} (f : α → Int) (l1 l2 : List α)
    (h : (l1 ++ l2).map f = (List.range (l1 ++ l2).length).map Int.ofNat) :
    l1.map f = (List.range l1.length).map Int.ofNat := by
  have h1 := congrArg (List.take l1.length) h
  rw [List.map_append, ← List.map_take, List.take_range] at h1
  simp at h1
  simpa using h1

theorem nodup_range_ids (n : Nat) : ((List.range n).map Int.ofNat).Nodup :=
  (List.nodup_range n).map Int.ofNat_injective

/-- Two positions of a list with the same key are the same position when the keys of the
held Results are pairwise different. -/
theorem held_index_unique : ∀ (ws : List WorkerPc) (i j : Nat) (r1 r2 : Result),
    ((ws.filterMap WorkerPc.held).map fun r => r.job.id).Nodup →
    ws[i]? = some (.send r1) → ws[j]? = some (.send r2) → r1.job.id = r2.job.id → i = j
  | [], i, j, r1, r2, _, h1, _, _ => by simp at h1
  | p :: ws, 0, 0, _, _, _, _, _, _ => rfl
  | p :: ws, 0, j + 1, r1, r2, hn, h1, h2, he => by
    exfalso
    simp at h1 h2
    subst h1
    simp [WorkerPc.held] at hn
    have hmem : WorkerPc.send r2 ∈ ws := List.getElem?_mem h2
    exact hn.1 r2 (WorkerPc.send r2) hmem rfl he.symm
  | p :: ws, i + 1, 0, r1, r2, hn, h1, h2, he => by
    exfalso
    simp at h1 h2
    subst h2
    simp [WorkerPc.held] at hn
    have hmem : WorkerPc.send r1 ∈ ws := List.getElem?_mem h1
    exact hn.1 r1 (WorkerPc.send r1) hmem rfl he
  | p :: ws, i + 1, j + 1, r1, r2, hn, h1, h2, he => by
    simp at h1 h2
    have hn2 : ((ws.filterMap WorkerPc.held).map fun r => r.job.id).Nodup := by
      cases hp : WorkerPc.held p with
      | none => simpa [List.filterMap_cons, hp] using hn
      | some r =>
        simp [List.filterMap_cons, hp] at hn
        exact hn.2
    simpa using held_index_unique ws i j r1 r2 hn2 h1 h2 he

/-- No step other than `allocate`'s own touches its log, and `allocate` only starts once. -/
theorem step_jobsLog_of_finished (cfg : Config) (s t : State) (a : Action) (h : Inv cfg s)
    (hs : step cfg s a = some t) (hf : s.alloc = .finished) :
    t.jobsLog = s.jobsLog ∧ t.alloc = .finished := by
  have hm : s.main ≠ .goAllocate := by
    intro hm
    have := h.allocStarted.mpr hm
    rw [hf] at this; simp at this
  unfold step at hs
  split at hs
  · simp at hs
  · cases a with
    | main =>
      simp only [mainStep] at hs
      split at hs
      all_goals (try split at hs)
      all_goals (try split at hs)
      all_goals (try (simp at hs))
      all_goals (try (subst hs; simp [hf]))
      all_goals (try contradiction)
    | allocate r =>
      simp [allocateStep, hf] at hs
    | worker w =>
      simp only [workerStep] at hs
      split at hs
      all_goals (try split at hs)
      all_goals (try (simp at hs))
      all_goals (try (subst hs; simp [hf]))
    | result =>
      simp only [resultStep] at hs
      split at hs
      all_goals (try split at hs)
      all_goals (try (simp at hs))
      all_goals (try (subst hs; simp [hf]))

theorem exists_getElem_of_mem {α : Type} {l : List α} {p : α} (h : p ∈ l) :
    ∃ w : Nat, l[w]? = some p := by
  obtain ⟨n, hn, he⟩ := List.getElem_of_mem h
  exact ⟨n, by rw [List.getElem?_eq_getElem hn, he]⟩

/-- A worker that has not returned can take a step, or the goroutine it waits for can. -/
theorem worker_progress (cfg : Config) (s : State) (h : Inv cfg s)
    (hjc : 1 ≤ cfg.jobsCap) (hrc : 1 ≤ cfg.resultsCap) (w : Nat) (p : WorkerPc)
    (hw : s.workers[w]? = some p) (hp : p ≠ .done) (hopen : s.results.closed = false) :
    ∃ a t, step cfg s a = some t := by
  have hnp := h.noPanic
  have hfin : s.main ≠ .finished := by
    intro hf
    have := h.resultsClosed.mpr (Or.inr hf)
    simp [hopen] at this
  have hmain : ¬ (s.main = .goAllocate ∨ s.main = .goResult) := by
    intro hm
    have := h.workersNotStarted hm
    rw [this] at hw; simp at hw
  cases p with
  | done => exact absurd rfl hp
  | exit =>
    refine ⟨.worker w, ?_⟩
    by_cases hz : s.wg = 0 <;> simp [step, hnp, hfin, workerStep, hw, hz]
  | send output =>
    by_cases hfull : s.results.buf.length < s.results.cap
    · refine ⟨.worker w, ?_⟩
      simp [step, hnp, hfin, workerStep, hw, Chan.send, hopen, hfull]
    · have hcons : s.consumer = .recv := by
        cases hc : s.consumer with
        | notStarted => exact absurd (h.consStarted.mp hc) hmain
        | recv => rfl
        | sendDone => have := (h.consDone (Or.inl hc)).1; simp [hopen] at this
        | finished => have := (h.consDone (Or.inr hc)).1; simp [hopen] at this
      have hcap := h.resultsCap
      cases hb : s.results.buf with
      | nil => rw [hb] at hfull; simp at hfull; omega
      | cons v rest =>
        refine ⟨.result, ?_⟩
        simp [step, hnp, hfin, resultStep, hcons, Chan.recv, hb]
  | recv =>
    cases hb : s.jobs.buf with
    | cons v rest =>
      refine ⟨.worker w, ?_⟩
      simp [step, hnp, hfin, workerStep, hw, Chan.recv, hb]
    | nil =>
      cases hc : s.jobs.closed with
      | true =>
        refine ⟨.worker w, ?_⟩
        simp [step, hnp, hfin, workerStep, hw, Chan.recv, hb, hc]
      | false =>
        cases ha : s.alloc with
        | notStarted => exact absurd (Or.inl (h.allocStarted.mp ha)) hmain
        | finished => have := h.jobsClosed.mpr ha; simp [hc] at this
        | loop i =>
          refine ⟨.allocate 0, ?_⟩
          have hcap := h.jobsCap
          by_cases hi : (i : Int) < cfg.noOfJobs
          · have : 0 < s.jobs.cap := by omega
            simp [step, hnp, hfin, allocateStep, ha, hi, Chan.send, hc, hb, this]
          · simp [step, hnp, hfin, allocateStep, ha, hi, Chan.close, hc]

/-! ## Every step uses up the bound -/

theorem log_bounds (cfg : Config) (s : State) (h : Inv cfg s) :
    s.printed.length ≤ s.resultsLog.length ∧ s.resultsLog.length ≤ s.dequeued.length ∧
      s.dequeued.length ≤ cfg.noOfJobs.toNat := by
  have h1 := congrArg List.length h.resultsSplit
  have h2 := h.resultsPerm.length_eq
  have h3 := congrArg List.length h.sentSplit
  have h4 := sent_length_le cfg s h
  simp at h1 h2 h3
  omega

theorem mainStep_remaining_lt (cfg : Config) (s t : State) (h : Inv cfg s) (ht : Inv cfg t)
    (hs : mainStep cfg s = some t) : remaining cfg t < remaining cfg s := by
  have hnp := ht.noPanic
  have hwl := workers_length_le cfg t ht
  cases hm : s.main <;> simp [mainStep, hm] at hs
  · subst hs
    have ha := h.allocStarted.mpr hm
    simp [remaining, MainPc.remaining, AllocPc.remaining, hm, ha]
  · subst hs
    have ha := h.consStarted.mpr (Or.inr hm)
    simp [remaining, MainPc.remaining, ResultPc.remaining, hm, ha]
  · split at hs
    · simp at hs; subst hs
      simp [remaining, MainPc.remaining, hm]
    · simp at hs
      obtain ⟨-, hs⟩ := hs
      subst hs
      simp [remaining, MainPc.remaining, hm]
  · rename_i i
    subst hs
    have := h.workersGo i hm
    simp at hwl
    simp [remaining, MainPc.remaining, WorkerPc.remaining, hm]
    omega
  · cases hc : s.results.close with
    | panic => simp [hc] at hs; subst hs; simp at hnp
    | ok c =>
      simp [hc] at hs; subst hs
      simp [remaining, MainPc.remaining, hm]

theorem allocateStep_remaining_lt (cfg : Config) (s t : State) (r : Int) (ht : Inv cfg t)
    (hs : allocateStep cfg s r = some t) :
    remaining cfg t < remaining cfg s := by
  have hnp := ht.noPanic
  cases ha : s.alloc <;> simp [allocateStep, ha] at hs
  rename_i i
  split at hs
  · split at hs
    · cases hc : s.jobs.send { id := i, randomno := r } with
      | panic => simp [hc] at hs; subst hs; simp at hnp
      | blocked => simp [hc] at hs
      | ok c =>
        simp [hc] at hs; subst hs
        have := (ht.sentLoop (i + 1) rfl).2
        simp [remaining, AllocPc.remaining, ha]
        omega
    · simp at hs
  · cases hc : s.jobs.close with
    | panic => simp [hc] at hs; subst hs; simp at hnp
    | ok c =>
      simp [hc] at hs; subst hs
      simp [remaining, AllocPc.remaining, ha]

theorem resultStep_remaining_lt (cfg : Config) (s t : State) (ht : Inv cfg t)
    (hs : resultStep s = some t) :
    remaining cfg t < remaining cfg s := by
  have hb := log_bounds cfg t ht
  cases hc : s.consumer <;> simp [resultStep, hc] at hs
  · cases hr : s.results.recv with
    | blocked => simp [hr] at hs
    | closedEmpty =>
      simp [hr] at hs; subst hs
      simp [remaining, ResultPc.remaining, hc]
    | value v c =>
      simp [hr] at hs; subst hs
      simp at hb
      simp [remaining, ResultPc.remaining, hc]
      omega
  · obtain ⟨hm, hs⟩ := hs
    subst hs
    simp [remaining, ResultPc.remaining, MainPc.remaining, hc, hm]
    omega

theorem workerStep_remaining_lt (cfg : Config) (s t : State) (w : Nat) (ht : Inv cfg t)
    (hs : workerStep s w = some t) :
    remaining cfg t < remaining cfg s := by
  have hb := log_bounds cfg t ht
  have hnp := ht.noPanic
  unfold workerStep at hs
  cases hw : s.workers[w]? with
  | none => simp [hw] at hs
  | some p =>
    obtain ⟨l1, l2, hl, -, hset⟩ := set_split s.workers w p hw
    simp only [hw, hset] at hs
    cases p with
    | done => simp at hs
    | exit =>
      dsimp only at hs
      split at hs
      · simp at hs; subst hs; simp at hnp
      · simp at hs; subst hs
        simp [remaining, WorkerPc.remaining, hl]
    | recv =>
      dsimp only at hs
      cases hr : s.jobs.recv with
      | blocked => simp [hr] at hs
      | closedEmpty =>
        simp [hr] at hs; subst hs
        simp [remaining, WorkerPc.remaining, hl]
      | value v c =>
        simp [hr] at hs; subst hs
        simp at hb
        simp [remaining, WorkerPc.remaining, hl]
        omega
    | send output =>
      dsimp only at hs
      cases hr : s.results.send output with
      | blocked => simp [hr] at hs
      | panic => simp [hr] at hs; subst hs; simp at hnp
      | ok c =>
        simp [hr] at hs; subst hs
        simp at hb
        simp [remaining, WorkerPc.remaining, hl]
        omega

theorem step_remaining_lt (cfg : Config) (s t : State) (a : Action) (h : Inv cfg s)
    (hs : step cfg s a = some t) : remaining cfg t < remaining cfg s := by
  have ht := inv_step cfg s t a h hs
  unfold step at hs
  split at hs
  · simp at hs
  · cases a with
    | main => exact mainStep_remaining_lt cfg s t h ht hs
    | allocate r => exact allocateStep_remaining_lt cfg s t r ht hs
    | worker w => exact workerStep_remaining_lt cfg s t w ht hs
    | result => exact resultStep_remaining_lt cfg s t ht hs

/-! ## `digits` -/

theorem digitsLoop_zero (sum : Int) : digitsLoop sum 0 = sum := by
  rw [digitsLoop]; simp

theorem digitsLoop_ne (sum no : Int) (h : no ≠ 0) :
    digitsLoop sum no = digitsLoop (sum + Int.tmod no 10) (Int.tdiv no 10) := by
  rw [digitsLoop]; simp [h]

theorem digitsLoop_nat (m : Nat) : ∀ sum : Int,
    digitsLoop sum (m : Int) = sum + ((Nat.digits 10 m).sum : Nat) := by
  induction m using Nat.strong_induction_on with
  | _ m ih =>
    intro sum
    rcases Nat.eq_zero_or_pos m with rfl | hpos
    · simp [digitsLoop_zero]
    · have hne : (m : Int) ≠ 0 := by omega
      rw [digitsLoop_ne _ _ hne]
      have h1 : Int.tmod (m : Int) 10 = ((m % 10 : Nat) : Int) := by
        rw [Int.tmod_eq_emod (by omega) (by decide)]; simp
      have h2 : Int.tdiv (m : Int) 10 = ((m / 10 : Nat) : Int) := by
        rw [Int.tdiv_eq_ediv (by omega) (by decide)]; simp
      rw [h1, h2, ih (m / 10) (Nat.div_lt_self hpos (by decide))]
      rw [Nat.digits_def' (by decide) hpos]
      simp
      ring

theorem digits_nonneg_eq (n : Int) (hn : 0 ≤ n) :
    digits n = ((Nat.digits 10 n.toNat).sum : Nat) := by
  obtain ⟨m, rfl⟩ := Int.eq_ofNat_of_zero_le hn
  simp [digits, digitsLoop_nat]

/-! ## Three sends on a channel of capacity two -/

theorem chan_two_sends_then_blocked (α : Type) (a b c : α) :
    ∃ q1 q2 : Chan α, (Chan.make 2 : Chan α).send a = .ok q1 ∧ q1.send b = .ok q2 ∧
      q2.send c = .blocked ∧ q2.buf = [a, b] ∧ q2.recv = .value a { q2 with buf := [b] } := by
  refine ⟨_, _, rfl, rfl, ?_, rfl, rfl⟩
  simp [Chan.send, Chan.make]

theorem prog03_run_two : Prog03.run 2 =
    { ch := { buf := ["naveen", "paul"], cap := 2, closed := false }, pc := 2, out := [],
      panicked := false } := by
  rfl

theorem prog03_stuck : Prog03.step (Prog03.run 2) = none := by
  rw [prog03_run_two]; rfl

theorem prog03_run_ge : ∀ n, Prog03.run (n + 2) = Prog03.run 2
  | 0 => rfl
  | n + 1 => by
    show (Prog03.step (Prog03.run (n + 2))).getD (Prog03.run (n + 2)) = _
    rw [prog03_run_ge n, prog03_stuck]; rfl

/-! ## The loop of `digits` on negative numbers -/

theorem neg_tmod_ten (a : Int) : Int.tmod (-a) 10 = -Int.tmod a 10 := by
  rw [Int.tmod_def, Int.tmod_def, Int.neg_tdiv]; ring

theorem natAbs_tdiv_ten_lt (no : Int) (h : no ≠ 0) : (Int.tdiv no 10).natAbs < no.natAbs := by
  rw [Int.natAbs_tdiv]
  exact Nat.div_lt_self (Int.natAbs_pos.mpr h) (by decide)

theorem digitsLoop_neg (sum no : Int) : digitsLoop (-sum) (-no) = -digitsLoop sum no := by
  induction sum, no using digitsLoop.induct with
  | case1 sum => simp [digitsLoop_zero]
  | case2 sum no hne ih =>
    rw [digitsLoop_ne sum no hne, digitsLoop_ne (-sum) (-no) (by simpa using hne)]
    rw [neg_tmod_ten, Int.neg_tdiv, ← ih]
    congr 1
    ring

theorem digits_neg (n : Int) : digits (-n) = -digits n := by
  have := digitsLoop_neg 0 n
  simpa [digits] using this

theorem digits_length_tdiv (no : Int) (h : no ≠ 0) :
    (Nat.digits 10 no.natAbs).length = (Nat.digits 10 (Int.tdiv no 10).natAbs).length + 1 := by
  rw [Int.natAbs_tdiv, Nat.digits_def' (by decide) (Int.natAbs_pos.mpr h)]
  rfl

/-- The loop of `digits` leaves after as many passes as the argument has decimal digits, with
the value of `digitsLoop`. -/
theorem digitsLoop_iterate (sum no : Int) :
    (digitsBody^[(Nat.digits 10 no.natAbs).length] (sum, no)).2 = 0 ∧
      (∀ j, j < (Nat.digits 10 no.natAbs).length → (digitsBody^[j] (sum, no)).2 ≠ 0) ∧
      (digitsBody^[(Nat.digits 10 no.natAbs).length] (sum, no)).1 = digitsLoop sum no := by
  induction sum, no using digitsLoop.induct with
  | case1 sum => exact ⟨by simp, by simp, by simp [digitsLoop_zero]⟩
  | case2 sum no hne ih =>
    obtain ⟨h0, hlt, hv⟩ := ih
    rw [digits_length_tdiv no hne]
    refine ⟨?_, ?_, ?_⟩
    · simpa [Function.iterate_succ_apply, digitsBody] using h0
    · intro j hj
      cases j with
      | zero => simpa using hne
      | succ j =>
        have := hlt j (by omega)
        simpa [Function.iterate_succ_apply, digitsBody] using this
    · rw [digitsLoop_ne sum no hne, ← hv]
      simp [Function.iterate_succ_apply, digitsBody]

theorem tmod_ten_natAbs_le (a : Int) : (Int.tmod a 10).natAbs ≤ 9 := by
  have h1 := Int.tmod_lt_of_pos a (by decide : (0:Int) < 10)
  have h2 := Int.tmod_lt_of_pos (-a) (by decide : (0:Int) < 10)
  rw [neg_tmod_ten] at h2
  omega

/-- Every value the loop of `digits` computes is small: the sum moves by at most nine per
pass and the number left never grows. -/
theorem digitsBody_iterate_bound (j : Nat) : ∀ (sum no : Int),
    ((digitsBody^[j] (sum, no)).1 - sum).natAbs ≤ 9 * j ∧
      (digitsBody^[j] (sum, no)).2.natAbs ≤ no.natAbs := by
  induction j with
  | zero => intro sum no; simp
  | succ j ih =>
    intro sum no
    obtain ⟨h1, h2⟩ := ih (sum + Int.tmod no 10) (Int.tdiv no 10)
    have h3 := tmod_ten_natAbs_le no
    have h4 : (Int.tdiv no 10).natAbs ≤ no.natAbs := by
      rw [Int.natAbs_tdiv]; exact Nat.div_le_self _ _
    simp only [Function.iterate_succ_apply, digitsBody]
    constructor
    · omega
    · omega

theorem digits_length_le (m : Nat) (h : m < 2 ^ 63) : (Nat.digits 10 m).length ≤ 19 := by
  by_contra hc
  have h1 : 10 ^ 19 ≤ 10 ^ ((Nat.digits 10 m).length - 1) :=
    Nat.pow_le_pow_right (by decide) (by omega)
  have hm : m ≠ 0 := by
    rintro rfl; simp at hc
  have h2 := Nat.base_pow_length_digits_le 10 m (by decide) hm
  have h3 : 10 ^ ((Nat.digits 10 m).length) = 10 ^ ((Nat.digits 10 m).length - 1) * 10 := by
    rw [← pow_succ]; congr 1; omega
  have h4 : (2:Nat) ^ 63 < 10 ^ 19 := by norm_num
  nlinarith

theorem digits_nonpos_eq (n : Int) (hn : n ≤ 0) :
    digits n = -(((Nat.digits 10 n.natAbs).sum : Nat) : Int) := by
  have h1 := digits_neg (-n)
  rw [neg_neg] at h1
  rw [h1, digits_nonneg_eq (-n) (by omega)]
  have h2 : (-n).toNat = n.natAbs := by
    apply Int.ofNat_inj.mp
    rw [Int.toNat_of_nonneg (by omega), Int.ofNat_natAbs_of_nonpos hn]
  rw [h2]

/-! ## Range over a channel -/

theorem Chan.recv_closedEmpty_iff {α : Type} (c : Chan α) :
    c.recv = .closedEmpty ↔ c.closed = true ∧ c.buf = [] := by
  unfold Chan.recv
  cases hb : c.buf with
  | nil => cases hc : c.closed <;> simp
  | cons v rest => simp

theorem Chan.sendAll_ok {α : Type} (vs : List α) : ∀ (c : Chan α), c.closed = false →
    c.buf.length + vs.length ≤ c.cap → c.sendAll vs = .ok { c with buf := c.buf ++ vs } := by
  induction vs with
  | nil => intro c _ _; simp [Chan.sendAll]
  | cons v vs ih =>
    intro c hopen hcap
    simp only [List.length_cons] at hcap
    have hlt : c.buf.length < c.cap := by omega
    simp only [Chan.sendAll, Chan.send, hopen, hlt]
    simp only [Bool.false_eq_true, if_false, if_true]
    have := ih { buf := c.buf ++ [v], cap := c.cap, closed := false } rfl (by simp; omega)
    simpa [hopen] using this

theorem Chan.rangeLoop_closed {α : Type} : ∀ (buf : List α) (cap : Nat) (received : List α),
    Chan.rangeLoop { buf := buf, cap := cap, closed := true } received =
      .ended (received ++ buf) { buf := [], cap := cap, closed := true } := by
  intro buf
  induction buf with
  | nil => intro cap received; rw [Chan.rangeLoop]; simp [Chan.recv]
  | cons v rest ih =>
    intro cap received
    rw [Chan.rangeLoop]
    simp [Chan.recv, ih]

theorem prog05_run_six : Prog05.run 6 =
    { ch := { buf := [], cap := 5, closed := true }, pc := 4, out := [5, 6],
      panicked := false } := by
  rfl

theorem prog05_run_ge : ∀ n, Prog05.run (n + 6) = Prog05.run 6
  | 0 => rfl
  | n + 1 => by
    show (Prog05.step (Prog05.run (n + 6))).getD (Prog05.run (n + 6)) = _
    rw [prog05_run_ge n, prog05_run_six]; rfl

theorem prog05_out_initial (n : Nat) : (Prog05.run n).out <+: [5, 6] := by
  rcases Nat.lt_or_ge n 6 with h | h
  · interval_cases n <;> decide
  · obtain ⟨k, rfl⟩ := Nat.exists_eq_add_of_le h
    rw [Nat.add_comm, prog05_run_ge k, prog05_run_six]

theorem prog07_inv_init : Prog07.Inv Prog07.init := by
  constructor <;> simp [Prog07.init]

theorem prog07_inv_step (s t : Prog07.State) (a : Prog07.Action) (h : Prog07.Inv s)
    (hs : Prog07.step s a = some t) : Prog07.Inv t := by
  obtain ⟨h1, h2, h3, h4⟩ := h
  unfold Prog07.step at hs
  split at hs
  · simp at hs
  · cases a with
    | main =>
      cases hm : s.main with
      | goProducer =>
        simp [hm] at hs; subst hs
        have hp : s.producer = .notStarted := by
          cases hp : s.producer with
          | notStarted => rfl
          | loop i => have := (h3 i hp).1; simp [hm] at this
          | finished => have := (h4 hp).2.2; simp [hm] at this
        obtain ⟨-, ho, hc⟩ := h2 hp
        constructor <;> simp [h1, ho, hc, Prog07.received]
      | recv =>
        simp [hm] at hs
        obtain ⟨hc, hs⟩ := hs
        subst hs
        have hp : s.producer = .finished := by
          cases hp : s.producer with
          | notStarted => have := (h2 hp).1; simp [hm] at this
          | loop i => have := (h3 i hp).2.2.1; simp [hc] at this
          | finished => rfl
        constructor <;> simp [h1, hp, h4 hp]
      | ended => simp [hm] at hs
    | producer =>
      cases hp : s.producer with
      | notStarted => simp [hp] at hs
      | finished => simp [hp] at hs
      | loop i =>
        obtain ⟨hm, ho, hc, hi⟩ := h3 i hp
        simp only [hp, hc, hm] at hs
        split at hs
        · simp at hs; subst hs
          constructor <;> simp [h1, hm, hc, ho, Prog07.received, List.range_succ]
          omega
        · simp at hs; subst hs
          have : i = 10 := by omega
          subst this
          constructor <;> simp [h1, hm, ho]

theorem prog07_inv (s : Prog07.State) (h : Prog07.Reachable s) : Prog07.Inv s := by
  induction h with
  | init => exact prog07_inv_init
  | step a _ hs ih => exact prog07_inv_step _ _ a ih hs

/-- The program of `22-channels/07` is never stuck before `main` has left its loop. -/
theorem prog07_progress (s : Prog07.State) (h : Prog07.Inv s) (hm : s.main ≠ .ended) :
    ∃ a t, Prog07.step s a = some t := by
  have hnp := h.noPanic
  cases hmain : s.main with
  | ended => exact absurd hmain hm
  | goProducer => exact ⟨.main, by simp [Prog07.step, hnp, hmain]⟩
  | recv =>
    cases hp : s.producer with
    | notStarted => have := (h.notStarted hp).1; simp [hmain] at this
    | loop i =>
      obtain ⟨-, -, hc, -⟩ := h.loop i hp
      refine ⟨.producer, ?_⟩
      by_cases hi : i < 10 <;> simp [Prog07.step, hnp, hmain, hp, hc, hi]
    | finished =>
      obtain ⟨-, hc, -⟩ := h.finished hp
      exact ⟨.main, by simp [Prog07.step, hnp, hmain, hc]⟩

/-- Every step of the program of `22-channels/07` uses up some of its bound. -/
theorem prog07_step_remaining_lt (s t : Prog07.State) (a : Prog07.Action) (h : Prog07.Inv s)
    (hs : Prog07.step s a = some t) : Prog07.remaining t < Prog07.remaining s := by
  unfold Prog07.step at hs
  split at hs
  · simp at hs
  · cases a with
    | main =>
      cases hm : s.main with
      | goProducer =>
        simp [hm] at hs; subst hs
        have hp : s.producer = .notStarted := by
          cases hp : s.producer with
          | notStarted => rfl
          | loop i => have := (h.loop i hp).1; simp [hm] at this
          | finished => have := (h.finished hp).2.2; simp [hm] at this
        simp [Prog07.remaining, hm, hp]
      | recv =>
        simp [hm] at hs
        obtain ⟨-, hs⟩ := hs
        subst hs
        simp [Prog07.remaining, hm]
      | ended => simp [hm] at hs
    | producer =>
      cases hp : s.producer with
      | notStarted => simp [hp] at hs
      | finished => simp [hp] at hs
      | loop i =>
        obtain ⟨hm, -, hc, hi⟩ := h.loop i hp
        simp only [hp, hc, hm] at hs
        split at hs
        · simp at hs; subst hs
          simp only [Prog07.remaining, hm, hp]
          omega
        · simp at hs; subst hs
          simp only [Prog07.remaining, hm, hp]
          omega

/-! ## The mutex-protected counter -/

theorem mutex_inv_init (n : Int) : Mutex02.Inv n Mutex02.init := by
  constructor <;> simp [Mutex02.init, Mutex02.MainPc.pendingAdd]

theorem mutex_inv_mainStep (n : Int) (s t : Mutex02.State) (h : Mutex02.Inv n s)
    (hs : Mutex02.mainStep n s = some t) : Mutex02.Inv n t := by
  obtain ⟨h1, h2, h3, h4, h5, h6, h7, h8, h9, h10⟩ := h
  obtain ⟨x, locked, wg, main, incs, printed, panicked⟩ := s
  simp only at h1 h2 h3 h4 h5 h6 h7 h8 h9 h10
  cases main <;> simp [Mutex02.mainStep] at hs
  · rename_i i
    simp [Mutex02.MainPc.pendingAdd] at h5 h6 h7 h8 h9 h10
    split at hs
    · simp at hs; subst hs
      constructor <;> dsimp only [Mutex02.MainPc.pendingAdd] <;>
        first | assumption | (simp; done) | (simp [*]; done) | skip
    · simp at hs
      obtain ⟨hw, hs⟩ := hs
      subst hs
      have hall : ∀ p ∈ incs, p = Mutex02.IncPc.finished := by
        have h0 : List.countP Mutex02.IncPc.active incs = 0 := by omega
        rw [List.countP_eq_zero] at h0
        intro p hp
        have := h0 p hp
        cases p <;> simp [Mutex02.IncPc.active] at this ⊢
      constructor <;> dsimp only [Mutex02.MainPc.pendingAdd] <;>
        first | assumption | (simp; done) | (simp [*]; done) | skip
      case joined => simp; exact ⟨by omega, by omega, hall⟩
  · rename_i i
    simp [Mutex02.MainPc.pendingAdd] at h5 h6 h7 h8 h9 h10
    subst hs
    constructor <;> dsimp only [Mutex02.MainPc.pendingAdd] <;>
        first | assumption | (simp; done) | (simp [*]; done) | skip
    case xCount => simpa [Mutex02.IncPc.wrote] using h2
    case holders => simpa [Mutex02.IncPc.holds] using h3
    case stored => intro v hv; simp at hv; exact h4 v hv
    case wgCount => simp [Mutex02.IncPc.active]; omega
    case mainLoop => intro j hj; simp at hj; subst hj; simp; omega
  · simp [Mutex02.MainPc.pendingAdd] at h5 h6 h7 h8 h9 h10
    subst hs
    constructor <;> dsimp only [Mutex02.MainPc.pendingAdd] <;>
        first | assumption | (simp; done) | (simp [*]; done) | skip
    case joined => intro _; exact h8

theorem countP_mid {α : Type} (f : α → Bool) (l1 l2 : List α) (q : α) :
    (l1 ++ q :: l2).countP f = l1.countP f + l2.countP f + (if f q = true then 1 else 0) := by
  rw [List.countP_append, List.countP_cons]
  omega

theorem mutex_inv_incStep (n : Int) (s t : Mutex02.State) (g : Nat) (h : Mutex02.Inv n s)
    (hs : Mutex02.incStep s g = some t) : Mutex02.Inv n t := by
  obtain ⟨h1, h2, h3, h4, h5, h6, h7, h8, h9, h10⟩ := h
  obtain ⟨x, locked, wg, main, incs, printed, panicked⟩ := s
  simp only at h1 h2 h3 h4 h5 h6 h7 h8 h9 h10
  unfold Mutex02.incStep at hs
  dsimp only at hs
  cases hw : incs[g]? with
  | none => simp [hw] at hs
  | some p =>
    obtain ⟨l1, l2, hl, -, hset⟩ := set_split incs g p hw
    simp only [hw, hset] at hs
    subst hl
    have hlenEq : ∀ q, (l1 ++ q :: l2).length = (l1 ++ p :: l2).length := by intro q; simp
    have hm2 : p ≠ Mutex02.IncPc.finished →
        ¬ (main = Mutex02.MainPc.print ∨ main = Mutex02.MainPc.finished) := by
      intro hp hm
      exact hp ((h8 hm).2.2 p (by simp))
    have hloop : ∀ q i, main = Mutex02.MainPc.loop i →
        (l1 ++ q :: l2).length = i ∧ i ≤ n.toNat := by
      intro q i hi; rw [hlenEq]; exact h6 i hi
    have hgo : ∀ q i, main = Mutex02.MainPc.go i →
        (l1 ++ q :: l2).length = i ∧ (i : Int) < n := by
      intro q i hi; rw [hlenEq]; exact h7 i hi
    have hst : ∀ q, (∀ v, q ≠ Mutex02.IncPc.store v) →
        ∀ v, Mutex02.IncPc.store v ∈ l1 ++ q :: l2 → v = x := by
      intro q hq v hv
      apply h4 v
      simp only [List.mem_append, List.mem_cons] at hv ⊢
      rcases hv with hv | hv | hv
      · exact Or.inl hv
      · exact absurd hv.symm (hq v)
      · exact Or.inr (Or.inr hv)
    rw [countP_mid] at h2 h3 h5
    cases p with
    | finished => simp at hs
    | lock =>
      have hm2 := hm2 (by simp)
      cases locked <;> simp at hs
      subst hs
      simp only [Mutex02.IncPc.wrote, Mutex02.IncPc.holds, Mutex02.IncPc.active,
        Bool.false_eq_true, if_false, if_true] at h2 h3 h5
      constructor <;> dsimp only <;>
        first | assumption | (simp; done) | skip
      case xCount =>
        rw [countP_mid]
        simp only [Mutex02.IncPc.wrote, Mutex02.IncPc.holds, Mutex02.IncPc.active,
          Bool.false_eq_true, if_false, if_true]; omega
      case holders =>
        rw [countP_mid]
        simp only [Mutex02.IncPc.wrote, Mutex02.IncPc.holds, Mutex02.IncPc.active,
          Bool.false_eq_true, if_false, if_true]; omega
      case stored => exact hst _ (by simp)
      case wgCount =>
        rw [countP_mid]
        simp only [Mutex02.IncPc.wrote, Mutex02.IncPc.holds, Mutex02.IncPc.active,
          Bool.false_eq_true, if_false, if_true]; omega
      case joined => intro hm; exact absurd hm hm2
      case mainLoop => exact hloop _
      case mainGo => exact hgo _
    | load =>
      have hm2 := hm2 (by simp)
      simp at hs
      subst hs
      simp only [Mutex02.IncPc.wrote, Mutex02.IncPc.holds, Mutex02.IncPc.active,
        Bool.false_eq_true, if_false, if_true] at h2 h3 h5
      constructor <;> dsimp only <;>
        first | assumption | (simp; done) | skip
      case xCount =>
        rw [countP_mid]
        simp only [Mutex02.IncPc.wrote, Mutex02.IncPc.holds, Mutex02.IncPc.active,
          Bool.false_eq_true, if_false, if_true]; omega
      case holders =>
        rw [countP_mid]
        simp only [Mutex02.IncPc.wrote, Mutex02.IncPc.holds, Mutex02.IncPc.active,
          Bool.false_eq_true, if_false, if_true]; omega
      case stored =>
        intro v hv
        simp only [List.mem_append, List.mem_cons] at hv
        rcases hv with hv | hv | hv
        · exact h4 v (by simp [hv])
        · simpa using hv
        · exact h4 v (by simp [hv])
      case wgCount =>
        rw [countP_mid]
        simp only [Mutex02.IncPc.wrote, Mutex02.IncPc.holds, Mutex02.IncPc.active,
          Bool.false_eq_true, if_false, if_true]; omega
      case joined => intro hm; exact absurd hm hm2
      case mainLoop => exact hloop _
      case mainGo => exact hgo _
    | store v =>
      have hm2 := hm2 (by simp)
      simp at hs
      subst hs
      have hv : v = x := h4 v (by simp)
      subst hv
      simp only [Mutex02.IncPc.wrote, Mutex02.IncPc.holds, Mutex02.IncPc.active,
        Bool.false_eq_true, if_false, if_true] at h2 h3 h5
      have hh : List.countP Mutex02.IncPc.holds l1 = 0 ∧
          List.countP Mutex02.IncPc.holds l2 = 0 := by
        split at h3 <;> omega
      constructor <;> dsimp only <;>
        first | assumption | (simp; done) | skip
      case xCount =>
        rw [countP_mid]
        simp only [Mutex02.IncPc.wrote, Mutex02.IncPc.holds, Mutex02.IncPc.active,
          Bool.false_eq_true, if_false, if_true]; omega
      case holders =>
        rw [countP_mid]
        simp only [Mutex02.IncPc.wrote, Mutex02.IncPc.holds, Mutex02.IncPc.active,
          Bool.false_eq_true, if_false, if_true]; omega
      case printedSome => intro hm; exact absurd (Or.inr hm) hm2
      case stored =>
        intro w hw2; exfalso
        simp only [List.mem_append, List.mem_cons] at hw2
        rcases hw2 with hw2 | hw2 | hw2
        · have := List.countP_eq_zero.mp hh.1 _ hw2; simp [Mutex02.IncPc.holds] at this
        · simp at hw2
        · have := List.countP_eq_zero.mp hh.2 _ hw2; simp [Mutex02.IncPc.holds] at this
      case wgCount =>
        rw [countP_mid]
        simp only [Mutex02.IncPc.wrote, Mutex02.IncPc.holds, Mutex02.IncPc.active,
          Bool.false_eq_true, if_false, if_true]; omega
      case joined => intro hm; exact absurd hm hm2
      case mainLoop => exact hloop _
      case mainGo => exact hgo _
    | unlock =>
      have hm2 := hm2 (by simp)
      simp only [Mutex02.IncPc.wrote, Mutex02.IncPc.holds, Mutex02.IncPc.active,
        Bool.false_eq_true, if_false, if_true] at h2 h3 h5
      have hlocked : locked = true := by
        cases locked
        · simp at h3
        · rfl
      subst hlocked
      simp at hs
      simp only [if_true] at h3
      subst hs
      constructor <;> dsimp only <;>
        first | assumption | (simp; done) | skip
      case xCount =>
        rw [countP_mid]
        simp only [Mutex02.IncPc.wrote, Mutex02.IncPc.holds, Mutex02.IncPc.active,
          Bool.false_eq_true, if_false, if_true]; omega
      case holders =>
        rw [countP_mid]
        simp only [Mutex02.IncPc.wrote, Mutex02.IncPc.holds, Mutex02.IncPc.active,
          Bool.false_eq_true, if_false, if_true]; omega
      case stored => exact hst _ (by simp)
      case wgCount =>
        rw [countP_mid]
        simp only [Mutex02.IncPc.wrote, Mutex02.IncPc.holds, Mutex02.IncPc.active,
          Bool.false_eq_true, if_false, if_true]; omega
      case joined => intro hm; exact absurd hm hm2
      case mainLoop => exact hloop _
      case mainGo => exact hgo _
    | done =>
      have hm2 := hm2 (by simp)
      simp only [Mutex02.IncPc.wrote, Mutex02.IncPc.holds, Mutex02.IncPc.active,
        Bool.false_eq_true, if_false, if_true] at h2 h3 h5
      have hwg : wg ≠ 0 := by omega
      simp [hwg] at hs
      subst hs
      constructor <;> dsimp only <;>
        first | assumption | (simp; done) | skip
      case xCount =>
        rw [countP_mid]
        simp only [Mutex02.IncPc.wrote, Mutex02.IncPc.holds, Mutex02.IncPc.active,
          Bool.false_eq_true, if_false, if_true]; omega
      case holders =>
        rw [countP_mid]
        simp only [Mutex02.IncPc.wrote, Mutex02.IncPc.holds, Mutex02.IncPc.active,
          Bool.false_eq_true, if_false, if_true]; omega
      case stored => exact hst _ (by simp)
      case wgCount =>
        rw [countP_mid]
        simp only [Mutex02.IncPc.wrote, Mutex02.IncPc.holds, Mutex02.IncPc.active,
          Bool.false_eq_true, if_false, if_true]; omega
      case joined => intro hm; exact absurd hm hm2
      case mainLoop => exact hloop _
      case mainGo => exact hgo _

theorem mutex_inv_step (n : Int) (s t : Mutex02.State) (a : Mutex02.Action)
    (h : Mutex02.Inv n s) (hs : Mutex02.step n s a = some t) : Mutex02.Inv n t := by
  unfold Mutex02.step at hs
  split at hs
  · simp at hs
  · cases a with
    | main => exact mutex_inv_mainStep n s t h hs
    | inc g => exact mutex_inv_incStep n s t g h hs

theorem mutex_inv_of_reachable (n : Int) (s : Mutex02.State) (h : Mutex02.Reachable n s) :
    Mutex02.Inv n s := by
  induction h with
  | init => exact mutex_inv_init n
  | step a _ hs ih => exact mutex_inv_step n _ _ a ih hs

theorem mutex_reachable_execFrom (n : Int) (sched : List Mutex02.Action) :
    ∀ s, Mutex02.Reachable n s → Mutex02.Reachable n (Mutex02.execFrom n s sched) := by
  induction sched with
  | nil => intro s hs; exact hs
  | cons a rest ih =>
    intro s hs
    show Mutex02.Reachable n (Mutex02.execFrom n ((Mutex02.step n s a).getD s) rest)
    apply ih
    cases h : Mutex02.step n s a with
    | none => simpa using hs
    | some t => simpa using Mutex02.Reachable.step a hs h

theorem mutex_reachable_exec (n : Int) (sched : List Mutex02.Action) :
    Mutex02.Reachable n (Mutex02.exec n sched) :=
  mutex_reachable_execFrom n sched _ Mutex02.Reachable.init

/-- Past `w.Wait()` the value of `x` is the number of goroutines `main` was to start. -/
theorem mutex_joined_x (n : Int) (hn : 0 ≤ n) (s : Mutex02.State) (h : Mutex02.Inv n s)
    (hm : s.main = .print ∨ s.main = .finished) : s.x = n := by
  obtain ⟨hge, hle, hall⟩ := h.joined hm
  have hx := h.xCount
  have hc : s.incs.countP Mutex02.IncPc.wrote = s.incs.length := by
    rw [List.countP_eq_length]
    intro p hp
    rw [hall p hp]; rfl
  rw [hx, hc]
  omega

/-- The state in which `k` goroutines have been started and have returned, and `main` is at
its loop test. -/
theorem mutex_execFrom_block (n : Int) (k : Nat) (hk : (k : Int) < n) :
    Mutex02.execFrom n
        { x := k, locked := false, wg := 0, main := .loop k,
          incs := List.replicate k Mutex02.IncPc.finished, printed := none, panicked := false }
        [Mutex02.Action.main, Mutex02.Action.main, Mutex02.Action.inc k, Mutex02.Action.inc k,
          Mutex02.Action.inc k, Mutex02.Action.inc k, Mutex02.Action.inc k] =
      { x := ((k + 1 : Nat) : Int), locked := false, wg := 0, main := .loop (k + 1),
        incs := List.replicate (k + 1) Mutex02.IncPc.finished, printed := none,
        panicked := false } := by
  have h1 : ∀ a : Mutex02.IncPc,
      (List.replicate k Mutex02.IncPc.finished ++ [a])[k]? = some a := by
    intro a
    simp
  have h2 : ∀ a b : Mutex02.IncPc,
      (List.replicate k Mutex02.IncPc.finished ++ [a]).set k b =
        List.replicate k Mutex02.IncPc.finished ++ [b] := by
    intro a b
    rw [List.set_append_right _ _ (by simp)]
    simp
  simp [Mutex02.execFrom, Mutex02.step, Mutex02.mainStep, Mutex02.incStep, hk, h1, h2,
    List.replicate_succ']

theorem mutex_execFrom_append (n : Int) (s : Mutex02.State) (l1 l2 : List Mutex02.Action) :
    Mutex02.execFrom n s (l1 ++ l2) = Mutex02.execFrom n (Mutex02.execFrom n s l1) l2 := by
  simp [Mutex02.execFrom]

theorem mutex_exec_blocks (n : Int) : ∀ k : Nat, (k : Int) ≤ n →
    Mutex02.execFrom n Mutex02.init
        ((List.range k).map fun g =>
          [Mutex02.Action.main, Mutex02.Action.main, Mutex02.Action.inc g,
            Mutex02.Action.inc g, Mutex02.Action.inc g, Mutex02.Action.inc g,
            Mutex02.Action.inc g]).flatten =
      { x := (k : Int), locked := false, wg := 0, main := .loop k,
        incs := List.replicate k Mutex02.IncPc.finished, printed := none, panicked := false }
  | 0, _ => rfl
  | k + 1, hk => by
    rw [List.range_succ, List.map_append, List.flatten_append, mutex_execFrom_append,
      mutex_exec_blocks n k (by omega)]
    simpa using mutex_execFrom_block n k (by omega)

/-- The schedule `oneByOne` is a complete run: `main` prints the number of goroutines. -/
theorem mutex_exec_oneByOne (k : Nat) :
    (Mutex02.exec k (Mutex02.oneByOne k)).printed = some (k : Int) ∧
      (Mutex02.exec k (Mutex02.oneByOne k)).main = .finished := by
  unfold Mutex02.exec Mutex02.oneByOne
  rw [mutex_execFrom_append, mutex_exec_blocks (k : Int) k (le_refl _)]
  simp [Mutex02.execFrom, Mutex02.step, Mutex02.mainStep]

theorem mutex_exists_index {l : List Mutex02.IncPc} {f : Mutex02.IncPc → Bool}
    (h : 0 < l.countP f) : ∃ (g : Nat) (p : Mutex02.IncPc), l[g]? = some p ∧ f p = true := by
  obtain ⟨p, hp, hf⟩ := List.countP_pos_iff.mp h
  obtain ⟨g, hg⟩ := exists_getElem_of_mem hp
  exact ⟨g, p, hg, hf⟩

/-- A goroutine that holds the mutex can take a step. -/
theorem mutex_holder_steps (n : Int) (s : Mutex02.State) (h : Mutex02.Inv n s)
    (hfin : s.main ≠ .finished) (g : Nat) (p : Mutex02.IncPc) (hg : s.incs[g]? = some p)
    (hp : p.holds = true) : ∃ a t, Mutex02.step n s a = some t := by
  have hnp := h.noPanic
  refine ⟨.inc g, ?_⟩
  cases p with
  | load => simp [Mutex02.step, hnp, hfin, Mutex02.incStep, hg]
  | store v => simp [Mutex02.step, hnp, hfin, Mutex02.incStep, hg]
  | unlock => cases hl : s.locked <;> simp [Mutex02.step, hnp, hfin, Mutex02.incStep, hg, hl]
  | lock => simp [Mutex02.IncPc.holds] at hp
  | done => simp [Mutex02.IncPc.holds] at hp
  | finished => simp [Mutex02.IncPc.holds] at hp

theorem mutex_progress (n : Int) (s : Mutex02.State) (h : Mutex02.Inv n s)
    (hfin : s.main ≠ .finished) : ∃ a t, Mutex02.step n s a = some t := by
  have hnp := h.noPanic
  cases hm : s.main with
  | finished => exact absurd hm hfin
  | go i => exact ⟨.main, by simp [Mutex02.step, hnp, hm, Mutex02.mainStep]⟩
  | print => exact ⟨.main, by simp [Mutex02.step, hnp, hm, Mutex02.mainStep]⟩
  | loop i =>
    by_cases hi : (i : Int) < n
    · exact ⟨.main, by simp [Mutex02.step, hnp, hm, Mutex02.mainStep, hi]⟩
    · by_cases hz : s.wg = 0
      · exact ⟨.main, by simp [Mutex02.step, hnp, hm, Mutex02.mainStep, hi, hz]⟩
      · have hwg := h.wgCount
        simp only [hm, Mutex02.MainPc.pendingAdd] at hwg
        obtain ⟨g, p, hg, hp⟩ := mutex_exists_index (l := s.incs) (f := Mutex02.IncPc.active)
          (by omega)
        by_cases hh : p.holds = true
        · exact mutex_holder_steps n s h hfin g p hg hh
        · cases p with
          | load => simp [Mutex02.IncPc.holds] at hh
          | store v => simp [Mutex02.IncPc.holds] at hh
          | unlock => simp [Mutex02.IncPc.holds] at hh
          | finished => simp [Mutex02.IncPc.active] at hp
          | done =>
            refine ⟨.inc g, ?_⟩
            simp [Mutex02.step, hnp, hfin, Mutex02.incStep, hg, hz]
          | lock =>
            cases hl : s.locked with
            | false =>
              refine ⟨.inc g, ?_⟩
              simp [Mutex02.step, hnp, hfin, Mutex02.incStep, hg, hl]
            | true =>
              have hc := h.holders
              rw [hl] at hc
              simp only [if_true] at hc
              obtain ⟨g2, p2, hg2, hp2⟩ :=
                mutex_exists_index (l := s.incs) (f := Mutex02.IncPc.holds) (by omega)
              exact mutex_holder_steps n s h hfin g2 p2 hg2 hp2

theorem mutex_step_remaining_lt (n : Int) (s t : Mutex02.State) (a : Mutex02.Action)
    (h : Mutex02.Inv n s) (hs : Mutex02.step n s a = some t) :
    Mutex02.remaining n t < Mutex02.remaining n s := by
  have ht := mutex_inv_step n s t a h hs
  have hnp := ht.noPanic
  unfold Mutex02.step at hs
  split at hs
  · simp at hs
  · cases a with
    | main =>
      cases hm : s.main <;> simp [Mutex02.mainStep, hm] at hs
      · split at hs
        · simp at hs; subst hs
          simp [Mutex02.remaining, Mutex02.MainPc.remaining, hm]
        · simp at hs
          obtain ⟨-, hs⟩ := hs
          subst hs
          simp [Mutex02.remaining, Mutex02.MainPc.remaining, hm]
      · rename_i i
        subst hs
        have := h.mainGo i hm
        simp [Mutex02.remaining, Mutex02.MainPc.remaining, Mutex02.IncPc.remaining, hm]
        omega
      · subst hs
        simp [Mutex02.remaining, Mutex02.MainPc.remaining, hm]
    | inc g =>
      simp only at hs
      unfold Mutex02.incStep at hs
      cases hw : s.incs[g]? with
      | none => simp [hw] at hs
      | some p =>
        obtain ⟨l1, l2, hl, -, hset⟩ := set_split s.incs g p hw
        simp only [hw, hset] at hs
        cases p with
        | finished => simp at hs
        | lock =>
          dsimp only at hs
          split at hs
          · simp at hs
          · simp at hs; subst hs
            simp [Mutex02.remaining, Mutex02.IncPc.remaining, hl]
        | load =>
          simp at hs; subst hs
          simp [Mutex02.remaining, Mutex02.IncPc.remaining, hl]
        | store v =>
          simp at hs; subst hs
          simp [Mutex02.remaining, Mutex02.IncPc.remaining, hl]
        | unlock =>
          dsimp only at hs
          split at hs
          · simp at hs; subst hs
            simp [Mutex02.remaining, Mutex02.IncPc.remaining, hl]
          · simp at hs; subst hs; simp at hnp
        | done =>
          dsimp only at hs
          split at hs
          · simp at hs; subst hs; simp at hnp
          · simp at hs; subst hs
            simp [Mutex02.remaining, Mutex02.IncPc.remaining, hl]

/-! ## The pool without a worker -/

theorem exec_mainOnly (cfg : Config) (hW : cfg.noOfWorkers ≤ 0) :
    (exec cfg mainOnlySchedule).main = .finished ∧
      (exec cfg mainOnlySchedule).doneSignals = 1 ∧
      (exec cfg mainOnlySchedule).printed = [] ∧
      (exec cfg mainOnlySchedule).jobsLog = [] := by
  have h0 : ¬ ((0 : Int) < cfg.noOfWorkers) := by omega
  simp [exec, execFrom, mainOnlySchedule, step, mainStep, resultStep, init, Chan.make,
    Chan.close, Chan.recv, h0]

theorem no_worker_inv (cfg : Config) (hW : cfg.noOfWorkers ≤ 0) (s : State)
    (h : Inv cfg s) :
    s.workers = [] ∧ s.wg = 0 ∧ s.dequeued = [] ∧ s.resultsLog = [] ∧ s.printed = [] := by
  have hw : s.workers = [] := by
    have := workers_length_le cfg s h
    have h0 : cfg.noOfWorkers.toNat = 0 := by omega
    rw [h0] at this
    exact List.length_eq_zero.mp (by omega)
  have hd : s.dequeued = [] := by
    apply List.eq_nil_iff_forall_not_mem.mpr
    intro p hp
    have := h.deqWorker p hp
    rw [hw] at this
    simp at this
  have hr : s.resultsLog = [] := by
    have := h.resultsPerm
    rw [hd] at this
    simp at this
    exact this.1
  have hp : s.printed = [] := by
    have := h.resultsSplit
    rw [hr] at this
    simp at this
    exact this.1
  refine ⟨hw, ?_, hd, hr, hp⟩
  have hwg := h.wgCount
  have hpa : s.main.pendingAdd = 0 := by
    cases hm : s.main with
    | poolGo i => have := (h.workersGo i hm).2; omega
    | _ => rfl
  rw [hw, hpa] at hwg
  simpa [activeWorkers] using hwg

/-- With no worker, `main` or `result` can always step until `main` returns: nothing waits for
`allocate`. -/
theorem no_worker_progress (cfg : Config) (hW : cfg.noOfWorkers ≤ 0) (s : State)
    (h : Inv cfg s) (hm : s.main ≠ .finished) :
    (∃ t, step cfg s .main = some t) ∨ ∃ t, step cfg s .result = some t := by
  have hnp := h.noPanic
  obtain ⟨-, hwg, -, -, -⟩ := no_worker_inv cfg hW s h
  cases hmain : s.main with
  | finished => exact absurd hmain hm
  | goAllocate => exact Or.inl (by simp [step, hnp, mainStep, hmain])
  | goResult => exact Or.inl (by simp [step, hnp, mainStep, hmain])
  | poolGo i => exact Or.inl (by simp [step, hnp, mainStep, hmain])
  | poolClose =>
    refine Or.inl ?_
    cases hc : s.results.closed <;> simp [step, hnp, mainStep, hmain, Chan.close, hc]
  | poolLoop i =>
    have hi : ¬ ((i : Int) < cfg.noOfWorkers) := by omega
    exact Or.inl (by simp [step, hnp, mainStep, hmain, hi, hwg])
  | recvDone =>
    have hc : s.results.closed = true := h.resultsClosed.mpr (Or.inl hmain)
    refine Or.inr ?_
    cases hcons : s.consumer with
    | notStarted => have := h.consStarted.mp hcons; simp [hmain] at this
    | finished => have := h.consFinished.mp hcons; simp [hmain] at this
    | sendDone => simp [step, hnp, resultStep, hcons, hmain]
    | recv =>
      cases hb : s.results.buf <;> simp [step, hnp, hmain, resultStep, hcons, Chan.recv, hb, hc]

/-! ## The pipeline and the loops -/

theorem prog04_inv_init (number : Int) : Prog04.Inv number Prog04.init := by
  constructor <;> simp [Prog04.init]

theorem prog04_inv_step (number : Int) (s t : Prog04.State) (a : Prog04.Action)
    (h : Prog04.Inv number s) (hs : Prog04.step number s a = some t) : Prog04.Inv number t := by
  obtain ⟨h1, h2, h3, h4, h5, h6⟩ := h
  obtain ⟨main, squares, cubes, printed⟩ := s
  simp only at h1 h2 h3 h4 h5 h6
  unfold Prog04.step at hs
  split at hs
  · simp at hs
  · cases a with
    | main =>
      cases main <;> simp only [Option.some.injEq, reduceCtorEq] at hs
      · subst hs
        exact { squaresSend := fun sum hq => by cases hq; rfl
                cubesSend := h2
                recvCubes := fun a ha => by cases ha
                print := fun a b ha => by cases ha
                printedNone := fun _ => h5 (by simp)
                printedSome := fun ha => by cases ha }
      · subst hs
        exact { squaresSend := h1
                cubesSend := fun sum hq => by cases hq; rfl
                recvCubes := fun a ha => by cases ha
                print := fun a b ha => by cases ha
                printedNone := fun _ => h5 (by simp)
                printedSome := fun ha => by cases ha }
      · subst hs
        obtain ⟨ha, hb⟩ := h4 _ _ rfl
        exact { squaresSend := h1
                cubesSend := h2
                recvCubes := fun a ha => by cases ha
                print := fun a b ha => by cases ha
                printedNone := fun hne => absurd rfl hne
                printedSome := fun _ => by rw [ha, hb] }
    | calcSquares =>
      cases squares <;> simp only [Option.some.injEq, reduceCtorEq] at hs
      rename_i sum
      split at hs
      · rename_i hm
        simp only [Option.some.injEq] at hs
        subst hs
        subst hm
        exact { squaresSend := fun sum hq => by cases hq
                cubesSend := h2
                recvCubes := fun a ha => by cases ha; exact h1 _ rfl
                print := fun a b ha => by cases ha
                printedNone := fun _ => h5 (by simp)
                printedSome := fun ha => by cases ha }
      · simp at hs
    | calcCubes =>
      cases cubes <;> cases main <;> simp only [Option.some.injEq, reduceCtorEq] at hs
      subst hs
      exact { squaresSend := h1
              cubesSend := fun sum hq => by cases hq
              recvCubes := fun a ha => by cases ha
              print := fun a b ha => by cases ha; exact ⟨h3 _ rfl, h2 _ rfl⟩
              printedNone := fun _ => h5 (by simp)
              printedSome := fun ha => by cases ha }

theorem prog04_inv (number : Int) (s : Prog04.State) (h : Prog04.Reachable number s) :
    Prog04.Inv number s := by
  induction h with
  | init => exact prog04_inv_init number
  | step a _ hs ih => exact prog04_inv_step number _ _ a ih hs

theorem prog04_reachable_exec (number : Int) (sched : List Prog04.Action) :
    Prog04.Reachable number (Prog04.exec number sched) := by
  have key : ∀ (sched : List Prog04.Action) (s : Prog04.State), Prog04.Reachable number s →
      Prog04.Reachable number
        (sched.foldl (fun st a => (Prog04.step number st a).getD st) s) := by
    intro sched
    induction sched with
    | nil => intro s hs; exact hs
    | cons a rest ih =>
      intro s hs
      apply ih
      show Prog04.Reachable number ((Prog04.step number s a).getD s)
      cases h : Prog04.step number s a with
      | none => simpa using hs
      | some t => simpa using Prog04.Reachable.step a hs h
  exact key sched _ Prog04.Reachable.init

theorem squaresLoop_zero (sum : Int) : Prog04.squaresLoop sum 0 = sum := by
  rw [Prog04.squaresLoop]; simp

theorem squaresLoop_ne (sum number : Int) (h : number ≠ 0) :
    Prog04.squaresLoop sum number =
      Prog04.squaresLoop (sum + Int.tmod number 10 * Int.tmod number 10) (Int.tdiv number 10) := by
  rw [Prog04.squaresLoop]; simp [h]

theorem cubesLoop_zero (sum : Int) : Prog04.cubesLoop sum 0 = sum := by
  rw [Prog04.cubesLoop]; simp

theorem cubesLoop_ne (sum number : Int) (h : number ≠ 0) :
    Prog04.cubesLoop sum number =
      Prog04.cubesLoop (sum + Int.tmod number 10 * Int.tmod number 10 * Int.tmod number 10)
        (Int.tdiv number 10) := by
  rw [Prog04.cubesLoop]; simp [h]

theorem calcSquares_589 : Prog04.calcSquares 589 = 170 := by
  simp [Prog04.calcSquares, squaresLoop_ne, squaresLoop_zero, Int.tmod, Int.tdiv]

theorem calcCubes_589 : Prog04.calcCubes 589 = 1366 := by
  simp [Prog04.calcCubes, cubesLoop_ne, cubesLoop_zero, Int.tmod, Int.tdiv]


theorem digitsSent_zero : Prog09.digitsSent 0 = [] := by
  rw [Prog09.digitsSent]; simp

theorem digitsSent_ne (number : Int) (h : number ≠ 0) :
    Prog09.digitsSent number = Int.tmod number 10 :: Prog09.digitsSent (Int.tdiv number 10) := by
  rw [Prog09.digitsSent]; simp [h]

theorem digitsSent_nat (m : Nat) :
    Prog09.digitsSent (m : Int) = (Nat.digits 10 m).map Int.ofNat := by
  induction m using Nat.strong_induction_on with
  | _ m ih =>
    rcases Nat.eq_zero_or_pos m with rfl | hpos
    · simp [digitsSent_zero]
    · have hne : (m : Int) ≠ 0 := by omega
      rw [digitsSent_ne _ hne]
      have h1 : Int.tmod (m : Int) 10 = ((m % 10 : Nat) : Int) := by
        rw [Int.tmod_eq_emod (by omega) (by decide)]; simp
      have h2 : Int.tdiv (m : Int) 10 = ((m / 10 : Nat) : Int) := by
        rw [Int.tdiv_eq_ediv (by omega) (by decide)]; simp
      rw [h1, h2, ih (m / 10) (Nat.div_lt_self hpos (by decide))]
      rw [Nat.digits_def' (by decide) hpos]
      simp

theorem pipeInv_init (loopOf : Int → Int → Int) (number : Int) :
    Prog09.PipeInv loopOf number Prog09.Pipe.init := by
  constructor <;> simp [Prog09.Pipe.init]

/-- The receiver is at `go digits` or before only while `digits` has not been started. -/
theorem pipeInv_notStarted (loopOf : Int → Int → Int) (number : Int) (p : Prog09.Pipe)
    (h : Prog09.PipeInv loopOf number p)
    (hc : p.calcPc = .notStarted ∨ p.calcPc = .goDigits) : p.digitsPc = .notStarted := by
  cases hd : p.digitsPc with
  | notStarted => rfl
  | loop n =>
    obtain ⟨-, -, sum, hs, -⟩ := h.loop n hd
    rcases hc with hc | hc <;> simp [hs] at hc
  | finished =>
    obtain ⟨-, -, h1, h2, -⟩ := h.finished hd
    rcases hc with hc | hc
    · exact absurd hc h1
    · exact absurd hc h2

theorem pipeInv_go (loopOf : Int → Int → Int) (number : Int) (p : Prog09.Pipe)
    (h : Prog09.PipeInv loopOf number p) (hc : p.calcPc = .notStarted) :
    Prog09.PipeInv loopOf number { p with calcPc := .goDigits } := by
  have hd := pipeInv_notStarted loopOf number p h (Or.inl hc)
  obtain ⟨-, h2, h3⟩ := h.notStarted hd
  exact { noPanic := h.noPanic
          notStarted := fun _ => ⟨Or.inr rfl, h2, h3⟩
          loop := fun n hn => by simp [hd] at hn
          finished := fun hn => by simp [hd] at hn }

theorem pipeInv_sent (loopOf : Int → Int → Int) (number : Int) (p : Prog09.Pipe)
    (h : Prog09.PipeInv loopOf number p) (sum : Int) (hc : p.calcPc = .send sum) :
    Prog09.PipeInv loopOf number { p with calcPc := .finished } ∧ sum = loopOf 0 number ∧
      p.digitsPc = .finished := by
  have hd : p.digitsPc = .finished := by
    cases hd : p.digitsPc with
    | finished => rfl
    | notStarted =>
      have := (h.notStarted hd).1
      simp [hc] at this
    | loop n =>
      obtain ⟨-, -, s2, hs, -⟩ := h.loop n hd
      simp [hc] at hs
  obtain ⟨h1, h2, -, -, h5⟩ := h.finished hd
  refine ⟨?_, h5 sum (Or.inr hc), hd⟩
  exact { noPanic := h.noPanic
          notStarted := fun hn => by simp [hd] at hn
          loop := fun n hn => by simp [hd] at hn
          finished := fun _ => ⟨h1, h2, by simp, by simp, fun s2 hs => by simp at hs⟩ }

theorem pipeInv_calcStep (loopOf : Int → Int → Int) (number : Int) (p q : Prog09.Pipe)
    (h : Prog09.PipeInv loopOf number p) (hs : p.calcStep number = some q) :
    Prog09.PipeInv loopOf number q := by
  unfold Prog09.Pipe.calcStep at hs
  split at hs
  · rename_i hc
    simp only [Option.some.injEq] at hs
    subst hs
    have hd := pipeInv_notStarted loopOf number p h (Or.inr hc)
    obtain ⟨-, h2, h3⟩ := h.notStarted hd
    exact { noPanic := h.noPanic
            notStarted := fun hn => by simp at hn
            loop := fun n hn => by
              simp only [Prog09.DigitsPc.loop.injEq] at hn
              subst hn
              exact ⟨h2, by simp [h3], 0, rfl, rfl⟩
            finished := fun hn => by simp at hn }
  · rename_i sum hc
    split at hs
    · rename_i hcl
      simp only [Option.some.injEq] at hs
      subst hs
      have hd : p.digitsPc = .finished := by
        cases hd : p.digitsPc with
        | finished => rfl
        | notStarted => have := (h.notStarted hd).2.1; simp [hcl] at this
        | loop n => have := (h.loop n hd).1; simp [hcl] at this
      obtain ⟨h1, h2, -, -, h5⟩ := h.finished hd
      exact { noPanic := h.noPanic
              notStarted := fun hn => by simp [hd] at hn
              loop := fun n hn => by simp [hd] at hn
              finished := fun _ => ⟨h1, h2, by simp, by simp, fun s2 hs => by
                simp at hs; rw [← hs]; exact h5 sum (Or.inl hc)⟩ }
    · simp at hs
  · simp at hs

theorem pipeInv_digitsStep (update loopOf : Int → Int → Int) (number : Int)
    (hne : ∀ sum n, n ≠ 0 →
      loopOf sum n = loopOf (update sum (Int.tmod n 10)) (Int.tdiv n 10))
    (h0 : ∀ sum, loopOf sum 0 = sum)
    (p q : Prog09.Pipe) (h : Prog09.PipeInv loopOf number p)
    (hs : p.digitsStep update = some q) : Prog09.PipeInv loopOf number q := by
  unfold Prog09.Pipe.digitsStep at hs
  split at hs
  · rename_i n hd
    obtain ⟨hcl, hem, sum, hc, hv⟩ := h.loop n hd
    simp only [hcl, hc] at hs
    split at hs
    · rename_i hn
      simp only [Bool.false_eq_true, if_false, Option.some.injEq] at hs
      subst hs
      exact { noPanic := h.noPanic
              notStarted := fun hx => by simp at hx
              loop := fun m hm => by
                simp only [Prog09.DigitsPc.loop.injEq] at hm
                subst hm
                refine ⟨rfl, ?_, _, rfl, ?_⟩
                · rw [← hem, digitsSent_ne n hn]; simp
                · rw [← hne sum n hn]; exact hv
              finished := fun hx => by simp at hx }
    · rename_i hn
      simp only [Bool.false_eq_true, if_false, Option.some.injEq] at hs
      subst hs
      have hn0 : n = 0 := by simpa using hn
      subst hn0
      rw [digitsSent_zero, List.append_nil] at hem
      rw [h0] at hv
      exact { noPanic := h.noPanic
              notStarted := fun hx => by simp at hx
              loop := fun m hm => by simp at hm
              finished := fun _ => ⟨rfl, hem, by simp [hc], by simp [hc], fun s2 hs => by
                simp [hc] at hs; rw [← hs]; exact hv⟩ }
  · simp at hs

/-- A step inside a pipeline is taken by a receiver that has been started and has not
returned, and leaves it so. -/
theorem pipe_internal_running (loopOf update : Int → Int → Int) (number : Int)
    (p q : Prog09.Pipe) (h : Prog09.PipeInv loopOf number p)
    (hs : p.calcStep number = some q ∨ p.digitsStep update = some q) :
    (p.calcPc ≠ .notStarted ∧ p.calcPc ≠ .finished) ∧
      (q.calcPc ≠ .notStarted ∧ q.calcPc ≠ .finished) := by
  rcases hs with hs | hs
  · unfold Prog09.Pipe.calcStep at hs
    split at hs
    · rename_i hc
      simp only [Option.some.injEq] at hs
      subst hs
      simp [hc]
    · rename_i sum hc
      split at hs
      · simp only [Option.some.injEq] at hs
        subst hs
        simp [hc]
      · simp at hs
    · simp at hs
  · unfold Prog09.Pipe.digitsStep at hs
    split at hs
    · rename_i n hd
      obtain ⟨hcl, -, sum, hc, -⟩ := h.loop n hd
      simp only [hcl, hc] at hs
      split at hs
      · simp only [Bool.false_eq_true, if_false, Option.some.injEq] at hs
        subst hs
        simp [hc]
      · simp only [Bool.false_eq_true, if_false, Option.some.injEq] at hs
        subst hs
        simp [hc]
    · simp at hs

theorem prog09_inv_squares (number : Int) (s : Prog09.State) (q : Prog09.Pipe)
    (h : Prog09.Inv number s) (hq : Prog09.PipeInv Prog04.squaresLoop number q)
    (hp : s.squares.calcPc ≠ .notStarted ∧ s.squares.calcPc ≠ .finished)
    (hr : q.calcPc ≠ .notStarted ∧ q.calcPc ≠ .finished) :
    Prog09.Inv number { s with squares := q } :=
  { squares := hq
    cubes := h.cubes
    goSquares := fun hm => absurd (h.goSquares hm).1 hp.1
    goCubes := fun hm => ⟨hr.1, hr.2, (h.goCubes hm).2.2⟩
    recvSquares := fun hm => ⟨hr.1, hr.2, (h.recvSquares hm).2.2⟩
    recvCubes := h.recvCubes
    print := h.print
    printedNone := h.printedNone
    printedSome := h.printedSome }

theorem prog09_inv_cubes (number : Int) (s : Prog09.State) (q : Prog09.Pipe)
    (h : Prog09.Inv number s) (hq : Prog09.PipeInv Prog04.cubesLoop number q)
    (hp : s.cubes.calcPc ≠ .notStarted ∧ s.cubes.calcPc ≠ .finished)
    (hr : q.calcPc ≠ .notStarted ∧ q.calcPc ≠ .finished) :
    Prog09.Inv number { s with cubes := q } :=
  { squares := h.squares
    cubes := hq
    goSquares := fun hm => absurd (h.goSquares hm).2 hp.1
    goCubes := fun hm => absurd (h.goCubes hm).2.2 hp.1
    recvSquares := fun hm => ⟨(h.recvSquares hm).1, (h.recvSquares hm).2.1, hr.1, hr.2⟩
    recvCubes := fun a hm => ⟨(h.recvCubes a hm).1, hr.1, hr.2⟩
    print := h.print
    printedNone := h.printedNone
    printedSome := h.printedSome }

theorem prog09_inv_init (number : Int) : Prog09.Inv number Prog09.init := by
  constructor <;> first
    | exact pipeInv_init _ number
    | simp [Prog09.init, Prog09.Pipe.init]

theorem prog09_inv_step (number : Int) (s t : Prog09.State) (a : Prog09.Action)
    (h : Prog09.Inv number s) (hs : Prog09.step number s a = some t) :
    Prog09.Inv number t := by
  unfold Prog09.step at hs
  split at hs
  · simp at hs
  · cases a with
    | main =>
      cases hm : s.main <;> simp only [hm, Option.some.injEq, reduceCtorEq] at hs
      · subst hs
        obtain ⟨h1, h2⟩ := h.goSquares hm
        exact { squares := pipeInv_go _ number _ h.squares h1
                cubes := h.cubes
                goSquares := fun ha => by cases ha
                goCubes := fun _ => ⟨by simp, by simp, h2⟩
                recvSquares := fun ha => by cases ha
                recvCubes := fun a ha => by cases ha
                print := fun a b ha => by cases ha
                printedNone := fun _ => h.printedNone (by simp [hm])
                printedSome := fun ha => by cases ha }
      · subst hs
        obtain ⟨h1, h2, h3⟩ := h.goCubes hm
        exact { squares := h.squares
                cubes := pipeInv_go _ number _ h.cubes h3
                goSquares := fun ha => by cases ha
                goCubes := fun ha => by cases ha
                recvSquares := fun _ => ⟨h1, h2, by simp, by simp⟩
                recvCubes := fun a ha => by cases ha
                print := fun a b ha => by cases ha
                printedNone := fun _ => h.printedNone (by simp [hm])
                printedSome := fun ha => by cases ha }
      · subst hs
        obtain ⟨ha, hb⟩ := h.print _ _ hm
        exact { squares := h.squares
                cubes := h.cubes
                goSquares := fun ha => by cases ha
                goCubes := fun ha => by cases ha
                recvSquares := fun ha => by cases ha
                recvCubes := fun a ha => by cases ha
                print := fun a b ha => by cases ha
                printedNone := fun hne => absurd rfl hne
                printedSome := fun _ => by rw [ha, hb] }
    | calcSquares =>
      simp only at hs
      split at hs
      · rename_i sum hc
        split at hs
        · rename_i hm
          simp only [Option.some.injEq] at hs
          subst hs
          obtain ⟨hq, hv, -⟩ := pipeInv_sent _ number _ h.squares sum hc
          obtain ⟨-, -, h3, h4⟩ := h.recvSquares hm
          exact { squares := hq
                  cubes := h.cubes
                  goSquares := fun ha => by cases ha
                  goCubes := fun ha => by cases ha
                  recvSquares := fun ha => by cases ha
                  recvCubes := fun a ha => by cases ha; exact ⟨hv, h3, h4⟩
                  print := fun a b ha => by cases ha
                  printedNone := fun _ => h.printedNone (by simp [hm])
                  printedSome := fun ha => by cases ha }
        · simp at hs
      · cases hq : s.squares.calcStep number with
        | none => simp [hq] at hs
        | some q =>
          simp only [hq, Option.map_some', Option.some.injEq] at hs
          subst hs
          obtain ⟨hp, hr⟩ := pipe_internal_running _ Prog09.squareUpdate number _ q h.squares
            (Or.inl hq)
          exact prog09_inv_squares number s q h
            (pipeInv_calcStep _ number _ q h.squares hq) hp hr
    | digitsSquares =>
      cases hq : s.squares.digitsStep Prog09.squareUpdate with
      | none => simp [hq] at hs
      | some q =>
        simp only [hq, Option.map_some', Option.some.injEq] at hs
        subst hs
        obtain ⟨hp, hr⟩ := pipe_internal_running _ Prog09.squareUpdate number _ q h.squares
          (Or.inr hq)
        exact prog09_inv_squares number s q h
          (pipeInv_digitsStep Prog09.squareUpdate _ number squaresLoop_ne squaresLoop_zero _ q
            h.squares hq) hp hr
    | calcCubes =>
      simp only at hs
      split at hs
      · rename_i sum hc
        split at hs
        · rename_i a hm
          simp only [Option.some.injEq] at hs
          subst hs
          obtain ⟨hq, hv, -⟩ := pipeInv_sent _ number _ h.cubes sum hc
          obtain ⟨h1, -, -⟩ := h.recvCubes a hm
          exact { squares := h.squares
                  cubes := hq
                  goSquares := fun ha => by cases ha
                  goCubes := fun ha => by cases ha
                  recvSquares := fun ha => by cases ha
                  recvCubes := fun a ha => by cases ha
                  print := fun a b ha => by cases ha; exact ⟨h1, hv⟩
                  printedNone := fun _ => h.printedNone (by simp [hm])
                  printedSome := fun ha => by cases ha }
        · simp at hs
      · cases hq : s.cubes.calcStep number with
        | none => simp [hq] at hs
        | some q =>
          simp only [hq, Option.map_some', Option.some.injEq] at hs
          subst hs
          obtain ⟨hp, hr⟩ := pipe_internal_running _ Prog09.cubeUpdate number _ q h.cubes
            (Or.inl hq)
          exact prog09_inv_cubes number s q h
            (pipeInv_calcStep _ number _ q h.cubes hq) hp hr
    | digitsCubes =>
      cases hq : s.cubes.digitsStep Prog09.cubeUpdate with
      | none => simp [hq] at hs
      | some q =>
        simp only [hq, Option.map_some', Option.some.injEq] at hs
        subst hs
        obtain ⟨hp, hr⟩ := pipe_internal_running _ Prog09.cubeUpdate number _ q h.cubes
          (Or.inr hq)
        exact prog09_inv_cubes number s q h
          (pipeInv_digitsStep Prog09.cubeUpdate _ number cubesLoop_ne cubesLoop_zero _ q
            h.cubes hq) hp hr

theorem prog09_inv (number : Int) (s : Prog09.State) (h : Prog09.Reachable number s) :
    Prog09.Inv number s := by
  induction h with
  | init => exact prog09_inv_init number
  | step a _ hs ih => exact prog09_inv_step number _ _ a ih hs

theorem prog09_reachable_exec (number : Int) (sched : List Prog09.Action) :
    Prog09.Reachable number (Prog09.exec number sched) := by
  unfold Prog09.exec
  suffices h : ∀ s, Prog09.Reachable number s →
      Prog09.Reachable number
        (sched.foldl (fun st a => (Prog09.step number st a).getD st) s) from
    h _ Prog09.Reachable.init
  induction sched with
  | nil => intro s hs; exact hs
  | cons a l ih =>
    intro s hs
    rw [List.foldl_cons]
    apply ih
    show Prog09.Reachable number ((Prog09.step number s a).getD s)
    cases hst : Prog09.step number s a with
    | none => exact hs
    | some t => exact Prog09.Reachable.step a hs hst

/-- A pipeline whose receiver runs is never stuck: the receiver is at its final send, or it or
`digits` has a step. -/
theorem pipe_progress (loopOf update : Int → Int → Int) (number : Int) (p : Prog09.Pipe)
    (h : Prog09.PipeInv loopOf number p)
    (hr : p.calcPc ≠ .notStarted ∧ p.calcPc ≠ .finished) :
    (∃ sum, p.calcPc = .send sum) ∨ (∃ q, p.calcStep number = some q) ∨
      ∃ q, p.digitsStep update = some q := by
  cases hc : p.calcPc with
  | notStarted => exact absurd hc hr.1
  | finished => exact absurd hc hr.2
  | send sum => exact Or.inl ⟨sum, rfl⟩
  | goDigits =>
    exact Or.inr (Or.inl ⟨{ p with calcPc := .recv 0, digitsPc := .loop number }, by
      simp only [Prog09.Pipe.calcStep, hc]⟩)
  | recv sum =>
    cases hd : p.digitsPc with
    | notStarted =>
      rcases (h.notStarted hd).1 with h1 | h1 <;> rw [hc] at h1 <;> cases h1
    | loop n =>
      obtain ⟨hcl, -, -⟩ := h.loop n hd
      refine Or.inr (Or.inr ?_)
      unfold Prog09.Pipe.digitsStep
      rw [hd]
      by_cases hn : n = 0
      · simp [hn, hcl]
      · simp [hn, hcl, hc]
    | finished =>
      obtain ⟨hcl, -⟩ := h.finished hd
      refine Or.inr (Or.inl ?_)
      unfold Prog09.Pipe.calcStep
      rw [hc]
      simp [hcl]

/-- Every step inside a pipeline uses up some of its bound. -/
theorem pipe_remaining_lt (loopOf update : Int → Int → Int) (number : Int)
    (p q : Prog09.Pipe) (h : Prog09.PipeInv loopOf number p)
    (hs : p.calcStep number = some q ∨ p.digitsStep update = some q) :
    q.calcPc.remaining + q.digitsPc.remaining number <
      p.calcPc.remaining + p.digitsPc.remaining number := by
  rcases hs with hs | hs
  · unfold Prog09.Pipe.calcStep at hs
    split at hs
    · rename_i hc
      simp only [Option.some.injEq] at hs
      subst hs
      have hd : p.digitsPc = .notStarted := by
        cases hd : p.digitsPc with
        | notStarted => rfl
        | loop n =>
          obtain ⟨-, -, sum, h1, -⟩ := h.loop n hd
          rw [hc] at h1
          cases h1
        | finished =>
          obtain ⟨-, -, -, h1, -⟩ := h.finished hd
          exact absurd hc h1
      simp [hc, hd, Prog09.CalcPc.remaining, Prog09.DigitsPc.remaining]
    · rename_i sum hc
      split at hs
      · simp only [Option.some.injEq] at hs
        subst hs
        simp [hc, Prog09.CalcPc.remaining]
      · simp at hs
    · simp at hs
  · unfold Prog09.Pipe.digitsStep at hs
    split at hs
    · rename_i n hd
      obtain ⟨hcl, -, sum, hc, -⟩ := h.loop n hd
      simp only [hcl, hc] at hs
      split at hs
      · rename_i hn
        simp only [Bool.false_eq_true, if_false, Option.some.injEq] at hs
        subst hs
        have hpos : 0 < n.natAbs := Int.natAbs_pos.mpr hn
        have hlt : (Int.tdiv n 10).natAbs < n.natAbs := by
          rw [Int.natAbs_tdiv]
          exact Nat.div_lt_self hpos (by decide)
        simp only [hc, hd, Prog09.CalcPc.remaining, Prog09.DigitsPc.remaining]
        omega
      · simp only [Bool.false_eq_true, if_false, Option.some.injEq] at hs
        subst hs
        simp [hc, hd, Prog09.CalcPc.remaining, Prog09.DigitsPc.remaining]
    · simp at hs

/-- The pipelined program is never stuck before `main` returns. -/
theorem prog09_progress (number : Int) (s : Prog09.State) (h : Prog09.Inv number s)
    (hm : s.main ≠ .finished) : ∃ a t, Prog09.step number s a = some t := by
  have hg : ¬ (s.squares.panicked = true ∨ s.cubes.panicked = true ∨ s.main = .finished) := by
    simp [h.squares.noPanic, h.cubes.noPanic, hm]
  cases hmain : s.main with
  | finished => exact absurd hmain hm
  | goSquares =>
    exact ⟨.main, by simp [Prog09.step, hmain, h.squares.noPanic, h.cubes.noPanic]⟩
  | goCubes =>
    exact ⟨.main, by simp [Prog09.step, hmain, h.squares.noPanic, h.cubes.noPanic]⟩
  | print a b =>
    exact ⟨.main, by simp [Prog09.step, hmain, h.squares.noPanic, h.cubes.noPanic]⟩
  | recvSquares =>
    obtain ⟨h1, h2, -, -⟩ := h.recvSquares hmain
    rcases pipe_progress _ Prog09.squareUpdate number _ h.squares ⟨h1, h2⟩ with
      ⟨sum, hc⟩ | ⟨q, hq⟩ | ⟨q, hq⟩
    · exact ⟨.calcSquares, by
        simp [Prog09.step, hmain, hc, h.squares.noPanic, h.cubes.noPanic]⟩
    · refine ⟨.calcSquares, { s with squares := q }, ?_⟩
      have hns : ∀ sum, s.squares.calcPc ≠ .send sum := by
        intro sum hc
        simp [Prog09.Pipe.calcStep, hc] at hq
      simp only [Prog09.step, if_neg hg]
      rw [hq]; rfl
    · exact ⟨.digitsSquares, { s with squares := q }, by
        simp only [Prog09.step, if_neg hg, hq]; rfl⟩
  | recvCubes a =>
    obtain ⟨-, h1, h2⟩ := h.recvCubes a hmain
    rcases pipe_progress _ Prog09.cubeUpdate number _ h.cubes ⟨h1, h2⟩ with
      ⟨sum, hc⟩ | ⟨q, hq⟩ | ⟨q, hq⟩
    · exact ⟨.calcCubes, by
        simp [Prog09.step, hmain, hc, h.squares.noPanic, h.cubes.noPanic]⟩
    · refine ⟨.calcCubes, { s with cubes := q }, ?_⟩
      have hns : ∀ sum, s.cubes.calcPc ≠ .send sum := by
        intro sum hc
        simp [Prog09.Pipe.calcStep, hc] at hq
      simp only [Prog09.step, if_neg hg]
      rw [hq]; rfl
    · exact ⟨.digitsCubes, { s with cubes := q }, by
        simp only [Prog09.step, if_neg hg, hq]; rfl⟩

/-- Every step of the pipelined program uses up some of its bound. -/
theorem prog09_step_remaining_lt (number : Int) (s t : Prog09.State) (a : Prog09.Action)
    (h : Prog09.Inv number s) (hs : Prog09.step number s a = some t) :
    Prog09.remaining number t < Prog09.remaining number s := by
  unfold Prog09.step at hs
  split at hs
  · simp at hs
  · cases a with
    | main =>
      cases hm : s.main <;> simp only [hm, Option.some.injEq, reduceCtorEq] at hs
      · subst hs
        simp [Prog09.remaining, hm, (h.goSquares hm).1, Prog09.MainPc.remaining,
          Prog09.CalcPc.remaining]
      · subst hs
        simp [Prog09.remaining, hm, (h.goCubes hm).2.2, Prog09.MainPc.remaining,
          Prog09.CalcPc.remaining]
      · subst hs
        simp [Prog09.remaining, hm, Prog09.MainPc.remaining]
    | calcSquares =>
      simp only at hs
      split at hs
      · rename_i sum hc
        split at hs
        · rename_i hm
          simp only [Option.some.injEq] at hs
          subst hs
          simp only [Prog09.remaining, hm, hc, Prog09.MainPc.remaining,
            Prog09.CalcPc.remaining]
          omega
        · simp at hs
      · cases hq : s.squares.calcStep number with
        | none => simp [hq] at hs
        | some q =>
          simp only [hq, Option.map_some', Option.some.injEq] at hs
          subst hs
          have := pipe_remaining_lt _ Prog09.squareUpdate number _ q h.squares (Or.inl hq)
          simp only [Prog09.remaining]
          omega
    | digitsSquares =>
      cases hq : s.squares.digitsStep Prog09.squareUpdate with
      | none => simp [hq] at hs
      | some q =>
        simp only [hq, Option.map_some', Option.some.injEq] at hs
        subst hs
        have := pipe_remaining_lt _ Prog09.squareUpdate number _ q h.squares (Or.inr hq)
        simp only [Prog09.remaining]
        omega
    | calcCubes =>
      simp only at hs
      split at hs
      · rename_i sum hc
        split at hs
        · rename_i a hm
          simp only [Option.some.injEq] at hs
          subst hs
          simp only [Prog09.remaining, hm, hc, Prog09.MainPc.remaining,
            Prog09.CalcPc.remaining]
          omega
        · simp at hs
      · cases hq : s.cubes.calcStep number with
        | none => simp [hq] at hs
        | some q =>
          simp only [hq, Option.map_some', Option.some.injEq] at hs
          subst hs
          have := pipe_remaining_lt _ Prog09.cubeUpdate number _ q h.cubes (Or.inl hq)
          simp only [Prog09.remaining]
          omega
    | digitsCubes =>
      cases hq : s.cubes.digitsStep Prog09.cubeUpdate with
      | none => simp [hq] at hs
      | some q =>
        simp only [hq, Option.map_some', Option.some.injEq] at hs
        subst hs
        have := pipe_remaining_lt _ Prog09.cubeUpdate number _ q h.cubes (Or.inr hq)
        simp only [Prog09.remaining]
        omega

/-- What `digits` sends for `-number` is, value by value, the negation of what it sends for
`number`. -/
theorem digitsSent_neg (number : Int) :
    Prog09.digitsSent (-number) = (Prog09.digitsSent number).map fun d => -d := by
  induction number using Prog09.digitsSent.induct with
  | case1 => simp [digitsSent_zero]
  | case2 n hn ih =>
    have hn2 : -n ≠ 0 := by omega
    rw [digitsSent_ne _ hn2, digitsSent_ne _ hn, neg_tmod_ten, Int.neg_tdiv, ih]
    simp

/-- The values `digits` sends are the decimal digits of `|number|`, least significant first,
each with the sign of `number`. -/
theorem digitsSent_sign (number : Int) :
    Prog09.digitsSent number =
      (Nat.digits 10 number.natAbs).map fun (d : Nat) => Int.sign number * (d : Int) := by
  obtain ⟨m, rfl | rfl⟩ := Int.eq_nat_or_neg number
  · rw [digitsSent_nat, Int.natAbs_ofNat]
    rcases Nat.eq_zero_or_pos m with h0 | hpos
    · simp [h0]
    · have h1 : Int.sign (m : Int) = 1 := Int.sign_eq_one_of_pos (by omega)
      rw [h1]
      apply List.map_congr_left
      intro d _
      show (d : Int) = 1 * (d : Int)
      omega
  · rw [digitsSent_neg, digitsSent_nat, Int.natAbs_neg, Int.natAbs_ofNat, List.map_map]
    rcases Nat.eq_zero_or_pos m with h0 | hpos
    · simp [h0]
    · have h1 : Int.sign (-(m : Int)) = -1 := Int.sign_eq_neg_one_of_neg (by omega)
      rw [h1]
      apply List.map_congr_left
      intro d _
      show -(d : Int) = -1 * (d : Int)
      omega

/-- The loop program returns under the schedule that starts both goroutines and lets them
send in turn. -/
theorem prog04_exec_finished (number : Int) :
    (Prog04.exec number [.main, .main, .calcSquares, .calcCubes, .main]).main = .finished := by
  simp [Prog04.exec, Prog04.step, Prog04.init]

/-! ## `allocate` sends and closes -/

/-- With capacities at least one, the pool is never stuck before `main` returns. -/
theorem pool_progress (cfg : Config) (s : State) (h : Inv cfg s) (hjc : 1 ≤ cfg.jobsCap)
    (hrc : 1 ≤ cfg.resultsCap) (hm : s.main ≠ .finished) : ∃ a t, step cfg s a = some t := by
  have hnp := h.noPanic
  cases hmain : s.main with
  | finished => exact absurd hmain hm
  | goAllocate => exact ⟨.main, by simp [step, hnp, mainStep, hmain]⟩
  | goResult => exact ⟨.main, by simp [step, hnp, mainStep, hmain]⟩
  | poolGo i => exact ⟨.main, by simp [step, hnp, mainStep, hmain]⟩
  | poolClose =>
    refine ⟨.main, ?_⟩
    cases hc : s.results.closed <;> simp [step, hnp, mainStep, hmain, Chan.close, hc]
  | poolLoop i =>
    by_cases hi : (i : Int) < cfg.noOfWorkers
    · exact ⟨.main, by simp [step, hnp, mainStep, hmain, hi]⟩
    · by_cases hz : s.wg = 0
      · exact ⟨.main, by simp [step, hnp, mainStep, hmain, hi, hz]⟩
      · have hwg := h.wgCount
        simp only [hmain, MainPc.pendingAdd, activeWorkers] at hwg
        have hpos : 0 < List.countP (fun p => decide (p ≠ WorkerPc.done)) s.workers := by omega
        obtain ⟨p, hp, hne⟩ := List.countP_pos_iff.mp hpos
        obtain ⟨w, hw⟩ := exists_getElem_of_mem hp
        have hopen : s.results.closed = false := by
          cases hc : s.results.closed
          · rfl
          · have := h.resultsClosed.mp hc
            simp [hmain] at this
        exact worker_progress cfg s h hjc hrc w p hw (by simpa using hne) hopen
  | recvDone =>
    have hc : s.results.closed = true := h.resultsClosed.mpr (Or.inl hmain)
    refine ⟨.result, ?_⟩
    cases hcons : s.consumer with
    | notStarted => have := h.consStarted.mp hcons; simp [hmain] at this
    | finished => have := h.consFinished.mp hcons; simp [hmain] at this
    | sendDone => simp [step, hnp, resultStep, hcons, hmain]
    | recv =>
      cases hb : s.results.buf <;> simp [step, hnp, hmain, resultStep, hcons, Chan.recv, hb, hc]

/-- While `allocate` has not returned and at least one worker is configured, the program has
not exited and `jobs` is open. -/
theorem alloc_running (cfg : Config) (s : State) (h : Inv cfg s) (hW : 1 ≤ cfg.noOfWorkers)
    (ha : s.alloc ≠ .finished) :
    s.panicked = false ∧ s.main ≠ .finished ∧ s.jobs.closed = false := by
  refine ⟨h.noPanic, ?_, ?_⟩
  · intro hf
    exact ha (inv_closed cfg s h hW (h.resultsClosed.mpr (Or.inr hf))).1
  · cases hc : s.jobs.closed
    · rfl
    · exact absurd (h.jobsClosed.mp hc) ha

/-- At its loop test with a Job left and room in the buffer, `allocate` sends the Job whose id
is the loop counter. -/
theorem allocate_sends (cfg : Config) (s : State) (h : Inv cfg s) (hW : 1 ≤ cfg.noOfWorkers)
    (i : Nat) (ha : s.alloc = .loop i) (hi : (i : Int) < cfg.noOfJobs)
    (hroom : s.jobs.buf.length < s.jobs.cap) (r : Int) (hr0 : 0 ≤ r) (hr1 : r < 999) :
    step cfg s (.allocate r) =
      some { s with jobs := { s.jobs with buf := s.jobs.buf ++ [{ id := i, randomno := r }] },
                    alloc := .loop (i + 1),
                    jobsLog := s.jobsLog ++ [.send { id := i, randomno := r }] } := by
  obtain ⟨hnp, hm, hc⟩ := alloc_running cfg s h hW (by rw [ha]; simp)
  simp [step, hnp, hm, allocateStep, ha, hi, hr0, hr1, Chan.send, hc, hroom]

/-- At its loop test with no Job left, `allocate` closes `jobs` and returns. -/
theorem allocate_closes (cfg : Config) (s : State) (h : Inv cfg s) (hW : 1 ≤ cfg.noOfWorkers)
    (i : Nat) (ha : s.alloc = .loop i) (hi : ¬ (i : Int) < cfg.noOfJobs) (r : Int) :
    step cfg s (.allocate r) =
      some { s with jobs := { s.jobs with closed := true }, alloc := .finished,
                    jobsLog := s.jobsLog ++ [.close] } := by
  obtain ⟨hnp, hm, hc⟩ := alloc_running cfg s h hW (by rw [ha]; simp)
  simp [step, hnp, hm, allocateStep, ha, hi, Chan.close, hc]

/-- While `allocate` waits at a full buffer, a Job is there for a worker to receive: the worker
with index `w` at its receive takes the oldest Job. -/
theorem allocate_drained (cfg : Config) (s : State) (h : Inv cfg s) (hW : 1 ≤ cfg.noOfWorkers)
    (hjc : 1 ≤ cfg.jobsCap) (ha : s.alloc ≠ .finished)
    (hfull : ¬ s.jobs.buf.length < s.jobs.cap) (w : Nat) (hw : s.workers[w]? = some .recv) :
    ∃ job rest, s.jobs.buf = job :: rest ∧
      step cfg s (.worker w) =
        some { s with jobs := { s.jobs with buf := rest },
                      workers := s.workers.set w (.send (mkResult job)),
                      dequeued := s.dequeued ++ [(w, job)] } := by
  obtain ⟨hnp, hm, -⟩ := alloc_running cfg s h hW ha
  have hcap := h.jobsCap
  cases hb : s.jobs.buf with
  | nil => rw [hb] at hfull; simp at hfull; omega
  | cons job rest =>
    refine ⟨job, rest, rfl, ?_⟩
    simp [step, hnp, hm, workerStep, hw, Chan.recv, hb]

/-! ## The claims -/

set_option maxRecDepth 100000

/-- C1: for every job count `J ≥ 0` and worker count `W ≥ 1`, in every reachable state in which
`result` has left its loop (it is at or past `done <- true`), it has printed exactly `J` Results,
their job ids are `0, ..., J-1` each exactly once, and their Jobs are, up to order, exactly the
Jobs `allocate` sent. -/
theorem c1_results_bijection (cfg : Config) (s : State)
    (hJ : 0 ≤ cfg.noOfJobs) (hW : 1 ≤ cfg.noOfWorkers) (hr : Reachable cfg s)
    (hd : s.consumer = .sendDone ∨ s.consumer = .finished) :
    (s.printed.length : Int) = cfg.noOfJobs ∧
    (s.printed.map fun r => r.job.id).Perm ((List.range cfg.noOfJobs.toNat).map Int.ofNat) ∧
    (s.printed.map Result.job).Perm s.sent ∧ (s.sent.length : Int) = cfg.noOfJobs := by
  have h := inv_of_reachable cfg s hr
  obtain ⟨hc, hb⟩ := h.consDone hd
  obtain ⟨hfin, hjb, hheld, -, -⟩ := inv_closed cfg s h hW hc
  have hlen := h.sentFinished hfin
  have hsplit := h.sentSplit
  rw [hjb, List.append_nil] at hsplit
  have hperm := h.resultsPerm
  rw [hheld, List.append_nil, h.resultsSplit, hb, List.append_nil] at hperm
  have hjobs : (s.printed.map Result.job).Perm s.sent := by
    have := (hperm.map Result.job).symm
    simpa [hsplit, mkResult, Function.comp_def] using this
  have hids : (s.printed.map fun r => r.job.id).Perm ((List.range cfg.noOfJobs.toNat).map Int.ofNat) := by
    have := hjobs.map Job.id
    rw [h.sentIds, hlen] at this
    simpa [Function.comp_def] using this
  refine ⟨?_, hids, hjobs, by omega⟩
  have := hjobs.length_eq
  simp at this
  omega

/-- Witness of C1: five jobs and one worker, in the state where `result` is at `done <- true`. -/
theorem c1_results_bijection_witness :
    (exec smallConfig (roundRobin 17)).consumer = .sendDone ∧
    ((exec smallConfig (roundRobin 17)).printed.length : Int) = 5 ∧
    ((exec smallConfig (roundRobin 17)).printed.map fun r => r.job.id).Perm
      ((List.range 5).map Int.ofNat) :=
  have h := c1_results_bijection smallConfig (exec smallConfig (roundRobin 17)) (by decide)
    (by decide) (reachable_exec _ _) (Or.inl (by decide))
  ⟨by decide, h.1, h.2.1⟩

/-- C2: with `W ≥ 1` workers, in every reachable state the program has not panicked (so no
worker has sent on a closed `results`), and whenever `main` is at `close(results)` or `results`
is closed, all `W` workers have been started and have returned and the WaitGroup counter is
zero; the step that closes `results` is taken only from such a state. -/
theorem c2_close_after_workers (cfg : Config) (s : State) (hW : 1 ≤ cfg.noOfWorkers)
    (hr : Reachable cfg s) :
    s.panicked = false ∧
    (s.main = .poolClose ∨ s.results.closed = true →
      (s.workers.length : Int) = cfg.noOfWorkers ∧ (∀ p ∈ s.workers, p = .done) ∧ s.wg = 0) ∧
    (∀ a t, step cfg s a = some t → s.results.closed = false → t.results.closed = true →
      (s.workers.length : Int) = cfg.noOfWorkers ∧ ∀ p ∈ s.workers, p = .done) := by
  have h := inv_of_reachable cfg s hr
  have key : s.main = .poolClose ∨ s.results.closed = true →
      (s.workers.length : Int) = cfg.noOfWorkers ∧ (∀ p ∈ s.workers, p = .done) ∧ s.wg = 0 := by
    intro hm
    have hm2 : s.main = .poolClose ∨ s.main = .recvDone ∨ s.main = .finished := by
      rcases hm with hm | hm
      · exact Or.inl hm
      · exact Or.inr (h.resultsClosed.mp hm)
    obtain ⟨hge, hle, hall⟩ := h.workersJoined hm2
    refine ⟨by omega, hall, ?_⟩
    have hwg := h.wgCount
    have h0 : activeWorkers s.workers = 0 := by
      unfold activeWorkers
      rw [List.countP_eq_zero]
      intro p hp
      simp [hall p hp]
    have h1 : s.main.pendingAdd = 0 := by
      rcases hm2 with hm | hm | hm <;> simp [hm, MainPc.pendingAdd]
    omega
  refine ⟨h.noPanic, key, ?_⟩
  intro a t hs h0 h1
  obtain ⟨hm, -⟩ := step_closes_results cfg s t a hs h0 h1
  obtain ⟨h2, h3, -⟩ := key (Or.inl hm)
  exact ⟨h2, h3⟩

/-- Witness of C2: five jobs and one worker, in the state where `main` is at `close(results)`. -/
theorem c2_close_after_workers_witness :
    (exec smallConfig (roundRobin 16)).main = .poolClose ∧
    (exec smallConfig (roundRobin 16)).panicked = false ∧
    (exec smallConfig (roundRobin 16)).workers = [.done] :=
  have h := c2_close_after_workers smallConfig (exec smallConfig (roundRobin 16)) (by decide)
    (reachable_exec _ _)
  ⟨by decide, h.1, by decide⟩

/-- C3: with both capacities at least one, for every job count and worker count, every
reachable state in which `main` has not yet received from `done` has an enabled step; hence a
state without enabled step is one where `main` is past `<-done` and exactly one signal was
delivered; and every step strictly decreases the bound `remaining`, so no run is infinite. -/
theorem c3_no_deadlock (cfg : Config) (s : State) (hjc : 1 ≤ cfg.jobsCap)
    (hrc : 1 ≤ cfg.resultsCap) (hr : Reachable cfg s) :
    (s.main ≠ .finished → ∃ a t, step cfg s a = some t) ∧
    ((∀ a, step cfg s a = none) → s.main = .finished ∧ s.doneSignals = 1) ∧
    (∀ a t, step cfg s a = some t → remaining cfg t < remaining cfg s) := by
  have key : s.main ≠ .finished → ∃ a t, step cfg s a = some t := by
    intro hm
    have h := inv_of_reachable cfg s hr
    have hnp := h.noPanic
    cases hmain : s.main with
    | finished => exact absurd hmain hm
    | goAllocate => exact ⟨.main, by simp [step, hnp, mainStep, hmain]⟩
    | goResult => exact ⟨.main, by simp [step, hnp, mainStep, hmain]⟩
    | poolGo i => exact ⟨.main, by simp [step, hnp, mainStep, hmain]⟩
    | poolClose =>
      refine ⟨.main, ?_⟩
      cases hc : s.results.closed <;> simp [step, hnp, mainStep, hmain, Chan.close, hc]
    | poolLoop i =>
      by_cases hi : (i : Int) < cfg.noOfWorkers
      · exact ⟨.main, by simp [step, hnp, mainStep, hmain, hi]⟩
      · by_cases hz : s.wg = 0
        · exact ⟨.main, by simp [step, hnp, mainStep, hmain, hi, hz]⟩
        · have hwg := h.wgCount
          simp only [hmain, MainPc.pendingAdd, activeWorkers] at hwg
          have hpos : 0 < List.countP (fun p => decide (p ≠ WorkerPc.done)) s.workers := by omega
          obtain ⟨p, hp, hne⟩ := List.countP_pos_iff.mp hpos
          obtain ⟨w, hw⟩ := exists_getElem_of_mem hp
          have hopen : s.results.closed = false := by
            cases hc : s.results.closed
            · rfl
            · have := h.resultsClosed.mp hc
              simp [hmain] at this
          exact worker_progress cfg s h hjc hrc w p hw (by simpa using hne) hopen
    | recvDone =>
      have hc : s.results.closed = true := h.resultsClosed.mpr (Or.inl hmain)
      refine ⟨.result, ?_⟩
      cases hcons : s.consumer with
      | notStarted => have := h.consStarted.mp hcons; simp [hmain] at this
      | finished => have := h.consFinished.mp hcons; simp [hmain] at this
      | sendDone => simp [step, hnp, resultStep, hcons, hmain]
      | recv =>
        cases hb : s.results.buf <;> simp [step, hnp, hmain, resultStep, hcons, Chan.recv, hb, hc]
  have h := inv_of_reachable cfg s hr
  refine ⟨key, ?_, fun a t hs => step_remaining_lt cfg s t a h hs⟩
  intro hnone
  have hfin : s.main = .finished := by
    by_contra hne
    obtain ⟨a, t, hs⟩ := key hne
    rw [hnone a] at hs
    simp at hs
  refine ⟨hfin, ?_⟩
  have hd := h.doneCount
  rw [if_pos (h.consFinished.mpr hfin)] at hd
  exact hd

/-- Witness of C3: the run of `main` itself (100 jobs, 10 workers, capacity 10) part of the way,
and the run with no job at all to its end. -/
theorem c3_no_deadlock_witness :
    (∃ a t, step mainConfig (exec mainConfig (roundRobin 40)) a = some t) ∧
    (exec emptyConfig emptySchedule).main = .finished ∧
    (exec emptyConfig emptySchedule).doneSignals = 1 :=
  ⟨(c3_no_deadlock mainConfig (exec mainConfig (roundRobin 40)) (by decide) (by decide)
      (reachable_exec _ _)).1 (by decide),
    by decide, by decide⟩

/-- C4: with a single worker (`W = 1`), for every job count and every capacity, in every
reachable state the job ids of the Results printed so far are `0, 1, ..., k-1` in this order,
the Results printed are an initial segment of the Results of the Jobs in submission order, and
once `result` has left its loop the ids printed are exactly `0, 1, ..., J-1` in this order. -/
theorem c4_single_worker_order (cfg : Config) (s : State) (hW : cfg.noOfWorkers = 1)
    (hr : Reachable cfg s) :
    (s.printed.map fun r => r.job.id) = (List.range s.printed.length).map Int.ofNat ∧
    s.printed <+: s.sent.map mkResult ∧
    s.printed.length ≤ cfg.noOfJobs.toNat ∧
    (s.consumer = .sendDone ∨ s.consumer = .finished →
      (s.printed.map fun r => r.job.id) = (List.range cfg.noOfJobs.toNat).map Int.ofNat) := by
  have h := inv_of_reachable cfg s hr
  have hwl : s.workers.length ≤ 1 := by
    have := workers_length_le cfg s h
    rw [hW] at this
    simpa using this
  have hord := h.singleOrder hwl
  rw [h.resultsSplit] at hord
  have hsent : s.sent.map mkResult = s.printed ++ (s.results.buf ++ s.heldResults ++
      s.jobs.buf.map mkResult) := by
    rw [h.sentSplit, List.map_append, List.map_map]
    have : (mkResult ∘ Prod.snd) = fun p : Nat × Job => mkResult p.2 := rfl
    rw [this, ← hord]
    simp
  have hids : (s.sent.map mkResult).map (fun r => r.job.id) =
      (List.range (s.sent.map mkResult).length).map Int.ofNat := by
    have := h.sentIds
    simpa [mkResult, Function.comp_def] using this
  rw [hsent] at hids
  have hpre := ids_of_append (fun r : Result => r.job.id) _ _ hids
  have hlen : s.printed.length ≤ s.sent.length := by
    have := congrArg List.length hsent
    simp at this
    omega
  have hle := sent_length_le cfg s h
  refine ⟨hpre, ?_, by omega, ?_⟩
  · rw [hsent]; exact List.prefix_append _ _
  · intro hd
    obtain ⟨hc, hb⟩ := h.consDone hd
    obtain ⟨hfin, hjb, hheld, -, -⟩ := inv_closed cfg s h (by omega) hc
    have hl2 := congrArg List.length hsent
    simp [hb, hjb, hheld, h.sentFinished hfin] at hl2
    rw [hpre, ← hl2]

/-- Witness of C4: `J = 5`, `W = 1`, capacity `1`, at the end of the run. -/
theorem c4_single_worker_order_witness :
    (exec smallConfig (roundRobin 18)).consumer = .finished ∧
    ((exec smallConfig (roundRobin 18)).printed.map fun r => r.job.id) = [0, 1, 2, 3, 4] :=
  ⟨by decide,
    ((c4_single_worker_order smallConfig (exec smallConfig (roundRobin 18)) rfl
      (reachable_exec _ _)).2.2.2 (Or.inr (by decide))).trans (by decide)⟩

/-- C5: in every reachable state the Jobs received from `jobs`, in the order they were
received across all workers, are an initial segment of the Jobs `allocate` sent, in the same
order: their ids are `0, 1, ..., k-1` with `k ≤ J`, so no Job is received twice; and no two
workers hold Results of the same job id. -/
theorem c5_fifo_dequeue (cfg : Config) (s : State) (hr : Reachable cfg s) :
    s.dequeued.map Prod.snd <+: s.sent ∧
    s.dequeued.length ≤ cfg.noOfJobs.toNat ∧
    (s.dequeued.map fun p => p.2.id) = (List.range s.dequeued.length).map Int.ofNat ∧
    (s.dequeued.map fun p => p.2.id).Nodup ∧
    (∀ (w1 w2 : Nat) (r1 r2 : Result),
      s.workers[w1]? = some (.send r1) → s.workers[w2]? = some (.send r2) →
      r1.job.id = r2.job.id → w1 = w2) := by
  have h := inv_of_reachable cfg s hr
  have hids := h.sentIds
  rw [h.sentSplit] at hids
  have hpre := ids_of_append Job.id _ _ hids
  simp only [List.map_map, List.length_map] at hpre
  have hpre2 : (s.dequeued.map fun p => p.2.id) = (List.range s.dequeued.length).map Int.ofNat := hpre
  have hlen : s.dequeued.length ≤ s.sent.length := by
    have := congrArg List.length h.sentSplit
    simp at this
    omega
  have hle := sent_length_le cfg s h
  refine ⟨?_, by omega, hpre2, ?_, ?_⟩
  · rw [h.sentSplit]; exact List.prefix_append _ _
  · rw [hpre2]; exact nodup_range_ids _
  · have hperm := h.resultsPerm.map fun r => r.job.id
    have hnd : ((s.resultsLog ++ s.heldResults).map fun r => r.job.id).Nodup := by
      refine hperm.nodup_iff.mp ?_
      have : (List.map (fun r => r.job.id) (List.map (fun p => mkResult p.2) s.dequeued)) =
          s.dequeued.map fun p => p.2.id := by
        simp [mkResult, Function.comp_def]
      rw [this, hpre2]
      exact nodup_range_ids _
    rw [List.map_append] at hnd
    have hnd2 := (List.nodup_append.mp hnd).2.1
    intro w1 w2 r1 r2 h1 h2 he
    exact held_index_unique s.workers w1 w2 r1 r2 hnd2 h1 h2 he

/-- Witness of C5: the run of `main` itself, part of the way. -/
theorem c5_fifo_dequeue_witness :
    ((exec mainConfig (roundRobin 9)).dequeued.map fun p => p.2.id) =
      (List.range (exec mainConfig (roundRobin 9)).dequeued.length).map Int.ofNat ∧
    (exec mainConfig (roundRobin 9)).dequeued.length = 3 :=
  ⟨(c5_fifo_dequeue mainConfig (exec mainConfig (roundRobin 9)) (reachable_exec _ _)).2.2.1,
    by decide⟩

/-- C6: in every reachable state, every Result that is held by a worker, buffered in
`results` or already printed belongs to a Job that `allocate` has sent: its job id is
nonnegative and smaller than the number of Jobs sent so far. -/
theorem c6_causal_order (cfg : Config) (s : State) (hr : Reachable cfg s) (r : Result)
    (hmem : r ∈ s.printed ∨ r ∈ s.results.buf ∨ r ∈ s.heldResults) :
    r.job ∈ s.sent ∧ 0 ≤ r.job.id ∧ r.job.id < s.sent.length := by
  have h := inv_of_reachable cfg s hr
  have h1 : r ∈ s.resultsLog ++ s.heldResults := by
    rw [h.resultsSplit]
    simp only [List.mem_append]
    tauto
  have h2 := h.resultsPerm.mem_iff.mpr h1
  simp only [List.mem_map] at h2
  obtain ⟨p, hp, rfl⟩ := h2
  have h3 : p.2 ∈ s.sent := by
    rw [h.sentSplit]
    simp only [List.mem_append, List.mem_map]
    exact Or.inl ⟨p, hp, rfl⟩
  refine ⟨h3, ?_⟩
  have h4 : p.2.id ∈ s.sent.map Job.id := List.mem_map.mpr ⟨p.2, h3, rfl⟩
  rw [h.sentIds] at h4
  simp only [List.mem_map, List.mem_range] at h4
  obtain ⟨k, hk, hk2⟩ := h4
  simp only [mkResult]
  rw [← hk2]
  simp
  exact hk

/-- Witness of C6: the Result of job 1 held by the worker, after six rounds. -/
theorem c6_causal_order_witness :
    (mkResult { id := 1, randomno := 589 }).job ∈ (exec smallConfig (roundRobin 6)).sent :=
  (c6_causal_order smallConfig (exec smallConfig (roundRobin 6)) (reachable_exec _ _)
    (mkResult { id := 1, randomno := 589 })
    (Or.inr (Or.inr (List.mem_singleton.mpr rfl)))).1

/-- C7: for `noOfJobs ≥ 0`, in every reachable state the operations `allocate` has
performed on `jobs` are sends of Jobs with ids `0, 1, ...` in this order, at most `noOfJobs` of
them, followed by one close exactly when `allocate` has returned, in which case exactly
`noOfJobs` Jobs were sent; after that no step adds an operation; and with at least one worker
draining `jobs`, `allocate` has returned by the time `results` is closed.  `allocate` does
perform these operations: with at least one worker, at its loop test with counter `i` it has
sent `i` Jobs, and, for every value `r` of `rand.Intn(999)`, its step is the send of the Job with
id `i` when `i < noOfJobs` and the buffer has room, and the close of `jobs` and its return when
`i ≥ noOfJobs`; while it waits at a full buffer a worker at its receive takes the oldest Job;
and with capacities at least one some goroutine can step until `main` returns, every step uses
up a bound, and a state without enabled step is one where `allocate` has returned, having sent
exactly `noOfJobs` Jobs and closed `jobs`. -/
theorem c7_allocate (cfg : Config) (s : State) (hJ : 0 ≤ cfg.noOfJobs) (hr : Reachable cfg s) :
    s.jobsLog = s.sent.map JobsOp.send ++ (if s.alloc = .finished then [JobsOp.close] else []) ∧
    s.sent.map Job.id = (List.range s.sent.length).map Int.ofNat ∧
    (s.sent.length : Int) ≤ cfg.noOfJobs ∧
    (s.alloc = .finished → (s.sent.length : Int) = cfg.noOfJobs) ∧
    (s.alloc = .finished → ∀ a t, step cfg s a = some t →
      t.jobsLog = s.jobsLog ∧ t.alloc = .finished) ∧
    (1 ≤ cfg.noOfWorkers → s.results.closed = true → s.alloc = .finished) ∧
    (1 ≤ cfg.noOfWorkers → ∀ i, s.alloc = .loop i →
      s.sent.length = i ∧
      ((i : Int) < cfg.noOfJobs → s.jobs.buf.length < s.jobs.cap →
        ∀ r : Int, 0 ≤ r → r < 999 →
          step cfg s (.allocate r) =
            some { s with
              jobs := { s.jobs with buf := s.jobs.buf ++ [{ id := i, randomno := r }] },
              alloc := .loop (i + 1),
              jobsLog := s.jobsLog ++ [.send { id := i, randomno := r }] }) ∧
      (¬ (i : Int) < cfg.noOfJobs → ∀ r : Int,
        step cfg s (.allocate r) =
          some { s with jobs := { s.jobs with closed := true }, alloc := .finished,
                        jobsLog := s.jobsLog ++ [.close] })) ∧
    (1 ≤ cfg.noOfWorkers → 1 ≤ cfg.jobsCap → 1 ≤ cfg.resultsCap →
      (s.alloc ≠ .finished → ¬ s.jobs.buf.length < s.jobs.cap →
        ∀ w, s.workers[w]? = some .recv →
          ∃ job rest, s.jobs.buf = job :: rest ∧
            step cfg s (.worker w) =
              some { s with jobs := { s.jobs with buf := rest },
                            workers := s.workers.set w (.send (mkResult job)),
                            dequeued := s.dequeued ++ [(w, job)] }) ∧
      (s.main ≠ .finished → ∃ a t, step cfg s a = some t) ∧
      (∀ a t, step cfg s a = some t → remaining cfg t < remaining cfg s) ∧
      ((∀ a, step cfg s a = none) →
        s.alloc = .finished ∧ (s.sent.length : Int) = cfg.noOfJobs ∧
          s.jobsLog = s.sent.map JobsOp.send ++ [JobsOp.close])) := by
  have h := inv_of_reachable cfg s hr
  have hle := sent_length_le cfg s h
  refine ⟨h.jobsLogShape.symm, h.sentIds, by omega, ?_, ?_, ?_, ?_, ?_⟩
  · intro hf
    have := h.sentFinished hf
    omega
  · intro hf a t hs
    exact step_jobsLog_of_finished cfg s t a h hs hf
  · intro hW hc
    exact (inv_closed cfg s h hW hc).1
  · intro hW i ha
    exact ⟨(h.sentLoop i ha).1,
      fun hi hroom r hr0 hr1 => allocate_sends cfg s h hW i ha hi hroom r hr0 hr1,
      fun hi r => allocate_closes cfg s h hW i ha hi r⟩
  · intro hW hjc hrc
    refine ⟨fun ha hfull w hw => allocate_drained cfg s h hW hjc ha hfull w hw,
      pool_progress cfg s h hjc hrc, fun a t hs => step_remaining_lt cfg s t a h hs, ?_⟩
    intro hnone
    have hfin : s.main = .finished := by
      by_contra hne
      obtain ⟨a, t, hs⟩ := pool_progress cfg s h hjc hrc hne
      rw [hnone a] at hs
      simp at hs
    have ha : s.alloc = .finished :=
      (inv_closed cfg s h hW (h.resultsClosed.mpr (Or.inr hfin))).1
    have hlen := h.sentFinished ha
    refine ⟨ha, by omega, ?_⟩
    rw [← h.jobsLogShape, if_pos ha]

/-- Witness of C7: five Jobs, one worker, capacity one.  When `main` has started `allocate`,
the step of `allocate` is the send of Job `0`; at the end of the run `allocate` has sent the
Jobs `0, ..., 4` in this order and then closed `jobs`.  With no job, `allocate` only closes
`jobs`. -/
theorem c7_allocate_witness :
    ((step smallConfig (exec smallConfig [Action.main]) (.allocate 589)).map fun t =>
        (t.alloc, t.jobsLog)) =
      some (.loop 1, [JobsOp.send { id := 0, randomno := 589 }]) ∧
    (exec smallConfig (roundRobin 18)).alloc = .finished ∧
    (exec smallConfig (roundRobin 18)).jobsLog =
      [JobsOp.send { id := 0, randomno := 589 }, JobsOp.send { id := 1, randomno := 589 },
        JobsOp.send { id := 2, randomno := 589 }, JobsOp.send { id := 3, randomno := 589 },
        JobsOp.send { id := 4, randomno := 589 }, JobsOp.close] ∧
    (∀ a, step smallConfig (exec smallConfig (roundRobin 18)) a = none) ∧
    (exec emptyConfig emptySchedule).alloc = .finished ∧
    (exec emptyConfig emptySchedule).jobsLog = [JobsOp.close] :=
  have h0 := ((c7_allocate smallConfig (exec smallConfig [Action.main]) (by decide)
    (reachable_exec _ _)).2.2.2.2.2.2.1 (by decide) 0 (by decide)).2.1 (by decide) (by decide)
    589 (by decide) (by decide)
  have h18 := c7_allocate smallConfig (exec smallConfig (roundRobin 18)) (by decide)
    (reachable_exec _ _)
  have hstuck : ∀ a, step smallConfig (exec smallConfig (roundRobin 18)) a = none := by
    intro a
    have hm : (exec smallConfig (roundRobin 18)).main = .finished := by decide
    simp [step, hm]
  have hend := (h18.2.2.2.2.2.2.2 (by decide) (by decide) (by decide)).2.2.2 hstuck
  ⟨by rw [h0]; decide, hend.1, h18.1.trans (by decide), hstuck, by decide,
    (c7_allocate emptyConfig (exec emptyConfig emptySchedule) (by decide)
      (reachable_exec _ _)).1.trans (by decide)⟩

/-- C8: for every integer `n ≥ 0`, `digits n` is the sum of the decimal digits of `n`, and
`digits 0 = 0`; and every Result sent on `results` carries a Job that was received from `jobs`,
unchanged, and as `sumofdigits` the value `digits job.randomno`, which is the sum of the decimal
digits of `job.randomno`. -/
theorem c8_digit_sum (n : Int) (hn : 0 ≤ n) (cfg : Config) (s : State) (hr : Reachable cfg s)
    (r : Result) (hmem : r ∈ s.resultsLog) :
    digits n = ((Nat.digits 10 n.toNat).sum : Nat) ∧ digits 0 = 0 ∧
    (∃ w, (w, r.job) ∈ s.dequeued) ∧ r.job ∈ s.sent ∧
    r.sumofdigits = digits r.job.randomno ∧
    r.sumofdigits = ((Nat.digits 10 r.job.randomno.toNat).sum : Nat) := by
  have h := inv_of_reachable cfg s hr
  have h1 : r ∈ s.resultsLog ++ s.heldResults := List.mem_append_left _ hmem
  have h2 := h.resultsPerm.mem_iff.mpr h1
  simp only [List.mem_map] at h2
  obtain ⟨p, hp, rfl⟩ := h2
  have h3 : p.2 ∈ s.sent := by
    rw [h.sentSplit]
    simp only [List.mem_append, List.mem_map]
    exact Or.inl ⟨p, hp, rfl⟩
  refine ⟨digits_nonneg_eq n hn, digitsLoop_zero 0, ⟨p.1, hp⟩, h3, rfl, ?_⟩
  exact digits_nonneg_eq _ (h.sentRand _ h3).1

/-- Witness of C8: `digits 589 = 22`, and the first Result sent in a run with five jobs. -/
theorem c8_digit_sum_witness :
    digits 589 = 22 ∧ (mkResult { id := 0, randomno := 589 }).sumofdigits = 22 :=
  have h := c8_digit_sum 589 (by decide) smallConfig (exec smallConfig (roundRobin 6))
    (reachable_exec _ _) (mkResult { id := 0, randomno := 589 }) (List.mem_singleton.mpr rfl)
  ⟨h.1.trans (by simp), h.2.2.2.2.2.trans (by simp [mkResult])⟩

/-- C9: in every reachable state at most one send on `done` has completed, one has completed
exactly when `result` has returned, and whenever `result` is at or past `done <- true` the
channel `results` is closed and empty and every Result ever sent on it has been printed. -/
theorem c9_done_once (cfg : Config) (s : State) (hr : Reachable cfg s) :
    s.doneSignals ≤ 1 ∧ (s.doneSignals = 1 ↔ s.consumer = .finished) ∧
    (s.consumer = .sendDone ∨ s.consumer = .finished →
      s.results.closed = true ∧ s.results.buf = [] ∧ s.printed = s.resultsLog) := by
  have h := inv_of_reachable cfg s hr
  have hd := h.doneCount
  refine ⟨?_, ?_, ?_⟩
  · split at hd <;> omega
  · split at hd
    · simp [*]
    · simp [*]
  · intro hc
    obtain ⟨h1, h2⟩ := h.consDone hc
    refine ⟨h1, h2, ?_⟩
    rw [h.resultsSplit, h2, List.append_nil]

/-- Witness of C9: the end of the run with five jobs and one worker. -/
theorem c9_done_once_witness :
    (exec smallConfig (roundRobin 18)).doneSignals = 1 ∧
    (exec smallConfig (roundRobin 18)).printed = (exec smallConfig (roundRobin 18)).resultsLog :=
  have h := c9_done_once smallConfig (exec smallConfig (roundRobin 18)) (reachable_exec _ _)
  ⟨h.2.1.mpr (by decide), (h.2.2 (Or.inr (by decide))).2.2⟩

/-- C10: on a channel of capacity two with no receiver the first two sends complete and
the third blocks; in the program of `23-buffered-channels-and-worker-pools/03` the two sends
`"naveen"` and `"paul"` complete, the send `ch <- "steve"` blocks and `main` cannot step, so at
every time `main` has completed at most two statements, has printed nothing and has not
panicked. -/
theorem c10_backpressure :
    (∀ (α : Type) (a b c : α), ∃ q1 q2 : Chan α, (Chan.make 2 : Chan α).send a = .ok q1 ∧
      q1.send b = .ok q2 ∧ q2.send c = .blocked) ∧
    (∃ s1 s2, Prog03.step Prog03.init = some s1 ∧ Prog03.step s1 = some s2 ∧
      s2.pc = 2 ∧ s2.ch.buf = ["naveen", "paul"] ∧ s2.ch.send "steve" = .blocked ∧
      Prog03.step s2 = none) ∧
    (∀ n, (Prog03.run n).pc ≤ 2 ∧ (Prog03.run n).out = [] ∧
      (Prog03.run n).panicked = false) := by
  refine ⟨?_, ?_, ?_⟩
  · intro α a b c
    obtain ⟨q1, q2, h1, h2, h3, -⟩ := chan_two_sends_then_blocked α a b c
    exact ⟨q1, q2, h1, h2, h3⟩
  · exact ⟨Prog03.run 1, Prog03.run 2, rfl, rfl, rfl, rfl, rfl, prog03_stuck⟩
  · intro n
    match n with
    | 0 => exact ⟨by decide, rfl, rfl⟩
    | 1 => exact ⟨by decide, rfl, rfl⟩
    | n + 2 => rw [prog03_run_ge n, prog03_run_two]; exact ⟨le_refl _, rfl, rfl⟩

/-- C11: on a buffered channel that is open, after sending a sequence of values that fits
in the remaining capacity and closing the channel, the loop `for v := range ch` receives the
values buffered before followed by the values sent, in send order, and ends, leaving the
channel empty; a later send panics; a receive reports `ok = false` exactly when the channel is
closed and empty.  The program of `23-buffered-channels-and-worker-pools/05` prints `5` then `6`
and returns; in `22-channels/07`, under every interleaving, main leaves its loop only when the
channel is closed, having received `0, ..., 9`, each with `ok = true`, and it does leave it:
before that some goroutine can step and every step uses up a bound. -/
theorem c11_close_keeps_buffered (α : Type) (c : Chan α) (vs : List α)
    (hopen : c.closed = false) (hcap : c.buf.length + vs.length ≤ c.cap) :
    (∃ c1 c2, c.sendAll vs = .ok c1 ∧ c1.close = .ok c2 ∧ c2.closed = true ∧
      c2.rangeLoop [] = .ended (c.buf ++ vs) { c2 with buf := [] } ∧
      ∀ v, c2.send v = .panic) ∧
    (∀ d : Chan α, d.recv = .closedEmpty ↔ d.closed = true ∧ d.buf = []) ∧
    ((Prog05.run 6).out = [5, 6] ∧ (Prog05.run 6).pc = 4 ∧ Prog05.step (Prog05.run 6) = none ∧
      ∀ n, (Prog05.run n).out <+: [5, 6]) ∧
    (∀ s, Prog07.Reachable s →
      (s.main = .ended → s.closed = true ∧ s.out = Prog07.received 10) ∧
      (∀ p ∈ s.out, p.2 = true) ∧
      (s.main ≠ .ended → ∃ a t, Prog07.step s a = some t) ∧
      ∀ a t, Prog07.step s a = some t → Prog07.remaining t < Prog07.remaining s) := by
  refine ⟨?_, Chan.recv_closedEmpty_iff, ⟨rfl, rfl, rfl, prog05_out_initial⟩, ?_⟩
  · refine ⟨_, { buf := c.buf ++ vs, cap := c.cap, closed := true },
      Chan.sendAll_ok vs c hopen hcap, by simp [Chan.close, hopen], rfl, ?_, ?_⟩
    · simpa using Chan.rangeLoop_closed (c.buf ++ vs) c.cap []
    · intro v; simp [Chan.send]
  · intro s hr
    have h := prog07_inv s hr
    refine ⟨?_, ?_, prog07_progress s h, fun a t hs => prog07_step_remaining_lt s t a h hs⟩
    · intro hm
      cases hp : s.producer with
      | notStarted => have := (h.notStarted hp).1; simp [hm] at this
      | loop i => have := (h.loop i hp).1; simp [hm] at this
      | finished => exact ⟨(h.finished hp).2.1, (h.finished hp).1⟩
    · intro p hp
      have hall : ∀ i, ∀ p ∈ Prog07.received i, p.2 = true := by
        intro i p hp
        simp only [Prog07.received, List.mem_map] at hp
        obtain ⟨k, -, rfl⟩ := hp
        rfl
      cases hpr : s.producer with
      | notStarted => rw [(h.notStarted hpr).2.1] at hp; simp at hp
      | loop i => rw [(h.loop i hpr).2.1] at hp; exact hall i p hp
      | finished => rw [(h.finished hpr).1] at hp; exact hall 10 p hp

/-- Witness of C11: the channel and the values of `23-buffered-channels-and-worker-pools/05`. -/
theorem c11_close_keeps_buffered_witness :
    ∃ c1 c2, (Chan.make 5 : Chan Int).sendAll [5, 6] = .ok c1 ∧ c1.close = .ok c2 ∧
      c2.rangeLoop [] = .ended [5, 6] { c2 with buf := [] } :=
  have h := (c11_close_keeps_buffered Int (Chan.make 5) [5, 6] rfl (by decide)).1
  h.imp fun _ h1 => h1.imp fun _ h2 => ⟨h2.1, h2.2.1, h2.2.2.2.1⟩

/-- C12: in the program of `25-mutex/02` with `n ≥ 0` goroutines (`n = 1000` in the source),
under every interleaving, whatever `main` prints after `w.Wait()` is `n`: no increment is
lost.  At every moment `x` is the number of goroutines that have written, at most one goroutine
is between `Lock` and `Unlock`, and the program has not panicked; as long as `main` has not
returned some goroutine can take a step, and every step uses up a bound, so `main` does
print. -/
theorem c12_mutex_counter (n : Int) (hn : 0 ≤ n) (s : Mutex02.State)
    (hr : Mutex02.Reachable n s) :
    (∀ v, s.printed = some v → v = n) ∧
    (s.main = .print ∨ s.main = .finished → s.x = n) ∧
    s.x = (s.incs.countP Mutex02.IncPc.wrote : Nat) ∧
    s.incs.countP Mutex02.IncPc.holds ≤ 1 ∧ s.panicked = false ∧
    (s.main ≠ .finished → ∃ a t, Mutex02.step n s a = some t) ∧
    (∀ a t, Mutex02.step n s a = some t → Mutex02.remaining n t < Mutex02.remaining n s) := by
  have h := mutex_inv_of_reachable n s hr
  refine ⟨?_, mutex_joined_x n hn s h, h.xCount, ?_, h.noPanic, mutex_progress n s h,
    fun a t hs => mutex_step_remaining_lt n s t a h hs⟩
  · intro v hv
    have hm : s.main = .finished := by
      by_contra hne
      rw [h.printedNone hne] at hv
      simp at hv
    rw [h.printedSome hm] at hv
    simp only [Option.some.injEq] at hv
    rw [← hv]
    exact mutex_joined_x n hn s h (Or.inr hm)
  · have := h.holders
    split at this <;> omega

/-- Witness of C12: the run of the 1000 goroutines one after the other prints `1000`. -/
theorem c12_mutex_counter_witness :
    (Mutex02.exec Mutex02.goroutines (Mutex02.oneByOne 1000)).printed = some 1000 ∧
    (Mutex02.exec Mutex02.goroutines (Mutex02.oneByOne 1000)).x = Mutex02.goroutines :=
  have hm := mutex_exec_oneByOne 1000
  have h := c12_mutex_counter Mutex02.goroutines (by decide)
    (Mutex02.exec Mutex02.goroutines (Mutex02.oneByOne 1000)) (mutex_reachable_exec _ _)
  ⟨hm.1, h.2.1 (Or.inr hm.2)⟩

/-- C13: `createWorkerPool` does not check its worker count.  For every configuration with
`noOfWorkers <= 0` (any job count, any capacities) and every reachable state: no worker has been
started, the WaitGroup counter is zero, no Job has been dequeued and no Result has been sent or
printed; at the loop test of `createWorkerPool` the loop is left and `wg.Wait()` returns in the
same step, and the next step of `main` closes `results`; until `main` returns, `main` or
`result` can step, and every step uses up a bound, so `main` does return; when it has, `result`
has signalled once, having printed nothing, so for a positive job count the Results do not match
the Jobs.  Such a final state is reached. -/
theorem c13_no_worker_check (cfg : Config) (hW : cfg.noOfWorkers ≤ 0) :
    (∀ s, Reachable cfg s →
      s.workers = [] ∧ s.wg = 0 ∧ s.dequeued = [] ∧ s.resultsLog = [] ∧ s.printed = [] ∧
      (∀ i, s.main = .poolLoop i → i = 0 ∧ mainStep cfg s = some { s with main := .poolClose }) ∧
      (s.main = .poolClose →
        mainStep cfg s = some { s with results := { s.results with closed := true },
                                       main := .recvDone }) ∧
      (s.main ≠ .finished →
        (∃ t, step cfg s .main = some t) ∨ ∃ t, step cfg s .result = some t) ∧
      (∀ a t, step cfg s a = some t → remaining cfg t < remaining cfg s) ∧
      (s.main = .finished → s.doneSignals = 1 ∧
        (0 < cfg.noOfJobs → (s.printed.length : Int) ≠ cfg.noOfJobs))) ∧
    (∃ s, Reachable cfg s ∧ s.main = .finished ∧ s.doneSignals = 1 ∧ s.printed = []) := by
  have hex := exec_mainOnly cfg hW
  refine ⟨?_, ⟨_, reachable_exec cfg mainOnlySchedule, hex.1, hex.2.1, hex.2.2.1⟩⟩
  intro s hr
  have h := inv_of_reachable cfg s hr
  obtain ⟨h1, h2, h3, h4, h5⟩ := no_worker_inv cfg hW s h
  refine ⟨h1, h2, h3, h4, h5, ?_, ?_, no_worker_progress cfg hW s h,
    fun a t hs => step_remaining_lt cfg s t a h hs, ?_⟩
  · intro i hm
    have hi := (h.workersLoop i hm).1
    rw [h1] at hi
    simp at hi
    subst hi
    have h0 : ¬ ((0 : Int) < cfg.noOfWorkers) := by omega
    simp [mainStep, hm, h0, h2]
  · intro hm
    have hc : s.results.closed = false := by
      cases hc : s.results.closed
      · rfl
      · have := h.resultsClosed.mp hc
        simp [hm] at this
    simp [mainStep, hm, Chan.close, hc]
  · intro hm
    have hd := h.doneCount
    rw [if_pos (h.consFinished.mpr hm)] at hd
    refine ⟨hd, fun hJ => ?_⟩
    rw [h5]
    simp
    omega

/-- Witness of C13: five Jobs and no worker.  The run in which only `main` and `result` step
ends with one signal and nothing printed, and so does every other run. -/
theorem c13_no_worker_check_witness :
    noWorkerConfig.noOfWorkers ≤ 0 ∧
    (exec noWorkerConfig mainOnlySchedule).main = .finished ∧
    (exec noWorkerConfig mainOnlySchedule).doneSignals = 1 ∧
    (exec noWorkerConfig mainOnlySchedule).printed = [] ∧
    ((exec noWorkerConfig mainOnlySchedule).printed.length : Int) ≠ noWorkerConfig.noOfJobs :=
  have h := (c13_no_worker_check noWorkerConfig (by decide)).1 _
    (reachable_exec noWorkerConfig mainOnlySchedule)
  have hf : (exec noWorkerConfig mainOnlySchedule).main = .finished := by decide
  ⟨by decide, hf, (h.2.2.2.2.2.2.2.2.2 hf).1, h.2.2.2.2.1,
    (h.2.2.2.2.2.2.2.2.2 hf).2 (by decide)⟩

/-- C14: The pipelined program `22-channels/09` computes what the loops of `22-channels/04`
compute, for every integer `number` and under every interleaving.  In every reachable state of
the pipelined program: the value `calcSquares` is about to send on its output channel is the
value `calcSquares` of the loop program computes, and likewise for `calcCubes`; once a `digits`
goroutine has returned it has closed its channel and has sent exactly the values of its loop,
and before that the channel is open and what it has sent is a prefix of them; nothing panics;
when `main` has returned it has printed the sum of the two loop values; before that some
goroutine can step, and every step uses up a bound, so the program ends.  In every reachable
state of the loop program the values at the sends and the number printed are the same ones, and
that program returns too.  The values `digits` sends are the decimal digits of `|number|`,
least significant first, each with the sign of `number`.  For 589 the digits are 9, 8, 5 and the
two values are 170 and 1366. -/
theorem c14_pipeline_equals_loops (number : Int) :
    (∀ s, Prog09.Reachable number s →
      (∀ sum, s.squares.calcPc = .send sum → sum = Prog04.calcSquares number) ∧
      (∀ sum, s.cubes.calcPc = .send sum → sum = Prog04.calcCubes number) ∧
      (s.squares.digitsPc = .finished →
        s.squares.closed = true ∧ s.squares.emitted = Prog09.digitsSent number) ∧
      (s.cubes.digitsPc = .finished →
        s.cubes.closed = true ∧ s.cubes.emitted = Prog09.digitsSent number) ∧
      (s.squares.digitsPc ≠ .finished →
        s.squares.closed = false ∧ s.squares.emitted <+: Prog09.digitsSent number) ∧
      (s.cubes.digitsPc ≠ .finished →
        s.cubes.closed = false ∧ s.cubes.emitted <+: Prog09.digitsSent number) ∧
      s.squares.panicked = false ∧ s.cubes.panicked = false ∧
      (s.main = .finished →
        s.printed = some (Prog04.calcSquares number + Prog04.calcCubes number)) ∧
      (s.main ≠ .finished → ∃ a t, Prog09.step number s a = some t) ∧
      (∀ a t, Prog09.step number s a = some t →
        Prog09.remaining number t < Prog09.remaining number s)) ∧
    (∀ s, Prog04.Reachable number s →
      (∀ sum, s.squares = .send sum → sum = Prog04.calcSquares number) ∧
      (∀ sum, s.cubes = .send sum → sum = Prog04.calcCubes number) ∧
      (s.main = .finished →
        s.printed = some (Prog04.calcSquares number + Prog04.calcCubes number))) ∧
    (Prog04.exec number [.main, .main, .calcSquares, .calcCubes, .main]).main = .finished ∧
    Prog09.digitsSent number =
      ((Nat.digits 10 number.natAbs).map fun (d : Nat) => Int.sign number * (d : Int)) ∧
    (number = 589 → Prog09.digitsSent number = [9, 8, 5] ∧
      Prog04.calcSquares number = 170 ∧ Prog04.calcCubes number = 1366) := by
  refine ⟨fun s hr => ?_, fun s hr => ?_, prog04_exec_finished number, digitsSent_sign number,
    ?_⟩
  · have h := prog09_inv number s hr
    refine ⟨fun sum hc => (pipeInv_sent _ number _ h.squares sum hc).2.1,
      fun sum hc => (pipeInv_sent _ number _ h.cubes sum hc).2.1,
      fun hd => ⟨(h.squares.finished hd).1, (h.squares.finished hd).2.1⟩,
      fun hd => ⟨(h.cubes.finished hd).1, (h.cubes.finished hd).2.1⟩,
      fun hd => ?_, fun hd => ?_, h.squares.noPanic, h.cubes.noPanic, h.printedSome,
      prog09_progress number s h, fun a t hs => prog09_step_remaining_lt number s t a h hs⟩
    · cases hp : s.squares.digitsPc with
      | finished => exact absurd hp hd
      | notStarted =>
        obtain ⟨-, h1, h2⟩ := h.squares.notStarted hp
        exact ⟨h1, ⟨_, by rw [h2]; rfl⟩⟩
      | loop n =>
        obtain ⟨h1, h2, -⟩ := h.squares.loop n hp
        exact ⟨h1, ⟨_, h2⟩⟩
    · cases hp : s.cubes.digitsPc with
      | finished => exact absurd hp hd
      | notStarted =>
        obtain ⟨-, h1, h2⟩ := h.cubes.notStarted hp
        exact ⟨h1, ⟨_, by rw [h2]; rfl⟩⟩
      | loop n =>
        obtain ⟨h1, h2, -⟩ := h.cubes.loop n hp
        exact ⟨h1, ⟨_, h2⟩⟩
  · have h := prog04_inv number s hr
    exact ⟨h.squaresSend, h.cubesSend, h.printedSome⟩
  · rintro rfl
    refine ⟨?_, calcSquares_589, calcCubes_589⟩
    simp [digitsSent_ne, digitsSent_zero, Int.tmod, Int.tdiv]

/-- For 589 the round-robin run of the pipelined program and the run of the loop program both
return having printed 1536, and `digits` sends 9, 8, 5. -/
theorem c14_pipeline_equals_loops_witness :
    (Prog09.exec 589 (Prog09.roundRobin 9)).printed = some 1536 ∧
      (Prog04.exec 589 [.main, .main, .calcSquares, .calcCubes, .main]).printed = some 1536 ∧
      Prog09.digitsSent 589 = [9, 8, 5] :=
  have h := c14_pipeline_equals_loops 589
  have h9 := (h.1 _ (prog09_reachable_exec 589 (Prog09.roundRobin 9))).2.2.2.2.2.2.2.2.1
    (by decide)
  have h4 := (h.2.1 _ (prog04_reachable_exec 589 [.main, .main, .calcSquares, .calcCubes,
    .main])).2.2 h.2.2.1
  have hv := h.2.2.2.2 rfl
  ⟨h9.trans (by rw [hv.2.1, hv.2.2]; rfl), h4.trans (by rw [hv.2.1, hv.2.2]; rfl), hv.1⟩

/-- C15: for every integer `n` the loop of `digits` is left after finitely many passes (as
many as `n` has decimal digits, the number left shrinking in absolute value at every pass) with
the value `digits n`; `digits (-n) = -digits n`, and on `n ≤ 0` the value is the negated digit
sum of `|n|`; for `|n| < 2^63` there are at most 19 passes and every intermediate sum is at most
171 in absolute value and every intermediate number at most `|n|`, so the 64-bit computation
is the one modelled. -/
theorem c15_digits_total_odd (n : Int) :
    ((digitsBody^[(Nat.digits 10 n.natAbs).length] (0, n)).2 = 0 ∧
      (∀ j, j < (Nat.digits 10 n.natAbs).length → (digitsBody^[j] (0, n)).2 ≠ 0) ∧
      (digitsBody^[(Nat.digits 10 n.natAbs).length] (0, n)).1 = digits n) ∧
    (∀ no : Int, no ≠ 0 → (Int.tdiv no 10).natAbs < no.natAbs) ∧
    digits (-n) = -digits n ∧
    (n ≤ 0 → digits n = -(((Nat.digits 10 n.natAbs).sum : Nat) : Int)) ∧
    (n.natAbs < 2 ^ 63 → (Nat.digits 10 n.natAbs).length ≤ 19 ∧
      ∀ j, j ≤ (Nat.digits 10 n.natAbs).length →
        (digitsBody^[j] (0, n)).1.natAbs ≤ 171 ∧ (digitsBody^[j] (0, n)).2.natAbs < 2 ^ 63) := by
  refine ⟨digitsLoop_iterate 0 n, natAbs_tdiv_ten_lt, digits_neg n, digits_nonpos_eq n, ?_⟩
  intro hn
  have hlen := digits_length_le n.natAbs hn
  refine ⟨hlen, fun j hj => ?_⟩
  obtain ⟨h1, h2⟩ := digitsBody_iterate_bound j 0 n
  simp only [sub_zero] at h1
  constructor <;> omega

/-- Witness of C15: on `-589` the loop is left after three passes with `-22`. -/
theorem c15_digits_total_odd_witness :
    digits (-589) = -22 ∧ (digitsBody^[3] (0, -589)) = (-22, 0) ∧
      (Nat.digits 10 (-589 : Int).natAbs).length ≤ 19 :=
  have h := c15_digits_total_odd (-589)
  ⟨(h.2.2.2.1 (by decide)).trans (by simp), by decide, (h.2.2.2.2 (by decide)).1⟩

end Golangbot
